import Mathlib

/-! CPU scheduling simulation (`lab_3.cpp`): SJF and priority scheduling with aging

A shallow embedding of the two scheduling engines of `lab_3.cpp` and proofs of
their timing contracts.

Modelling conventions.

* C++ `int` is modelled by `Int`: signed overflow is undefined behaviour in
  C++, so every statement below is about runs in which no overflow occurs.
* A `Process*` is modelled by the position (`Nat`) of the record inside the
  vector `processes` (after the initial `std::sort` by arrival time).  The
  declaration `std::vector<Process*> processesReady = processes;` is read as
  one pointer per record, in vector order; `readyQueue` receives these same
  pointers, and both engines write through them into `processes`.
* `std::sort` is an unstable sort: for a strict weak ordering it returns some
  permutation of its input that is ordered by the comparator, and nothing more
  is promised.  The engines are therefore parameterised by a `Sorter`, any
  function with exactly that contract; `insertionSorter` is one such function.
* Console output is not modelled; `sjf` and `prioritySchedulingWithAging`
  return the vector `processes` as the C++ functions leave it, and
  `calculateAverageTimes` returns the two averages it prints.
* The arithmetic of `double` is not fixed: `calculateAverageTimes` is
  parameterised by a `DoubleArith`, any type with the conversions, the addition
  and the division the function uses, so that what is proved of it holds
  whatever these operations round to and whatever a division by zero yields.
  `symbolic` is the arithmetic that performs no operation and keeps the
  expression.
-/

namespace Lab3

/-! ## Data model -/

/-- The record `struct Process`. -/
structure Process where
  id : Int
  arrivalTime : Int
  burstTime : Int
  remainingTime : Int
  priority : Int
  startTime : Int
  finishTime : Int
  waitingTime : Int
  turnAroundTime : Int
  deriving DecidableEq

/-- The constructor `Process(_id, _arrivalTime, _burstTime, _priority)`. -/
def Process.new (id arrivalTime burstTime priority : Int) : Process :=
  { id := id, arrivalTime := arrivalTime, burstTime := burstTime,
    remainingTime := burstTime, priority := priority, startTime := -1,
    finishTime := -1, waitingTime := 0, turnAroundTime := 0 }

/-! ## `std::sort` -/

/-- The precondition of `std::sort` on its comparator: a strict weak ordering. -/
def StrictWeak {α : Type} (lt : α → α → Bool) : Prop :=
  (∀ a, lt a a = false) ∧
  (∀ a b c, lt a b = true → lt b c = true → lt a c = true) ∧
  (∀ a b c, lt a b = false → lt b a = false → lt b c = false → lt c b = false →
    lt a c = false ∧ lt c a = false)

/-- The contract of `std::sort`: the result is a permutation of the input, and
when the comparator is a strict weak ordering no element is followed by a
strictly smaller one. -/
structure Sorter where
  sort : {α : Type} → (α → α → Bool) → List α → List α
  perm : ∀ {α : Type} (lt : α → α → Bool) (l : List α), (sort lt l).Perm l
  sorted : ∀ {α : Type} (lt : α → α → Bool) (l : List α), StrictWeak lt →
    (sort lt l).Pairwise (fun a b => lt b a = false)

/-- Insertion of `x` into a sorted vector, behind every element that precedes
it in the comparator and in front of the first that does not. -/
def insertSorted {α : Type} (lt : α → α → Bool) (x : α) : List α → List α
  | [] => [x]
  | y :: ys => if lt y x then y :: insertSorted lt x ys else x :: y :: ys

/-- Insertion sort (stable: equivalent elements keep their input order). -/
def isort {α : Type} (lt : α → α → Bool) : List α → List α
  | [] => []
  | x :: xs => insertSorted lt x (isort lt xs)

/-! ## The scheduling engines: one loop iteration -/

/-- Dereference of a `Process*` pointing into the vector `processes`. -/
def deref (procs : List Process) (i : Nat) : Process :=
  (procs[i]?).getD (Process.new 0 0 0 0)

/-- The variables of the scheduling loop: the vector `processes`, the clock
`time`, and the two pointer vectors `processesReady` (not yet arrived) and
`readyQueue`. -/
structure State where
  processes : List Process
  time : Int
  processesReady : List Nat
  readyQueue : List Nat

/-- The admission loop (lines 55-62 and 103-110): walks `processesReady` in
order; a pointer whose record has `arrivalTime <= time` is pushed to the back
of `readyQueue` and erased, any other pointer is kept.  Returns the new
`processesReady` and the new `readyQueue`. -/
def admitArrived (procs : List Process) (time : Int) : List Nat → List Nat → List Nat × List Nat
  | [], queue => ([], queue)
  | i :: rest, queue =>
    if (deref procs i).arrivalTime ≤ time then admitArrived procs time rest (queue ++ [i])
    else (i :: (admitArrived procs time rest queue).1, (admitArrived procs time rest queue).2)

/-- The writes to `*current` of lines 72-77 (and 128-133), where `time` is the
clock before `time += current->burstTime`: `startTime` is set if it is still
`-1`, `finishTime` is the advanced clock, `turnAroundTime` is
`finishTime - arrivalTime` and `waitingTime` is `turnAroundTime - burstTime`. -/
def runToCompletion (p : Process) (time : Int) : Process :=
  { p with
    startTime := if p.startTime = -1 then time else p.startTime
    finishTime := time + p.burstTime
    turnAroundTime := time + p.burstTime - p.arrivalTime
    waitingTime := time + p.burstTime - p.arrivalTime - p.burstTime }

/-- The comparator of line 66-68 on pointers: `a->burstTime < b->burstTime`. -/
def burstLt (procs : List Process) (a b : Nat) : Bool :=
  decide ((deref procs a).burstTime < (deref procs b).burstTime)

/-- The comparator of lines 121-123 on pointers. -/
def priorityLt (procs : List Process) (a b : Nat) : Bool :=
  decide ((deref procs a).priority < (deref procs b).priority) ||
    ((deref procs a).priority == (deref procs b).priority &&
      decide ((deref procs a).arrivalTime < (deref procs b).arrivalTime))

/-- The comparator of the initial sort (lines 47-49 and 95-97). -/
def arrivalLt (a b : Process) : Bool :=
  decide (a.arrivalTime < b.arrivalTime)

/-- The dispatch of lines 69-77: `current` is the front of the sorted queue, it
is erased from the queue, its record is written and the clock advances by its
burst time. -/
def dispatch (procs : List Process) (time : Int) (pending sorted : List Nat) : State :=
  let current := sorted.headD 0
  { processes := procs.set current (runToCompletion (deref procs current) time)
    time := time + (deref procs current).burstTime
    processesReady := pending
    readyQueue := sorted.tail }

/-- One iteration of the `while` loop of `sjf` (lines 55-80). -/
def sjfStep (S : Sorter) (s : State) : State :=
  let a := admitArrived s.processes s.time s.processesReady s.readyQueue
  if a.2 = [] then
    { processes := s.processes, time := s.time + 1, processesReady := a.1, readyQueue := a.2 }
  else
    dispatch s.processes s.time a.1 (S.sort (burstLt s.processes) a.2)

/-- The body of the aging loop (lines 115-117) for the pointer `i`: if
`time - arrivalTime >= agingInterval`, the record gets
`priority = max(1, priority - 1)`. -/
def ageOne (agingInterval time : Int) (ps : List Process) (i : Nat) : List Process :=
  if time - (deref ps i).arrivalTime ≥ agingInterval then
    ps.set i { deref ps i with priority := max 1 ((deref ps i).priority - 1) }
  else ps

/-- The aging loop `for (auto& p : readyQueue)` (lines 114-118): the body is
run for every pointer of `readyQueue`, in order. -/
def aging (agingInterval time : Int) (procs : List Process) (queue : List Nat) : List Process :=
  queue.foldl (ageOne agingInterval time) procs

/-- One iteration of the `while` loop of `prioritySchedulingWithAging`
(lines 103-136). -/
def priorityStep (S : Sorter) (agingInterval : Int) (s : State) : State :=
  let a := admitArrived s.processes s.time s.processesReady s.readyQueue
  if a.2 = [] then
    { processes := s.processes, time := s.time + 1, processesReady := a.1, readyQueue := a.2 }
  else
    let aged := aging agingInterval s.time s.processes a.2
    dispatch aged s.time a.1 (S.sort (priorityLt aged) a.2)

/-- The loop condition `!processesReady.empty() || !readyQueue.empty()`. -/
def State.busy (s : State) : Prop :=
  s.processesReady ≠ [] ∨ s.readyQueue ≠ []

instance (s : State) : Decidable s.busy :=
  inferInstanceAs (Decidable (s.processesReady ≠ [] ∨ s.readyQueue ≠ []))

/-- The state on entry to the loop: `time = 0`, `readyQueue` empty and
`processesReady` holding one pointer per record of `processes`, in order. -/
def State.init (procs : List Process) : State :=
  { processes := procs, time := 0, processesReady := List.range procs.length, readyQueue := [] }

/-- The state of `sjf` after `k` iterations of its loop body. -/
def sjfTrace (S : Sorter) (processes : List Process) (k : Nat) : State :=
  (sjfStep S)^[k] (State.init (S.sort arrivalLt processes))

/-- The state of `prioritySchedulingWithAging` after `k` iterations of its loop
body. -/
def priorityTrace (S : Sorter) (processes : List Process) (agingInterval : Int) (k : Nat) :
    State :=
  (priorityStep S agingInterval)^[k] (State.init (S.sort arrivalLt processes))

/-- The pointer `current` of the iteration of `sjf` started in state `s`
(line 69), or `none` for an idle tick. -/
def sjfCurrent (S : Sorter) (s : State) : Option Nat :=
  let a := admitArrived s.processes s.time s.processesReady s.readyQueue
  if a.2 = [] then none else some ((S.sort (burstLt s.processes) a.2).headD 0)

/-- The pointer `current` of the iteration of `prioritySchedulingWithAging`
started in state `s` (line 125), or `none` for an idle tick. -/
def priorityCurrent (S : Sorter) (agingInterval : Int) (s : State) : Option Nat :=
  let a := admitArrived s.processes s.time s.processesReady s.readyQueue
  if a.2 = [] then none
  else
    let aged := aging agingInterval s.time s.processes a.2
    some ((S.sort (priorityLt aged) a.2).headD 0)

/-- The operations on `double` that `calculateAverageTimes` uses: the
conversions from `int` (the initialiser `= 0` and the operand of `+=`) and from
the vector size, the addition of `+=` and the division of lines 156 and 157. -/
structure DoubleArith where
  /-- The values of type `double`. -/
  D : Type
  /-- The conversion from `int` to `double`. -/
  ofInt : Int → D
  /-- The conversion from `std::size_t` to `double`. -/
  ofSize : Nat → D
  /-- The addition of two `double` values. -/
  add : D → D → D
  /-- The division of two `double` values. -/
  div : D → D → D

/-- The function `calculateAverageTimes` (lines 149-158): both totals start at
`0` and receive the field of every record of the vector in turn (lines 150-154);
each total is then divided by `processes.size()` (lines 156 and 157).  The
result is the pair of values the function prints. -/
def calculateAverageTimes (F : DoubleArith) (processes : List Process) : F.D × F.D :=
  let totals := processes.foldl
    (fun acc p => (F.add acc.1 (F.ofInt p.waitingTime), F.add acc.2 (F.ofInt p.turnAroundTime)))
    (F.ofInt 0, F.ofInt 0)
  (F.div totals.1 (F.ofSize processes.length), F.div totals.2 (F.ofSize processes.length))

/-- Expressions over the operations of `DoubleArith`. -/
inductive DoubleExpr where
  | ofInt : Int → DoubleExpr
  | ofSize : Nat → DoubleExpr
  | add : DoubleExpr → DoubleExpr → DoubleExpr
  | div : DoubleExpr → DoubleExpr → DoubleExpr
  deriving DecidableEq

/-- The arithmetic that performs no operation and keeps the expression: a value
is the expression that the program evaluates to obtain it. -/
def symbolic : DoubleArith where
  D := DoubleExpr
  ofInt := DoubleExpr.ofInt
  ofSize := DoubleExpr.ofSize
  add := DoubleExpr.add
  div := DoubleExpr.div

/-- The value of `total` after `double total = 0; for (x : xs) total += x;`. -/
def DoubleArith.total (F : DoubleArith) (xs : List Int) : F.D :=
  xs.foldl (fun acc x => F.add acc (F.ofInt x)) (F.ofInt 0)

/-! ## The termination measure and the shape of an iteration -/

/-- Distance from the clock to the latest arrival among the pointers `l`. -/
def dist (procs : List Process) (time : Int) : List Nat → Nat
  | [] => 0
  | i :: rest => max ((deref procs i).arrivalTime - time).toNat (dist procs time rest)

/-- The termination measure of both loops: the number of unfinished processes,
then the distance from the clock to the latest pending arrival. -/
def State.measure (s : State) : Nat × Nat :=
  (s.processesReady.length + s.readyQueue.length, dist s.processes s.time s.processesReady)

/-- The queue after admission: the old `readyQueue` followed by the newly
arrived pointers of `processesReady`, in order. -/
def State.admitted (s : State) : List Nat :=
  s.readyQueue ++
    s.processesReady.filter (fun i => decide ((deref s.processes i).arrivalTime ≤ s.time))

/-- The vector `processesReady` after admission. -/
def State.notArrived (s : State) : List Nat :=
  s.processesReady.filter (fun i => !decide ((deref s.processes i).arrivalTime ≤ s.time))

/-- Two records that agree on every field but `priority`. -/
def Process.sameButPriority (p q : Process) : Prop :=
  q = { p with priority := q.priority }

/-- What one loop iteration of either engine does, as a relation between the
state before and the state after: an idle tick, or the dispatch of one pointer
`c` taken from the admitted queue after priorities may have been rewritten
(`procs` is the vector after that rewriting).  `Sel s procs c` records what the
policy promises about its choice. -/
inductive Iter (Sel : State → List Process → Nat → Prop) (s : State) : State → Prop
  | idle :
      s.readyQueue = [] →
      (∀ i ∈ s.processesReady, s.time < (deref s.processes i).arrivalTime) →
      Iter Sel s { processes := s.processes, time := s.time + 1,
                   processesReady := s.processesReady, readyQueue := [] }
  | run (procs : List Process) (c : Nat) (rest : List Nat) :
      procs.length = s.processes.length →
      (∀ i, (deref s.processes i).sameButPriority (deref procs i)) →
      (c :: rest).Perm s.admitted →
      Sel s procs c →
      Iter Sel s { processes := procs.set c (runToCompletion (deref procs c) s.time)
                   time := s.time + (deref procs c).burstTime
                   processesReady := s.notArrived
                   readyQueue := rest }

/-- The promise of the SJF policy: no priority is rewritten, and the chosen
pointer is the front of the sorted admitted queue, so no admitted record has a
smaller burst time. -/
def SelSjf (S : Sorter) (s : State) (procs : List Process) (c : Nat) : Prop :=
  procs = s.processes ∧ c = (S.sort (burstLt s.processes) s.admitted).headD 0 ∧
    ∀ x ∈ s.admitted, (deref s.processes c).burstTime ≤ (deref s.processes x).burstTime

/-- The promise of the priority policy: priorities are rewritten by the aging
loop over the admitted queue, and the chosen pointer is the front of the sorted
admitted queue, so no admitted record precedes it in the comparator. -/
def SelPriority (S : Sorter) (a : Int) (s : State) (procs : List Process) (c : Nat) : Prop :=
  procs = aging a s.time s.processes s.admitted ∧
    c = (S.sort (priorityLt procs) s.admitted).headD 0 ∧
    ∀ x ∈ s.admitted, priorityLt procs x c = false

/-! ## Vocabulary of the invariants -/

/-- A pointer that is still in one of the two pools. -/
def State.undispatched (s : State) (i : Nat) : Prop :=
  i ∈ s.processesReady ∨ i ∈ s.readyQueue

/-- A record of the vector whose pointer has left both pools. -/
def State.dispatched (s : State) (i : Nat) : Prop :=
  i < s.processes.length ∧ ¬ s.undispatched i

/-- The structural invariant of both loops, relative to the vector `P0` on
entry to the loop: the vector keeps its length, the two pools hold distinct
valid pointers, no record changes `id`, `arrivalTime` or `burstTime`, a record
still in a pool differs from its initial value in `priority` at most, and a
dispatched record carries the metrics computed from its finish time. -/
structure Inv (P0 : List Process) (s : State) : Prop where
  len : s.processes.length = P0.length
  nodup : (s.processesReady ++ s.readyQueue).Nodup
  bound : ∀ i, s.undispatched i → i < P0.length
  fixed : ∀ i, (deref s.processes i).id = (deref P0 i).id ∧
    (deref s.processes i).arrivalTime = (deref P0 i).arrivalTime ∧
    (deref s.processes i).burstTime = (deref P0 i).burstTime
  untouched : ∀ i, s.undispatched i → (deref P0 i).sameButPriority (deref s.processes i)
  metrics : ∀ i, s.dispatched i →
    (deref s.processes i).turnAroundTime =
      (deref s.processes i).finishTime - (deref s.processes i).arrivalTime ∧
    (deref s.processes i).waitingTime =
      (deref s.processes i).finishTime - (deref s.processes i).arrivalTime -
        (deref s.processes i).burstTime

/-- The timing invariant for workloads without negative burst times: queued
records have arrived, and dispatched records finished no later than the clock
after a non-negative wait. -/
structure Timing (s : State) : Prop where
  ready : ∀ i ∈ s.readyQueue, (deref s.processes i).arrivalTime ≤ s.time
  finished : ∀ i, s.dispatched i → (deref s.processes i).finishTime ≤ s.time
  waited : ∀ i, s.dispatched i → 0 ≤ (deref s.processes i).waitingTime

/-- On freshly constructed records, a dispatched record finishes one burst
after its start. -/
def Fresh (s : State) : Prop :=
  ∀ i, s.dispatched i →
    (deref s.processes i).finishTime =
      (deref s.processes i).startTime + (deref s.processes i).burstTime

/-- On freshly constructed records without negative burst times, a dispatched
record started at or after its arrival, and the execution intervals of two
dispatched records do not overlap. -/
structure FreshTiming (s : State) : Prop where
  started : ∀ i, s.dispatched i →
    (deref s.processes i).arrivalTime ≤ (deref s.processes i).startTime
  startLe : ∀ i, s.dispatched i → (deref s.processes i).startTime ≤ s.time
  disjoint : ∀ i j, s.dispatched i → s.dispatched j → i ≠ j →
    (deref s.processes i).finishTime ≤ (deref s.processes j).startTime ∨
    (deref s.processes j).finishTime ≤ (deref s.processes i).startTime

/-- The SJF invariant: a dispatched record `p` has a burst time no greater
than that of any record `q` that had arrived when `p` started and is either
still waiting or started later. -/
def Shortest (s : State) : Prop :=
  ∀ p q, s.dispatched p → q < s.processes.length →
    (deref s.processes q).arrivalTime ≤ (deref s.processes p).startTime →
    (s.undispatched q ∨ (deref s.processes p).startTime < (deref s.processes q).startTime) →
    (deref s.processes p).burstTime ≤ (deref s.processes q).burstTime

/-- A selection promise `Sel` and a function `cur` name the same pointer. -/
def Names (Sel : State → List Process → Nat → Prop) (cur : State → Option Nat) : Prop :=
  (∀ s procs c, Sel s procs c → s.admitted ≠ [] → cur s = some c) ∧
  (∀ s, s.admitted = [] → cur s = none)

/-- The dispatch history after `k` iterations from `s0`: a record is
dispatched exactly when some earlier iteration chose its pointer, that
iteration wrote its finish time, and no pointer was chosen twice. -/
def History (step : State → State) (cur : State → Option Nat) (s0 : State) (k : Nat) : Prop :=
  (∀ i, (step^[k] s0).dispatched i → ∃ j < k, cur (step^[j] s0) = some i) ∧
  (∀ j < k, ∀ i, cur (step^[j] s0) = some i →
    (step^[k] s0).dispatched i ∧
    (deref (step^[k] s0).processes i).finishTime =
      (step^[j] s0).time + (deref (step^[k] s0).processes i).burstTime) ∧
  (∀ j1 < k, ∀ j2 < k, ∀ i,
    cur (step^[j1] s0) = some i → cur (step^[j2] s0) = some i → j1 = j2)

/-- A record whose priority is at least 1 keeps a priority between 1 and its
old value. -/
def Process.agedFrom (p q : Process) : Prop :=
  1 ≤ p.priority → q.priority ≤ p.priority ∧ 1 ≤ q.priority

/-- The work-conservation invariant: the clock is the finish time of a
dispatched record or has not passed any pending arrival while the ready queue
is empty, and every dispatched record started at its own arrival or at the
finish time of another dispatched record. -/
structure Conserving (s : State) : Prop where
  clock : (∃ j, s.dispatched j ∧ (deref s.processes j).finishTime = s.time) ∨
    (s.readyQueue = [] ∧ ∀ i ∈ s.processesReady, s.time ≤ (deref s.processes i).arrivalTime)
  starts : ∀ i, s.dispatched i →
    (deref s.processes i).startTime = (deref s.processes i).arrivalTime ∨
    ∃ j, j ≠ i ∧ s.dispatched j ∧
      (deref s.processes j).finishTime = (deref s.processes i).startTime

/-- The record written by the body of the aging loop: the same record, with
`priority = max(1, priority - 1)` when `time - arrivalTime >= agingInterval`. -/
def ageRecord (agingInterval time : Int) (p : Process) : Process :=
  if time - p.arrivalTime ≥ agingInterval then
    { p with priority := max 1 (p.priority - 1) }
  else p

/-- The promotion invariant for burst times of at least `b`: a record whose
priority has been lowered by `r > 0` since the start of the run has waited at
least `agingInterval + r * b` ticks if it is still waiting, and was dispatched
after waiting at least `agingInterval + (r - 1) * b` ticks if it has run. -/
structure Promoted (b agingInterval : Int) (P0 : List Process) (s : State) : Prop where
  waiting : ∀ i, s.undispatched i →
    (deref P0 i).priority - (deref s.processes i).priority ≤ 0 ∨
    agingInterval + ((deref P0 i).priority - (deref s.processes i).priority) * b ≤
      s.time - (deref s.processes i).arrivalTime
  ran : ∀ i, s.dispatched i →
    (deref P0 i).priority - (deref s.processes i).priority ≤ 0 ∨
    agingInterval + ((deref P0 i).priority - (deref s.processes i).priority - 1) * b ≤
      (deref s.processes i).startTime - (deref s.processes i).arrivalTime

/-- A sorter that looks at the elements only through the comparator, as the
template `std::sort` does: relabelling the elements and sorting commute. -/
def Sorter.Natural (S : Sorter) : Prop :=
  ∀ (α β : Type) (f : α → β) (lt : β → β → Bool) (l : List α),
    S.sort lt (l.map f) = (S.sort (fun x y => lt (f x) (f y)) l).map f

/-- The freshly constructed record with the `id`, `arrivalTime`, `burstTime`
and `priority` of `p`. -/
def refresh (p : Process) : Process :=
  Process.new p.id p.arrivalTime p.burstTime p.priority

/-- Two records with the same scheduling input. -/
def SameInput (p q : Process) : Prop :=
  p.id = q.id ∧ p.arrivalTime = q.arrivalTime ∧ p.burstTime = q.burstTime ∧
    p.priority = q.priority

/-- Two records with the same `finishTime`, `waitingTime` and
`turnAroundTime`. -/
def SameTimes (p q : Process) : Prop :=
  p.finishTime = q.finishTime ∧ p.waitingTime = q.waitingTime ∧
    p.turnAroundTime = q.turnAroundTime

/-- Two loop states that run in lockstep: same clock, same pools, records with
the same scheduling input, and the same computed times in every record that is
not in a pool. -/
structure Sim (s s' : State) : Prop where
  time : s.time = s'.time
  pending : s.processesReady = s'.processesReady
  queue : s.readyQueue = s'.readyQueue
  len : s.processes.length = s'.processes.length
  input : ∀ i, SameInput (deref s.processes i) (deref s'.processes i)
  result : ∀ i, ¬ s.undispatched i → SameTimes (deref s.processes i) (deref s'.processes i)

/-- The finish times of jobs with burst times `bs` run back to back, in this
order, from clock `t`: the running sums of the burst times. -/
def prefixSums : Int → List Int → List Int
  | _, [] => []
  | t, b :: bs => (t + b) :: prefixSums (t + b) bs

/-- The waiting times of jobs that have all arrived at clock 0 and are run back
to back, in this order, from clock `t`: each job waits until its start. -/
def backToBackWaits : Int → List Int → List Int
  | _, [] => []
  | t, b :: bs => t :: backToBackWaits (t + b) bs

/-- The SJF invariant for simultaneous arrivals: the dispatched pointers, in
the order `order` of their dispatch, have non-decreasing burst times, none
greater than the burst time of a record still waiting; their finish times are
the running sums of these burst times and the clock is their total. -/
def Ordered (P0 : List Process) (s : State) : Prop :=
  ∃ order : List Nat, order.Nodup ∧ (∀ i, i ∈ order ↔ s.dispatched i) ∧
    (order.map (fun i => (deref P0 i).burstTime)).Pairwise (fun a b => a ≤ b) ∧
    (∀ i ∈ order, ∀ j, s.undispatched j →
      (deref P0 i).burstTime ≤ (deref P0 j).burstTime) ∧
    order.map (fun i => (deref s.processes i).finishTime) =
      prefixSums 0 (order.map (fun i => (deref P0 i).burstTime)) ∧
    s.time = (order.map (fun i => (deref P0 i).burstTime)).sum ∧
    (order = [] ∨ s.processesReady = [])

/-! ## Facts needed to define the loops -/

theorem insertSorted_perm {α : Type} (lt : α → α → Bool) (x : α) (l : List α) :
    (insertSorted lt x l).Perm (x :: l) := by
  induction l with
  | nil => exact List.Perm.refl _
  | cons y ys ih =>
    unfold insertSorted
    split
    · exact (List.Perm.cons y ih).trans (List.Perm.swap x y ys)
    · exact List.Perm.refl _

theorem isort_perm {α : Type} (lt : α → α → Bool) (l : List α) :
    (isort lt l).Perm l := by
  induction l with
  | nil => exact List.Perm.refl _
  | cons x xs ih =>
    exact (insertSorted_perm lt x (isort lt xs)).trans (List.Perm.cons x ih)

/-- In a strict weak ordering "not less than" is transitive. -/
theorem StrictWeak.not_lt_trans {α : Type} {lt : α → α → Bool} (hlt : StrictWeak lt)
    {z y x : α} (hzy : lt z y = false) (hyx : lt y x = false) : lt z x = false := by
  obtain ⟨hirr, htr, hinc⟩ := hlt
  cases hzx : lt z x
  · rfl
  · exfalso
    cases hyz : lt y z
    · cases hxy : lt x y
      · have := (hinc z y x hzy hyz hyx hxy).1
        rw [hzx] at this
        exact Bool.noConfusion this
      · have := htr _ _ _ hzx hxy
        rw [hzy] at this
        exact Bool.noConfusion this
    · have := htr _ _ _ hyz hzx
      rw [hyx] at this
      exact Bool.noConfusion this

theorem insertSorted_sorted {α : Type} (lt : α → α → Bool) (hlt : StrictWeak lt)
    (x : α) (l : List α) (hl : l.Pairwise (fun a b => lt b a = false)) :
    (insertSorted lt x l).Pairwise (fun a b => lt b a = false) := by
  induction l with
  | nil => simp [insertSorted]
  | cons y ys ih =>
    have hl2 := List.pairwise_cons.1 hl
    unfold insertSorted
    split
    · rename_i hyx
      refine List.pairwise_cons.2 ⟨?_, ih hl2.2⟩
      intro z hz
      rcases List.mem_cons.1 ((insertSorted_perm lt x ys).subset hz) with rfl | hz
      · cases hzy : lt z y
        · rfl
        · have := hlt.2.1 _ _ _ hzy hyx
          rw [hlt.1] at this
          exact Bool.noConfusion this
      · exact hl2.1 z hz
    · rename_i hyx
      have hyx2 : lt y x = false := by simpa using hyx
      refine List.pairwise_cons.2 ⟨?_, hl⟩
      intro z hz
      rcases List.mem_cons.1 hz with rfl | hz
      · exact hyx2
      · exact hlt.not_lt_trans (hl2.1 z hz) hyx2

theorem isort_sorted {α : Type} (lt : α → α → Bool) (l : List α) (hlt : StrictWeak lt) :
    (isort lt l).Pairwise (fun a b => lt b a = false) := by
  induction l with
  | nil => simp [isort]
  | cons x xs ih => exact insertSorted_sorted lt hlt x _ ih

/-- Insertion sort meets the contract of `std::sort`. -/
def insertionSorter : Sorter :=
  { sort := fun lt l => isort lt l
    perm := fun lt l => isort_perm lt l
    sorted := fun lt l h => isort_sorted lt l h }

theorem admitArrived_fst (procs : List Process) (t : Int) (pend q : List Nat) :
    (admitArrived procs t pend q).1 = pend.filter (fun i => !decide ((deref procs i).arrivalTime ≤ t)) := by
  induction pend generalizing q with
  | nil => rfl
  | cons i rest ih =>
    unfold admitArrived
    by_cases h : (deref procs i).arrivalTime ≤ t
    · simp [h, ih]
    · simp [h, ih]

theorem admitArrived_snd (procs : List Process) (t : Int) (pend q : List Nat) :
    (admitArrived procs t pend q).2 = q ++ pend.filter (fun i => decide ((deref procs i).arrivalTime ≤ t)) := by
  induction pend generalizing q with
  | nil => simp [admitArrived]
  | cons i rest ih =>
    unfold admitArrived
    by_cases h : (deref procs i).arrivalTime ≤ t
    · simp [h, ih]
    · simp [h, ih]

theorem admitArrived_eq (s : State) :
    admitArrived s.processes s.time s.processesReady s.readyQueue = (s.notArrived, s.admitted) := by
  rw [Prod.ext_iff]
  exact ⟨admitArrived_fst _ _ _ _, admitArrived_snd _ _ _ _⟩

theorem admitted_eq_nil {s : State} (h : s.admitted = []) :
    s.readyQueue = [] ∧ (∀ i ∈ s.processesReady, s.time < (deref s.processes i).arrivalTime) ∧
    s.notArrived = s.processesReady := by
  obtain ⟨hq, hf⟩ := List.append_eq_nil.1 h
  rw [List.filter_eq_nil_iff] at hf
  refine ⟨hq, fun i hi => ?_, ?_⟩
  · have := hf i hi
    simpa using this
  · unfold State.notArrived
    rw [List.filter_eq_self]
    intro i hi
    have := hf i hi
    simpa using this

theorem headD_cons_tail {l : List Nat} (h : l ≠ []) : l.headD 0 :: l.tail = l := by
  cases l with
  | nil => exact absurd rfl h
  | cons a t => rfl

theorem sort_ne_nil (S : Sorter) (lt : Nat → Nat → Bool) {l : List Nat} (h : l ≠ []) :
    S.sort lt l ≠ [] := by
  intro h0
  have hp := S.perm lt l
  rw [h0] at hp
  exact h hp.symm.eq_nil

/-- The front of a sorted vector is not preceded by any element of the input. -/
theorem sort_head_min (S : Sorter) (lt : Nat → Nat → Bool) (hlt : StrictWeak lt)
    {l : List Nat} (h : l ≠ []) : ∀ x ∈ l, lt x ((S.sort lt l).headD 0) = false := by
  intro x hx
  have hs := S.sorted lt l hlt
  have hx2 : x ∈ S.sort lt l := (S.perm lt l).symm.subset hx
  rw [← headD_cons_tail (sort_ne_nil S lt h)] at hs hx2
  rw [List.pairwise_cons] at hs
  rcases List.mem_cons.1 hx2 with rfl | hx2
  · exact hlt.1 _
  · exact hs.1 x hx2

theorem burstLt_strictWeak (procs : List Process) : StrictWeak (burstLt procs) := by
  refine ⟨?_, ?_, ?_⟩
  · intro a; simp [burstLt]
  · intro a b c; simp only [burstLt, decide_eq_true_eq]; omega
  · intro a b c; simp only [burstLt, decide_eq_false_iff_not]; omega

theorem priorityLt_iff (procs : List Process) (a b : Nat) :
    priorityLt procs a b = true ↔
      (deref procs a).priority < (deref procs b).priority ∨
      ((deref procs a).priority = (deref procs b).priority ∧
        (deref procs a).arrivalTime < (deref procs b).arrivalTime) := by
  simp [priorityLt]

theorem priorityLt_false_iff (procs : List Process) (a b : Nat) :
    priorityLt procs a b = false ↔
      (deref procs b).priority ≤ (deref procs a).priority ∧
      ((deref procs a).priority = (deref procs b).priority →
        (deref procs b).arrivalTime ≤ (deref procs a).arrivalTime) := by
  rw [← Bool.not_eq_true, priorityLt_iff]
  constructor
  · intro h
    constructor
    · by_contra h1; exact h (Or.inl (by omega))
    · intro h1; by_contra h2; exact h (Or.inr ⟨h1, by omega⟩)
  · rintro ⟨h1, h2⟩ (h | ⟨h3, h4⟩)
    · omega
    · have := h2 h3; omega

theorem priorityLt_strictWeak (procs : List Process) : StrictWeak (priorityLt procs) := by
  refine ⟨?_, ?_, ?_⟩
  · intro a; rw [priorityLt_false_iff]; simp
  · intro a b c; simp only [priorityLt_iff]; omega
  · intro a b c; simp only [priorityLt_false_iff]; omega

theorem sjfStep_iter (S : Sorter) (s : State) : Iter (SelSjf S) s (sjfStep S s) := by
  unfold sjfStep
  rw [admitArrived_eq]
  simp only []
  split
  · rename_i h
    obtain ⟨hq, h1, h2⟩ := admitted_eq_nil h
    rw [h2, h]
    exact Iter.idle hq h1
  · rename_i h
    have hp := S.perm (burstLt s.processes) s.admitted
    rw [← headD_cons_tail (sort_ne_nil S _ h)] at hp
    refine Iter.run s.processes _ _ rfl (fun i => rfl) hp ⟨rfl, rfl, ?_⟩
    intro x hx
    have := sort_head_min S _ (burstLt_strictWeak s.processes) h x hx
    simpa [burstLt] using this

theorem deref_set (ps : List Process) (i j : Nat) (x : Process) :
    deref (ps.set i x) j = if i = j ∧ i < ps.length then x else deref ps j := by
  unfold deref
  rw [List.getElem?_set]
  by_cases hij : i = j
  · subst hij
    by_cases hi : i < ps.length
    · simp [hi]
    · have : ps[i]? = none := List.getElem?_eq_none (by omega)
      simp [hi, this]
  · simp [hij]

theorem aging_nil (a t : Int) (ps : List Process) : aging a t ps [] = ps := rfl

theorem aging_cons (a t : Int) (ps : List Process) (i : Nat) (q : List Nat) :
    aging a t ps (i :: q) = aging a t (ageOne a t ps i) q := rfl

theorem ageOne_length (a t : Int) (ps : List Process) (i : Nat) :
    (ageOne a t ps i).length = ps.length := by
  unfold ageOne
  split <;> simp

theorem aging_length (a t : Int) (ps : List Process) (q : List Nat) :
    (aging a t ps q).length = ps.length := by
  induction q generalizing ps with
  | nil => rfl
  | cons i q ih => rw [aging_cons, ih, ageOne_length]

/-- Any reflexive, transitive relation on records that the single write of the
aging loop respects holds between every record before and after the loop. -/
theorem aging_rel (R : Process → Process → Prop) (hrefl : ∀ p, R p p)
    (htrans : ∀ p q r, R p q → R q r → R p r)
    (hstep : ∀ p : Process, R p { p with priority := max 1 (p.priority - 1) })
    (a t : Int) (ps : List Process) (q : List Nat) (j : Nat) :
    R (deref ps j) (deref (aging a t ps q) j) := by
  induction q generalizing ps with
  | nil => exact hrefl _
  | cons i q ih =>
    rw [aging_cons]
    refine htrans _ _ _ ?_ (ih (ageOne a t ps i))
    unfold ageOne
    split
    · rw [deref_set]
      split
      · rename_i h
        rw [← h.1]
        exact hstep _
      · exact hrefl _
    · exact hrefl _

theorem aging_sameButPriority (a t : Int) (ps : List Process) (q : List Nat) (j : Nat) :
    (deref ps j).sameButPriority (deref (aging a t ps q) j) := by
  refine aging_rel Process.sameButPriority ?_ ?_ ?_ a t ps q j
  · intro p; rfl
  · intro p q r h1 h2
    unfold Process.sameButPriority at *
    rw [h2, h1]
  · intro p; rfl

theorem priorityStep_iter (S : Sorter) (a : Int) (s : State) :
    Iter (SelPriority S a) s (priorityStep S a s) := by
  unfold priorityStep
  rw [admitArrived_eq]
  simp only []
  split
  · rename_i h
    obtain ⟨hq, h1, h2⟩ := admitted_eq_nil h
    rw [h2, h]
    exact Iter.idle hq h1
  · rename_i h
    have hp := S.perm (priorityLt (aging a s.time s.processes s.admitted)) s.admitted
    rw [← headD_cons_tail (sort_ne_nil S _ h)] at hp
    exact Iter.run _ _ _ (aging_length _ _ _ _) (aging_sameButPriority _ _ _ _) hp
      ⟨rfl, rfl, sort_head_min S _ (priorityLt_strictWeak _) h⟩

theorem dist_idle (procs : List Process) (t : Int) (l : List Nat) (hne : l ≠ [])
    (h : ∀ i ∈ l, t < (deref procs i).arrivalTime) :
    dist procs (t + 1) l < dist procs t l := by
  induction l with
  | nil => exact absurd rfl hne
  | cons i rest ih =>
    have hi := h i (List.mem_cons_self _ _)
    unfold dist
    by_cases hr : rest = []
    · subst hr
      simp only [dist]
      omega
    · have := ih hr (fun j hj => h j (List.mem_cons_of_mem _ hj))
      omega

/-- Every loop iteration decreases the measure in the lexicographic order. -/
theorem Iter.decreases {Sel : State → List Process → Nat → Prop} {s s' : State}
    (h : Iter Sel s s') (hb : s.busy) :
    Prod.Lex (fun a b : Nat => a < b) (fun a b : Nat => a < b) s'.measure s.measure := by
  cases h with
  | idle hq hp =>
    have hne : s.processesReady ≠ [] := by
      rcases hb with hb | hb
      · exact hb
      · exact absurd hq hb
    have := dist_idle s.processes s.time s.processesReady hne hp
    unfold State.measure
    simp only [hq, List.length_nil]
    exact Prod.Lex.right _ this
  | run procs c rest hlen hsame hperm hsel =>
    unfold State.measure State.admitted at *
    unfold State.notArrived
    apply Prod.Lex.left
    have h1 := hperm.length_eq
    have h2 := List.length_eq_length_filter_add (l := s.processesReady)
      (fun i => decide ((deref s.processes i).arrivalTime ≤ s.time))
    simp only [List.length_cons, List.length_append] at h1
    simp only at h2 ⊢
    omega

/-! ## The loops and the two engines -/

/-- The loop `while (!processesReady.empty() || !readyQueue.empty()) body`, for
a body that performs one `Iter` step; it is total because every iteration
decreases `State.measure`. -/
def whileBusy {Sel : State → List Process → Nat → Prop} (step : State → State)
    (hstep : ∀ s, Iter Sel s (step s)) (s : State) : State :=
  if _hb : s.busy then whileBusy step hstep (step s) else s
termination_by s.measure
decreasing_by exact (hstep s).decreases (by assumption)

/-- The function `sjf` (lines 45-81): the vector `processes` it leaves. -/
def sjf (S : Sorter) (processes : List Process) : List Process :=
  (whileBusy (sjfStep S) (sjfStep_iter S) (State.init (S.sort arrivalLt processes))).processes

/-- The function `prioritySchedulingWithAging` (lines 93-137): the vector
`processes` it leaves. -/
def prioritySchedulingWithAging (S : Sorter) (processes : List Process) (agingInterval : Int) :
    List Process :=
  (whileBusy (priorityStep S agingInterval) (priorityStep_iter S agingInterval)
    (State.init (S.sort arrivalLt processes))).processes

/-! ## The loop rule and the invariants -/

theorem whileBusy_busy {Sel : State → List Process → Nat → Prop} (step : State → State)
    (hstep : ∀ s, Iter Sel s (step s)) (s : State) (h : s.busy) :
    whileBusy step hstep s = whileBusy step hstep (step s) := by
  rw [whileBusy, dif_pos h]

theorem whileBusy_done {Sel : State → List Process → Nat → Prop} (step : State → State)
    (hstep : ∀ s, Iter Sel s (step s)) (s : State) (h : ¬ s.busy) :
    whileBusy step hstep s = s := by
  rw [whileBusy, dif_neg h]

/-- The loop runs the body a finite number `n` of times: the state is busy
before each of the `n` iterations and not busy after the last. -/
theorem whileBusy_iterate {Sel : State → List Process → Nat → Prop} (step : State → State)
    (hstep : ∀ s, Iter Sel s (step s)) (s : State) :
    ∃ n, whileBusy step hstep s = step^[n] s ∧ ¬ (step^[n] s).busy ∧
      ∀ k < n, (step^[k] s).busy := by
  induction s using whileBusy.induct step hstep with
  | case1 s hb ih =>
    obtain ⟨n, h1, h2, h3⟩ := ih
    refine ⟨n + 1, ?_, ?_, ?_⟩
    · rw [whileBusy_busy step hstep s hb, h1, Function.iterate_succ_apply]
    · rw [Function.iterate_succ_apply]; exact h2
    · intro k hk
      cases k with
      | zero => exact hb
      | succ k =>
        rw [Function.iterate_succ_apply]
        exact h3 k (by omega)
  | case2 s hb =>
    exact ⟨0, whileBusy_done step hstep s hb, hb, fun k hk => absurd hk (Nat.not_lt_zero k)⟩

/-- Evaluation of the loop: if the state is busy before each of the first `n`
iterations and not busy after them, the loop returns the `n`-th iterate. -/
theorem whileBusy_eq_iterate {Sel : State → List Process → Nat → Prop} (step : State → State)
    (hstep : ∀ s, Iter Sel s (step s)) (n : Nat) (s : State)
    (h : (∀ k < n, (step^[k] s).busy) ∧ ¬ (step^[n] s).busy) :
    whileBusy step hstep s = step^[n] s := by
  induction n generalizing s with
  | zero => exact whileBusy_done step hstep s h.2
  | succ n ih =>
    rw [whileBusy_busy step hstep s (h.1 0 (by omega)), Function.iterate_succ_apply]
    apply ih
    refine ⟨fun k hk => ?_, ?_⟩
    · have := h.1 (k + 1) (by omega)
      rwa [Function.iterate_succ_apply] at this
    · have := h.2
      rwa [Function.iterate_succ_apply] at this

/-- Invariant rule for the loop. -/
theorem whileBusy_inv {Sel : State → List Process → Nat → Prop} (I : State → Prop)
    (step : State → State) (hstep : ∀ s, Iter Sel s (step s))
    (hI : ∀ s, I s → s.busy → I (step s)) (s : State) (h : I s) :
    I (whileBusy step hstep s) ∧ ¬ (whileBusy step hstep s).busy := by
  induction s using whileBusy.induct step hstep with
  | case1 s hb ih =>
    rw [whileBusy_busy step hstep s hb]
    exact ih (hI s h hb)
  | case2 s hb =>
    rw [whileBusy_done step hstep s hb]
    exact ⟨h, hb⟩

/-- Invariant rule for iterating the loop body while the state is busy. -/
theorem iterate_inv (I : State → Prop) (step : State → State)
    (hI : ∀ s, I s → s.busy → I (step s)) (s : State) (h : I s) (n : Nat)
    (hb : ∀ k < n, (step^[k] s).busy) : I (step^[n] s) := by
  induction n with
  | zero => exact h
  | succ n ih =>
    rw [Function.iterate_succ_apply']
    exact hI _ (ih (fun k hk => hb k (by omega))) (hb n (by omega))

theorem run_perm (s : State) (c : Nat) (rest : List Nat) (h : (c :: rest).Perm s.admitted) :
    (c :: (s.notArrived ++ rest)).Perm (s.processesReady ++ s.readyQueue) := by
  have h1 : (c :: (s.notArrived ++ rest)).Perm (s.notArrived ++ (c :: rest)) :=
    List.perm_middle.symm
  have h2 : (s.notArrived ++ (c :: rest)).Perm (s.notArrived ++ s.admitted) :=
    List.Perm.append_left _ h
  have h3 : (s.notArrived ++ s.admitted).Perm (s.processesReady ++ s.readyQueue) := by
    unfold State.notArrived State.admitted
    have h4 := List.filter_append_perm
      (fun i => decide ((deref s.processes i).arrivalTime ≤ s.time)) s.processesReady
    refine List.Perm.trans ?_ (List.Perm.append_right s.readyQueue h4)
    refine List.Perm.trans (List.Perm.append_left _ List.perm_append_comm) ?_
    rw [← List.append_assoc]
    exact List.Perm.append_right _ List.perm_append_comm
  exact h1.trans (h2.trans h3)

/-- In a dispatch step the chosen pointer leaves the pools and every other
pointer stays. -/
theorem run_undispatched (s : State) (c : Nat) (rest : List Nat)
    (hnd : (s.processesReady ++ s.readyQueue).Nodup) (h : (c :: rest).Perm s.admitted) :
    s.undispatched c ∧ (s.notArrived ++ rest).Nodup ∧
    ∀ i, (i ∈ s.notArrived ∨ i ∈ rest) ↔ (s.undispatched i ∧ i ≠ c) := by
  have hp := run_perm s c rest h
  have hnd2 : (c :: (s.notArrived ++ rest)).Nodup := hp.nodup_iff.2 hnd
  rw [List.nodup_cons] at hnd2
  have hmem : ∀ i, i ∈ c :: (s.notArrived ++ rest) ↔ i ∈ s.processesReady ++ s.readyQueue :=
    fun i => hp.mem_iff
  refine ⟨?_, hnd2.2, ?_⟩
  · have := (hmem c).1 (List.mem_cons_self _ _)
    exact List.mem_append.1 this
  · intro i
    have h1 := hmem i
    rw [List.mem_cons, List.mem_append, List.mem_append] at h1
    unfold State.undispatched
    constructor
    · intro hi
      refine ⟨h1.1 (Or.inr hi), ?_⟩
      rintro rfl
      exact hnd2.1 (List.mem_append.2 hi)
    · rintro ⟨hi, hne⟩
      rcases h1.2 hi with h2 | h2
      · exact absurd h2 hne
      · exact h2

theorem mem_admitted {s : State} {i : Nat} (h : i ∈ s.admitted) :
    i ∈ s.readyQueue ∨ (i ∈ s.processesReady ∧ (deref s.processes i).arrivalTime ≤ s.time) := by
  unfold State.admitted at h
  rcases List.mem_append.1 h with h | h
  · exact Or.inl h
  · rw [List.mem_filter] at h
    exact Or.inr ⟨h.1, by simpa using h.2⟩

theorem mem_notArrived {s : State} {i : Nat} (h : i ∈ s.notArrived) :
    i ∈ s.processesReady ∧ s.time < (deref s.processes i).arrivalTime := by
  unfold State.notArrived at h
  rw [List.mem_filter] at h
  exact ⟨h.1, by simpa using h.2⟩

theorem mem_admitted_of_arrived {s : State} {i : Nat} (h : s.undispatched i)
    (ha : (deref s.processes i).arrivalTime ≤ s.time) : i ∈ s.admitted := by
  unfold State.admitted
  rcases h with h | h
  · exact List.mem_append_right _ (List.mem_filter.2 ⟨h, by simpa using ha⟩)
  · exact List.mem_append_left _ h

theorem mem_admitted_of_queue {s : State} {i : Nat} (h : i ∈ s.readyQueue) : i ∈ s.admitted :=
  List.mem_append_left _ h

theorem Process.sameButPriority.fields {p q : Process} (h : p.sameButPriority q) :
    q.id = p.id ∧ q.arrivalTime = p.arrivalTime ∧ q.burstTime = p.burstTime ∧
    q.remainingTime = p.remainingTime ∧ q.startTime = p.startTime ∧
    q.finishTime = p.finishTime ∧ q.waitingTime = p.waitingTime ∧
    q.turnAroundTime = p.turnAroundTime := by
  unfold Process.sameButPriority at h
  rw [h]
  exact ⟨rfl, rfl, rfl, rfl, rfl, rfl, rfl, rfl⟩

theorem Process.sameButPriority.trans {p q r : Process} (h1 : p.sameButPriority q)
    (h2 : q.sameButPriority r) : p.sameButPriority r := by
  unfold Process.sameButPriority at *
  rw [h2, h1]

theorem deref_eq_getElem (ps : List Process) (i : Nat) (h : i < ps.length) :
    deref ps i = ps[i] := by
  unfold deref
  rw [List.getElem?_eq_getElem h]
  rfl

theorem mem_iff_deref (ps : List Process) (p : Process) :
    p ∈ ps ↔ ∃ i, i < ps.length ∧ deref ps i = p := by
  rw [List.mem_iff_getElem]
  constructor
  · rintro ⟨i, hi, rfl⟩
    exact ⟨i, hi, deref_eq_getElem ps i hi⟩
  · rintro ⟨i, hi, rfl⟩
    exact ⟨i, hi, (deref_eq_getElem ps i hi).symm⟩

/-- The records of the vector after a dispatch of `c` at clock `t`. -/
theorem deref_dispatch (procs : List Process) (c : Nat) (t : Int) (i : Nat) :
    deref (procs.set c (runToCompletion (deref procs c) t)) i =
      if c = i ∧ c < procs.length then runToCompletion (deref procs c) t else deref procs i :=
  deref_set procs c i _

theorem inv_init (P0 : List Process) : Inv P0 (State.init P0) := by
  refine ⟨rfl, ?_, ?_, fun i => ⟨rfl, rfl, rfl⟩, fun i _ => rfl, ?_⟩
  · simpa [State.init] using List.nodup_range P0.length
  · intro i hi
    simpa [State.init, State.undispatched] using hi
  · rintro i ⟨hi, hu⟩
    exfalso
    apply hu
    left
    simpa [State.init] using hi

theorem inv_step {P0 : List Process} {Sel : State → List Process → Nat → Prop} {s s' : State}
    (hI : Inv P0 s) (h : Iter Sel s s') : Inv P0 s' := by
  cases h with
  | idle hq hp =>
    refine ⟨hI.len, ?_, ?_, hI.fixed, ?_, ?_⟩
    · have := hI.nodup
      rw [hq] at this
      exact this
    · intro i hi
      apply hI.bound i
      rcases hi with hi | hi
      · exact Or.inl hi
      · simp at hi
    · intro i hi
      apply hI.untouched i
      rcases hi with hi | hi
      · exact Or.inl hi
      · simp at hi
    · rintro i ⟨hi, hu⟩
      apply hI.metrics i ⟨hi, ?_⟩
      rintro (hu2 | hu2)
      · exact hu (Or.inl hu2)
      · rw [hq] at hu2
        simp at hu2
  | run procs c rest hlen hsame hperm hsel =>
    obtain ⟨hc, hnd, hmem⟩ := run_undispatched s c rest hI.nodup hperm
    have hcl : c < procs.length := by
      rw [hlen, hI.len]; exact hI.bound c hc
    refine ⟨?_, hnd, ?_, ?_, ?_, ?_⟩
    · simp [hlen, hI.len]
    · intro i hi
      exact hI.bound i ((hmem i).1 hi).1
    · intro i
      simp only [deref_dispatch]
      split
      · rename_i hci
        obtain ⟨rfl, -⟩ := hci
        obtain ⟨f1, f2, f3, -⟩ := (hsame c).fields
        obtain ⟨g1, g2, g3⟩ := hI.fixed c
        exact ⟨f1.trans g1, f2.trans g2, f3.trans g3⟩
      · obtain ⟨f1, f2, f3, -⟩ := (hsame i).fields
        obtain ⟨g1, g2, g3⟩ := hI.fixed i
        exact ⟨f1.trans g1, f2.trans g2, f3.trans g3⟩
    · intro i hi
      obtain ⟨hu, hne⟩ := (hmem i).1 hi
      simp only [deref_dispatch]
      rw [if_neg (fun hh => hne hh.1.symm)]
      exact (hI.untouched i hu).trans (hsame i)
    · rintro i ⟨hi, hu⟩
      simp only [deref_dispatch]
      split
      · exact ⟨rfl, rfl⟩
      · rename_i hci
        have hne : i ≠ c := fun hh => hci ⟨hh.symm, hcl⟩
        have hd : s.dispatched i := by
          refine ⟨?_, fun hu2 => hu ((hmem i).2 ⟨hu2, hne⟩)⟩
          simpa [hlen] using hi
        obtain ⟨-, f2, f3, -, -, f6, f7, f8⟩ := (hsame i).fields
        rw [f2, f3, f6, f7, f8]
        exact hI.metrics i hd

theorem deref_cases (ps : List Process) (i : Nat) :
    deref ps i ∈ ps ∨ deref ps i = Process.new 0 0 0 0 := by
  by_cases h : i < ps.length
  · exact Or.inl ((mem_iff_deref ps _).2 ⟨i, h, rfl⟩)
  · right
    unfold deref
    rw [List.getElem?_eq_none (by omega)]
    rfl

theorem deref_burst_nonneg {P0 : List Process} (hB : ∀ p ∈ P0, 0 ≤ p.burstTime) (i : Nat) :
    0 ≤ (deref P0 i).burstTime := by
  rcases deref_cases P0 i with h | h
  · exact hB _ h
  · rw [h]; decide

theorem deref_fresh {P0 : List Process} (hF : ∀ p ∈ P0, p.startTime = -1) (i : Nat) :
    (deref P0 i).startTime = -1 := by
  rcases deref_cases P0 i with h | h
  · exact hF _ h
  · rw [h]; rfl

/-- After a dispatch of `c` the dispatched records are `c` and those dispatched
before. -/
theorem run_dispatched {P0 : List Process} {s : State} (hI : Inv P0 s) (procs : List Process)
    (c : Nat) (rest : List Nat) (x : Process) (t : Int)
    (hlen : procs.length = s.processes.length) (hperm : (c :: rest).Perm s.admitted) (i : Nat) :
    State.dispatched { processes := procs.set c x, time := t,
                       processesReady := s.notArrived, readyQueue := rest } i ↔
      (i = c ∨ s.dispatched i) := by
  obtain ⟨hc, -, hmem⟩ := run_undispatched s c rest hI.nodup hperm
  have hcl : c < s.processes.length := by rw [hI.len]; exact hI.bound c hc
  unfold State.dispatched
  simp only [List.length_set, hlen]
  have hm := hmem i
  unfold State.undispatched at hm ⊢
  simp only at hm ⊢
  constructor
  · rintro ⟨hi, hu⟩
    by_cases hic : i = c
    · exact Or.inl hic
    · exact Or.inr ⟨hi, fun hu2 => hu (hm.2 ⟨hu2, hic⟩)⟩
  · rintro (rfl | ⟨hi, hu⟩)
    · exact ⟨hcl, fun hu2 => (hm.1 hu2).2 rfl⟩
    · exact ⟨hi, fun hu2 => hu (hm.1 hu2).1⟩

theorem idle_dispatched {s : State} (hq : s.readyQueue = []) (t : Int) (i : Nat) :
    State.dispatched { processes := s.processes, time := t,
                       processesReady := s.processesReady, readyQueue := [] } i ↔
      s.dispatched i := by
  unfold State.dispatched State.undispatched
  simp [hq]

theorem timing_init (P0 : List Process) : Timing (State.init P0) := by
  have hnd : ∀ i, ¬ (State.init P0).dispatched i := by
    rintro i ⟨hi, hu⟩
    apply hu
    left
    simpa [State.init] using hi
  refine ⟨?_, fun i hi => absurd hi (hnd i), fun i hi => absurd hi (hnd i)⟩
  intro i hi
  simp [State.init] at hi

theorem timing_step {P0 : List Process} {Sel : State → List Process → Nat → Prop} {s s' : State}
    (hB : ∀ p ∈ P0, 0 ≤ p.burstTime) (hI : Inv P0 s) (hT : Timing s) (h : Iter Sel s s') :
    Timing s' := by
  have hI2 := inv_step hI h
  cases h with
  | idle hq hp =>
    refine ⟨?_, ?_, ?_⟩
    · intro i hi
      simp at hi
    · intro i hi
      have := hT.finished i ((idle_dispatched hq _ i).1 hi)
      simp only
      omega
    · intro i hi
      exact hT.waited i ((idle_dispatched hq _ i).1 hi)
  | run procs c rest hlen hsame hperm hsel =>
    have hbc : 0 ≤ (deref procs c).burstTime := by
      rw [(hsame c).fields.2.2.1, (hI.fixed c).2.2]
      exact deref_burst_nonneg hB c
    have harr : ∀ i ∈ s.admitted, (deref s.processes i).arrivalTime ≤ s.time := by
      intro i hi
      rcases mem_admitted hi with h1 | h1
      · exact hT.ready i h1
      · exact h1.2
    have hcad : c ∈ s.admitted := hperm.subset (List.mem_cons_self _ _)
    have hdisp := run_dispatched hI procs c rest (runToCompletion (deref procs c) s.time)
      (s.time + (deref procs c).burstTime) hlen hperm
    have hcl : c < procs.length := by
      have := (hdisp c).2 (Or.inl rfl)
      simpa [State.dispatched] using this.1
    refine ⟨?_, ?_, ?_⟩
    · intro i hi
      have h1 := harr i (hperm.subset (List.mem_cons_of_mem _ hi))
      have h2 := (hI2.fixed i).2.1
      have h3 := (hI.fixed i).2.1
      simp only at h2 ⊢
      omega
    · intro i hi
      rcases (hdisp i).1 hi with rfl | hd
      · rw [deref_dispatch, if_pos (And.intro rfl hcl)]
        simp only [runToCompletion]
        omega
      · have := hT.finished i hd
        simp only [deref_dispatch]
        split
        · simp only [runToCompletion]; omega
        · rw [(hsame i).fields.2.2.2.2.2.1]; omega
    · intro i hi
      simp only [deref_dispatch]
      split
      · rename_i hci
        have h1 := harr c hcad
        have h2 := (hsame c).fields.2.1
        simp only [runToCompletion]
        omega
      · rename_i hci
        rcases (hdisp i).1 hi with rfl | hd
        · exact absurd (And.intro rfl hcl) hci
        · rw [(hsame i).fields.2.2.2.2.2.2.1]
          exact hT.waited i hd

theorem not_busy_dispatched {s : State} (h : ¬ s.busy) {i : Nat} (hi : i < s.processes.length) :
    s.dispatched i := by
  unfold State.busy at h
  rw [not_or, not_not, not_not] at h
  refine ⟨hi, ?_⟩
  unfold State.undispatched
  rw [h.1, h.2]
  simp

/-- The loop started on the vector `P0` ends in a state that is not busy and
satisfies the structural invariant and every property `J` that holds on entry
and is kept by each iteration. -/
theorem loop_final {Sel : State → List Process → Nat → Prop} (step : State → State)
    (hstep : ∀ s, Iter Sel s (step s)) (P0 : List Process) (J : State → Prop)
    (hJ0 : J (State.init P0)) (hJ : ∀ s, Inv P0 s → J s → s.busy → J (step s)) :
    Inv P0 (whileBusy step hstep (State.init P0)) ∧ J (whileBusy step hstep (State.init P0)) ∧
      ¬ (whileBusy step hstep (State.init P0)).busy := by
  have := whileBusy_inv (fun s => Inv P0 s ∧ J s) step hstep
    (fun s h hb => ⟨inv_step h.1 (hstep s), hJ s h.1 h.2 hb⟩) (State.init P0) ⟨inv_init P0, hJ0⟩
  exact ⟨this.1.1, this.1.2, this.2⟩

theorem run_deref_new {P0 : List Process} {s : State} (hI : Inv P0 s) (procs : List Process)
    (c : Nat) (t : Int) (hlen : procs.length = s.processes.length) (hc : s.undispatched c) :
    deref (procs.set c (runToCompletion (deref procs c) t)) c =
      runToCompletion (deref procs c) t := by
  rw [deref_dispatch, if_pos]
  refine ⟨rfl, ?_⟩
  rw [hlen, hI.len]
  exact hI.bound c hc

theorem run_deref_old (procs : List Process) (c i : Nat) (t : Int) (h : i ≠ c) :
    deref (procs.set c (runToCompletion (deref procs c) t)) i = deref procs i := by
  rw [deref_dispatch, if_neg]
  exact fun hh => h hh.1.symm

theorem init_not_dispatched (P0 : List Process) (i : Nat) : ¬ (State.init P0).dispatched i := by
  rintro ⟨hi, hu⟩
  apply hu
  left
  simpa [State.init] using hi

theorem fresh_step {P0 : List Process} {Sel : State → List Process → Nat → Prop} {s s' : State}
    (hF : ∀ p ∈ P0, p.startTime = -1) (hI : Inv P0 s) (hJ : Fresh s) (h : Iter Sel s s') :
    Fresh s' := by
  cases h with
  | idle hq hp =>
    intro i hi
    exact hJ i ((idle_dispatched hq _ i).1 hi)
  | run procs c rest hlen hsame hperm hsel =>
    obtain ⟨hc, -, -⟩ := run_undispatched s c rest hI.nodup hperm
    intro i hi
    rcases (run_dispatched hI procs c rest _ _ hlen hperm i).1 hi with rfl | hd
    · simp only
      rw [run_deref_new hI procs i s.time hlen hc]
      have h1 : (deref procs i).startTime = -1 := by
        rw [(hsame i).fields.2.2.2.2.1, (hI.untouched i hc).fields.2.2.2.2.1]
        exact deref_fresh hF i
      simp [runToCompletion, h1]
    · have hne : i ≠ c := by
        rintro rfl
        exact hd.2 hc
      simp only
      rw [run_deref_old procs c i s.time hne]
      obtain ⟨-, -, f3, -, f5, f6, -⟩ := (hsame i).fields
      rw [f3, f5, f6]
      exact hJ i hd

theorem freshTiming_init (P0 : List Process) : FreshTiming (State.init P0) :=
  ⟨fun i hi => absurd hi (init_not_dispatched P0 i),
   fun i hi => absurd hi (init_not_dispatched P0 i),
   fun i _ hi => absurd hi (init_not_dispatched P0 i)⟩

theorem freshTiming_step {P0 : List Process} {Sel : State → List Process → Nat → Prop}
    {s s' : State} (hF : ∀ p ∈ P0, p.startTime = -1) (hB : ∀ p ∈ P0, 0 ≤ p.burstTime)
    (hI : Inv P0 s) (hT : Timing s) (hJ : FreshTiming s) (h : Iter Sel s s') :
    FreshTiming s' := by
  cases h with
  | idle hq hp =>
    refine ⟨fun i hi => hJ.started i ((idle_dispatched hq _ i).1 hi), ?_, ?_⟩
    · intro i hi
      have := hJ.startLe i ((idle_dispatched hq _ i).1 hi)
      simp only
      omega
    · intro i j hi hj hij
      exact hJ.disjoint i j ((idle_dispatched hq _ i).1 hi) ((idle_dispatched hq _ j).1 hj) hij
  | run procs c rest hlen hsame hperm hsel =>
    obtain ⟨hc, -, -⟩ := run_undispatched s c rest hI.nodup hperm
    have hdisp := run_dispatched hI procs c rest (runToCompletion (deref procs c) s.time)
      (s.time + (deref procs c).burstTime) hlen hperm
    have hbc : 0 ≤ (deref procs c).burstTime := by
      rw [(hsame c).fields.2.2.1, (hI.fixed c).2.2]
      exact deref_burst_nonneg hB c
    have hsc : (deref procs c).startTime = -1 := by
      rw [(hsame c).fields.2.2.2.2.1, (hI.untouched c hc).fields.2.2.2.2.1]
      exact deref_fresh hF c
    have hac : (deref procs c).arrivalTime ≤ s.time := by
      rw [(hsame c).fields.2.1]
      rcases mem_admitted (hperm.subset (List.mem_cons_self _ _)) with h1 | h1
      · exact hT.ready c h1
      · exact h1.2
    have hnew : deref (procs.set c (runToCompletion (deref procs c) s.time)) c =
        runToCompletion (deref procs c) s.time := run_deref_new hI procs c s.time hlen hc
    have hold : ∀ i, s.dispatched i →
        deref (procs.set c (runToCompletion (deref procs c) s.time)) i = deref procs i := by
      intro i hd
      apply run_deref_old
      rintro rfl
      exact hd.2 hc
    have hcs : (runToCompletion (deref procs c) s.time).startTime = s.time := by
      simp [runToCompletion, hsc]
    have hcf : (runToCompletion (deref procs c) s.time).finishTime =
        s.time + (deref procs c).burstTime := rfl
    have hca : (runToCompletion (deref procs c) s.time).arrivalTime =
        (deref procs c).arrivalTime := rfl
    refine ⟨?_, ?_, ?_⟩
    · intro i hi
      rcases (hdisp i).1 hi with rfl | hd
      · simp only
        rw [hnew, hcs, hca]
        exact hac
      · simp only
        rw [hold i hd, (hsame i).fields.2.1, (hsame i).fields.2.2.2.2.1]
        exact hJ.started i hd
    · intro i hi
      rcases (hdisp i).1 hi with rfl | hd
      · simp only
        rw [hnew, hcs]
        omega
      · simp only
        rw [hold i hd, (hsame i).fields.2.2.2.2.1]
        have := hJ.startLe i hd
        omega
    · intro i j hi hj hij
      simp only
      rcases (hdisp i).1 hi with rfl | hdi
      · rcases (hdisp j).1 hj with rfl | hdj
        · exact absurd rfl hij
        · right
          rw [hnew, hcs, hold j hdj, (hsame j).fields.2.2.2.2.2.1]
          exact hT.finished j hdj
      · rcases (hdisp j).1 hj with rfl | hdj
        · left
          rw [hnew, hcs, hold i hdi, (hsame i).fields.2.2.2.2.2.1]
          exact hT.finished i hdi
        · rw [hold i hdi, hold j hdj, (hsame i).fields.2.2.2.2.2.1, (hsame j).fields.2.2.2.2.2.1,
            (hsame i).fields.2.2.2.2.1, (hsame j).fields.2.2.2.2.1]
          exact hJ.disjoint i j hdi hdj hij

/-- A property of dispatched records that follows from the invariants holds
for every record of the vector the loop leaves. -/
theorem final_forall {Sel : State → List Process → Nat → Prop} (step : State → State)
    (hstep : ∀ s, Iter Sel s (step s)) (P0 : List Process) (J : State → Prop)
    (hJ0 : J (State.init P0)) (hJ : ∀ s, Inv P0 s → J s → s.busy → J (step s))
    (Q : Process → Prop)
    (hQ : ∀ s, Inv P0 s → J s → ∀ i, s.dispatched i → Q (deref s.processes i)) :
    ∀ p ∈ (whileBusy step hstep (State.init P0)).processes, Q p := by
  obtain ⟨hI, hJf, hnb⟩ := loop_final step hstep P0 J hJ0 hJ
  intro p hp
  obtain ⟨i, hi, rfl⟩ := (mem_iff_deref _ _).1 hp
  exact hQ _ hI hJf i (not_busy_dispatched hnb hi)

theorem fresh_init (P0 : List Process) : Fresh (State.init P0) :=
  fun i hi => absurd hi (init_not_dispatched P0 i)

/-- Evaluation of `sjf` by running the loop body `n` times. -/
theorem sjf_eq_iterate (S : Sorter) (processes : List Process) (n : Nat)
    (h : (∀ k < n, ((sjfStep S)^[k] (State.init (S.sort arrivalLt processes))).busy) ∧
      ¬ ((sjfStep S)^[n] (State.init (S.sort arrivalLt processes))).busy) :
    sjf S processes = ((sjfStep S)^[n] (State.init (S.sort arrivalLt processes))).processes := by
  unfold sjf
  rw [whileBusy_eq_iterate _ _ n _ h]

/-- Evaluation of `prioritySchedulingWithAging` by running the loop body `n`
times. -/
theorem priority_eq_iterate (S : Sorter) (processes : List Process) (a : Int) (n : Nat)
    (h : (∀ k < n, ((priorityStep S a)^[k] (State.init (S.sort arrivalLt processes))).busy) ∧
      ¬ ((priorityStep S a)^[n] (State.init (S.sort arrivalLt processes))).busy) :
    prioritySchedulingWithAging S processes a =
      ((priorityStep S a)^[n] (State.init (S.sort arrivalLt processes))).processes := by
  unfold prioritySchedulingWithAging
  rw [whileBusy_eq_iterate _ _ n _ h]

/-- On freshly constructed records without negative burst times the loop ends
with every invariant in force. -/
theorem loop_final_timing {Sel : State → List Process → Nat → Prop} (step : State → State)
    (hstep : ∀ s, Iter Sel s (step s)) (P0 : List Process)
    (hF : ∀ p ∈ P0, p.startTime = -1) (hB : ∀ p ∈ P0, 0 ≤ p.burstTime) :
    Inv P0 (whileBusy step hstep (State.init P0)) ∧
    (Timing (whileBusy step hstep (State.init P0)) ∧
      Fresh (whileBusy step hstep (State.init P0)) ∧
      FreshTiming (whileBusy step hstep (State.init P0))) ∧
    ¬ (whileBusy step hstep (State.init P0)).busy :=
  loop_final step hstep P0 (fun s => Timing s ∧ Fresh s ∧ FreshTiming s)
    ⟨timing_init P0, fresh_init P0, freshTiming_init P0⟩
    (fun s hI hJ _ => ⟨timing_step hB hI hJ.1 (hstep s), fresh_step hF hI hJ.2.1 (hstep s),
      freshTiming_step hF hB hI hJ.1 hJ.2.2 (hstep s)⟩)

theorem sjf_names (S : Sorter) : Names (SelSjf S) (sjfCurrent S) := by
  constructor
  · intro s procs c hsel hne
    unfold sjfCurrent
    rw [admitArrived_eq]
    simp only [if_neg hne]
    rw [hsel.2.1]
  · intro s h
    unfold sjfCurrent
    rw [admitArrived_eq]
    simp only [if_pos h]

theorem priority_names (S : Sorter) (a : Int) : Names (SelPriority S a) (priorityCurrent S a) := by
  constructor
  · intro s procs c hsel hne
    unfold priorityCurrent
    rw [admitArrived_eq]
    simp only [if_neg hne]
    rw [hsel.2.1, hsel.1]
  · intro s h
    unfold priorityCurrent
    rw [admitArrived_eq]
    simp only [if_pos h]

theorem idle_admitted_nil {s : State} (hq : s.readyQueue = [])
    (hp : ∀ i ∈ s.processesReady, s.time < (deref s.processes i).arrivalTime) :
    s.admitted = [] := by
  unfold State.admitted
  rw [hq, List.nil_append, List.filter_eq_nil_iff]
  intro i hi
  have := hp i hi
  simp only [decide_eq_true_eq]
  omega

theorem history {Sel : State → List Process → Nat → Prop} (step : State → State)
    (hstep : ∀ s, Iter Sel s (step s)) (cur : State → Option Nat) (hn : Names Sel cur)
    (P0 : List Process) (k : Nat) :
    Inv P0 (step^[k] (State.init P0)) ∧ History step cur (State.init P0) k := by
  induction k with
  | zero =>
    refine ⟨inv_init P0, fun i hi => absurd hi (init_not_dispatched P0 i), ?_, ?_⟩
    · intro j hj; omega
    · intro j hj; omega
  | succ k ih =>
    obtain ⟨hI, ha, hb, hc⟩ := ih
    have hit := hstep (step^[k] (State.init P0))
    refine ⟨by rw [Function.iterate_succ_apply']; exact inv_step hI hit, ?_⟩
    unfold History
    rw [Function.iterate_succ_apply']
    generalize hsk : step^[k] (State.init P0) = sk at *
    generalize hsk1 : step sk = sk1 at *
    cases hit with
    | idle hq hp =>
      have hcur : cur sk = none := hn.2 sk (idle_admitted_nil hq hp)
      have hne : ∀ j < k + 1, ∀ i, cur (step^[j] (State.init P0)) = some i → j < k := by
        intro j hj i hji
        rcases Nat.lt_succ_iff_lt_or_eq.1 hj with h1 | h1
        · exact h1
        · subst h1
          rw [hsk, hcur] at hji
          exact Option.noConfusion hji
      refine ⟨?_, ?_, ?_⟩
      · intro i hi
        obtain ⟨j, hj, hji⟩ := ha i ((idle_dispatched hq _ i).1 hi)
        exact ⟨j, by omega, hji⟩
      · intro j hj i hji
        obtain ⟨h1, h2⟩ := hb j (hne j hj i hji) i hji
        exact ⟨(idle_dispatched hq _ i).2 h1, h2⟩
      · intro j1 hj1 j2 hj2 i h1 h2
        exact hc j1 (hne j1 hj1 i h1) j2 (hne j2 hj2 i h2) i h1 h2
    | run procs c rest hlen hsame hperm hsel =>
      have hcur : cur sk = some c :=
        hn.1 sk procs c hsel (fun h0 => by rw [h0] at hperm; exact List.cons_ne_nil _ _ hperm.eq_nil)
      obtain ⟨hcu, -, -⟩ := run_undispatched sk c rest hI.nodup hperm
      have hdisp := run_dispatched hI procs c rest (runToCompletion (deref procs c) sk.time)
        (sk.time + (deref procs c).burstTime) hlen hperm
      have hlt : ∀ j < k + 1, ∀ i, cur (step^[j] (State.init P0)) = some i →
          (j = k ∧ i = c) ∨ (j < k ∧ i ≠ c) := by
        intro j hj i hji
        rcases Nat.lt_succ_iff_lt_or_eq.1 hj with h1 | h1
        · right
          refine ⟨h1, ?_⟩
          rintro rfl
          exact (hb j h1 i hji).1.2 hcu
        · subst h1
          rw [hsk, hcur] at hji
          exact Or.inl ⟨rfl, (Option.some.inj hji).symm⟩
      refine ⟨?_, ?_, ?_⟩
      · intro i hi
        rcases (hdisp i).1 hi with rfl | hd
        · exact ⟨k, by omega, by rw [hsk]; exact hcur⟩
        · obtain ⟨j, hj, hji⟩ := ha i hd
          exact ⟨j, by omega, hji⟩
      · intro j hj i hji
        rcases hlt j hj i hji with ⟨rfl, rfl⟩ | ⟨h1, h2⟩
        · refine ⟨(hdisp i).2 (Or.inl rfl), ?_⟩
          simp only
          rw [run_deref_new hI procs i sk.time hlen hcu, hsk]
          rfl
        · obtain ⟨h3, h4⟩ := hb j h1 i hji
          refine ⟨(hdisp i).2 (Or.inr h3), ?_⟩
          simp only
          rw [run_deref_old procs c i sk.time h2, (hsame i).fields.2.2.1,
            (hsame i).fields.2.2.2.2.2.1]
          exact h4
      · intro j1 hj1 j2 hj2 i h1 h2
        rcases hlt j1 hj1 i h1 with ⟨rfl, rfl⟩ | ⟨h3, h4⟩
        · rcases hlt j2 hj2 i h2 with ⟨rfl, -⟩ | ⟨-, h6⟩
          · rfl
          · exact absurd rfl h6
        · rcases hlt j2 hj2 i h2 with ⟨-, rfl⟩ | ⟨h5, -⟩
          · exact absurd rfl h4
          · exact hc j1 h3 j2 h5 i h1 h2

theorem shortest_init (P0 : List Process) : Shortest (State.init P0) :=
  fun p _ hp => absurd hp (init_not_dispatched P0 p)

theorem shortest_step {P0 : List Process} (S : Sorter) {s s' : State}
    (hF : ∀ p ∈ P0, p.startTime = -1) (hI : Inv P0 s)
    (hT : FreshTiming s) (hJ : Shortest s) (h : Iter (SelSjf S) s s') : Shortest s' := by
  cases h with
  | idle hq hp =>
    intro p q hdp hq2 ha hor
    refine hJ p q ((idle_dispatched hq _ p).1 hdp) hq2 ha ?_
    rcases hor with h1 | h1
    · left
      rcases h1 with h1 | h1
      · exact Or.inl h1
      · simp at h1
    · exact Or.inr h1
  | run procs c rest hlen hsame hperm hsel =>
    obtain ⟨hc, -, hmem⟩ := run_undispatched s c rest hI.nodup hperm
    have hdisp := run_dispatched hI procs c rest (runToCompletion (deref procs c) s.time)
      (s.time + (deref procs c).burstTime) hlen hperm
    obtain ⟨hprocs, -, hmin⟩ := hsel
    subst hprocs
    have hsc : (deref s.processes c).startTime = -1 := by
      rw [(hI.untouched c hc).fields.2.2.2.2.1]
      exact deref_fresh hF c
    have hnew : deref (s.processes.set c (runToCompletion (deref s.processes c) s.time)) c =
        runToCompletion (deref s.processes c) s.time := run_deref_new hI s.processes c s.time rfl hc
    have hold : ∀ i, i ≠ c →
        deref (s.processes.set c (runToCompletion (deref s.processes c) s.time)) i =
          deref s.processes i := fun i hi => run_deref_old s.processes c i s.time hi
    have hcs : (runToCompletion (deref s.processes c) s.time).startTime = s.time := by
      simp [runToCompletion, hsc]
    have hcb : (runToCompletion (deref s.processes c) s.time).burstTime =
        (deref s.processes c).burstTime := rfl
    have hca : (runToCompletion (deref s.processes c) s.time).arrivalTime =
        (deref s.processes c).arrivalTime := rfl
    intro p q hdp hq2 ha hor
    have hq3 : q < s.processes.length := by simpa using hq2
    simp only at ha hor ⊢
    by_cases hpc : p = c
    · subst hpc
      by_cases hqc : q = p
      · subst hqc
        exact le_refl _
      · rw [hnew, hcb, hold q hqc]
        rw [hnew, hcs, hold q hqc] at ha hor
        by_cases hu : s.undispatched q
        · exact hmin q (mem_admitted_of_arrived hu ha)
        · rcases hor with h1 | h1
          · exact absurd ((hmem q).1 h1).1 hu
          · have := hT.startLe q ⟨hq3, hu⟩
            omega
    · have hdp2 : s.dispatched p := by
        rcases (hdisp p).1 hdp with h1 | h1
        · exact absurd h1 hpc
        · exact h1
      rw [hold p hpc] at ha hor ⊢
      by_cases hqc : q = c
      · subst hqc
        rw [hnew, hca] at ha
        rw [hnew, hcb]
        exact hJ p q hdp2 hq3 ha (Or.inl hc)
      · rw [hold q hqc] at ha hor ⊢
        refine hJ p q hdp2 hq3 ha ?_
        rcases hor with h1 | h1
        · exact Or.inl ((hmem q).1 h1).1
        · exact Or.inr h1

theorem sort_single (S : Sorter) {α : Type} (lt : α → α → Bool) (a : α) : S.sort lt [a] = [a] :=
  List.perm_singleton.1 (S.perm lt [a])

theorem perm_pair {α : Type} {l : List α} {a b : α} (h : l.Perm [a, b]) :
    l = [a, b] ∨ l = [b, a] := by
  have hl := h.length_eq
  match l, hl with
  | [x, y], _ =>
    have hx : x ∈ [a, b] := h.subset (List.mem_cons_self _ _)
    have hy : y ∈ [a, b] := h.subset (List.mem_cons_of_mem _ (List.mem_cons_self _ _))
    have ha : a ∈ [x, y] := h.symm.subset (List.mem_cons_self _ _)
    have hb : b ∈ [x, y] := h.symm.subset (List.mem_cons_of_mem _ (List.mem_cons_self _ _))
    simp only [List.mem_cons, List.mem_singleton, List.not_mem_nil, or_false] at hx hy ha hb
    rcases hx with rfl | rfl
    · rcases hy with rfl | rfl
      · rcases hb with rfl | rfl <;> exact Or.inl rfl
      · exact Or.inl rfl
    · rcases hy with rfl | rfl
      · exact Or.inr rfl
      · rcases ha with rfl | rfl <;> exact Or.inl rfl

/-- A two-element vector whose second element precedes the first is swapped by
every sorter. -/
theorem sort_pair_of_lt (S : Sorter) {α : Type} (lt : α → α → Bool) (hlt : StrictWeak lt)
    (a b : α) (h : lt b a = true) : S.sort lt [a, b] = [b, a] := by
  rcases perm_pair (S.perm lt [a, b]) with h1 | h1
  · have := S.sorted lt [a, b] hlt
    rw [h1] at this
    simp [h] at this
  · exact h1

/-- A two-element vector whose first element precedes the second is left as
it is by every sorter. -/
theorem sort_pair_of_gt (S : Sorter) {α : Type} (lt : α → α → Bool) (hlt : StrictWeak lt)
    (a b : α) (h : lt a b = true) : S.sort lt [a, b] = [a, b] := by
  rcases perm_pair (S.perm lt [a, b]) with h1 | h1
  · exact h1
  · have := S.sorted lt [a, b] hlt
    rw [h1] at this
    simp [h] at this

/-- An iteration of `sjf` whose admitted queue `q` is sorted to `c :: rest`. -/
theorem sjfStep_run (S : Sorter) (s : State) (q : List Nat) (c : Nat) (rest : List Nat)
    (hadm : s.admitted = q) (hsort : S.sort (burstLt s.processes) q = c :: rest) :
    sjfStep S s =
      { processes := s.processes.set c (runToCompletion (deref s.processes c) s.time)
        time := s.time + (deref s.processes c).burstTime
        processesReady := s.notArrived
        readyQueue := rest } := by
  have hne : s.admitted ≠ [] := by
    intro h0
    rw [hadm] at h0
    rw [h0] at hsort
    have := S.perm (burstLt s.processes) []
    rw [hsort] at this
    exact List.cons_ne_nil _ _ this.eq_nil
  rw [hadm] at hne
  unfold sjfStep
  rw [admitArrived_eq]
  simp only [hadm, if_neg hne, hsort, dispatch, List.headD_cons, List.tail_cons]

/-- An iteration of `prioritySchedulingWithAging` whose admitted queue `q` is
sorted, after aging, to `c :: rest`. -/
theorem priorityStep_run (S : Sorter) (a : Int) (s : State) (q : List Nat) (c : Nat)
    (rest : List Nat) (hadm : s.admitted = q)
    (hsort : S.sort (priorityLt (aging a s.time s.processes q)) q = c :: rest) :
    priorityStep S a s =
      { processes := (aging a s.time s.processes q).set c
          (runToCompletion (deref (aging a s.time s.processes q) c) s.time)
        time := s.time + (deref (aging a s.time s.processes q) c).burstTime
        processesReady := s.notArrived
        readyQueue := rest } := by
  have hne : s.admitted ≠ [] := by
    intro h0
    rw [hadm] at h0
    rw [h0] at hsort
    have := S.perm (priorityLt (aging a s.time s.processes [])) []
    rw [hsort] at this
    exact List.cons_ne_nil _ _ this.eq_nil
  rw [hadm] at hne
  unfold priorityStep
  rw [admitArrived_eq]
  simp only [hadm, if_neg hne, hsort, dispatch, List.headD_cons, List.tail_cons]

/-- An iteration that finds nothing to run is an idle tick. -/
theorem Iter.of_admitted_nil {Sel : State → List Process → Nat → Prop} {s s' : State}
    (h : Iter Sel s s') (ha : s.admitted = []) :
    s' = { processes := s.processes, time := s.time + 1,
           processesReady := s.processesReady, readyQueue := [] } := by
  cases h with
  | idle hq hp => rfl
  | run procs c rest hlen hsame hperm hsel =>
    rw [ha] at hperm
    exact absurd hperm.eq_nil (List.cons_ne_nil _ _)

/-- With an empty ready queue the loop ticks idly as long as every pending
record lies in the future. -/
theorem whileBusy_idle {Sel : State → List Process → Nat → Prop} (step : State → State)
    (hstep : ∀ s, Iter Sel s (step s)) (procs : List Process) (pend : List Nat)
    (hne : pend ≠ []) (m : Nat) (t : Int)
    (h : ∀ i ∈ pend, t + m ≤ (deref procs i).arrivalTime) :
    whileBusy step hstep
        { processes := procs, time := t, processesReady := pend, readyQueue := [] } =
      whileBusy step hstep
        { processes := procs, time := t + m, processesReady := pend, readyQueue := [] } := by
  induction m generalizing t with
  | zero => simp
  | succ m ih =>
    have hb : State.busy
        { processes := procs, time := t, processesReady := pend, readyQueue := [] } :=
      Or.inl hne
    have hadm : State.admitted
        { processes := procs, time := t, processesReady := pend, readyQueue := [] } = [] := by
      apply idle_admitted_nil rfl
      intro i hi
      have := h i hi
      simp only
      push_cast at this
      omega
    rw [whileBusy_busy step hstep _ hb, (hstep _).of_admitted_nil hadm]
    simp only
    rw [ih (t + 1) (fun i hi => by have := h i hi; push_cast at this; omega)]
    congr 2
    push_cast
    omega

theorem aging_agedFrom (a t : Int) (ps : List Process) (q : List Nat) (j : Nat) :
    (deref ps j).agedFrom (deref (aging a t ps q) j) := by
  refine aging_rel Process.agedFrom ?_ ?_ ?_ a t ps q j
  · intro p hp
    exact ⟨le_refl _, hp⟩
  · intro p q r h1 h2 hp
    obtain ⟨h3, h4⟩ := h1 hp
    obtain ⟨h5, h6⟩ := h2 h4
    exact ⟨le_trans h5 h3, h6⟩
  · intro p hp
    simp only
    constructor
    · rw [max_le_iff]
      constructor
      · exact hp
      · omega
    · exact le_max_left _ _

/-- One iteration of the priority engine never raises a priority value that
is at least 1 and never lowers it below 1. -/
theorem priority_iter_agedFrom {S : Sorter} {a : Int} {s s' : State}
    (h : Iter (SelPriority S a) s s') (i : Nat) :
    (deref s.processes i).agedFrom (deref s'.processes i) := by
  cases h with
  | idle hq hp =>
    intro hp
    exact ⟨le_refl _, hp⟩
  | run procs c rest hlen hsame hperm hsel =>
    obtain ⟨hprocs, -, -⟩ := hsel
    subst hprocs
    simp only [deref_dispatch]
    split
    · rename_i hci
      obtain ⟨rfl, -⟩ := hci
      exact aging_agedFrom a s.time s.processes s.admitted c
    · exact aging_agedFrom a s.time s.processes s.admitted i

/-- Along the run of the priority engine every priority that was at least 1 on
entry stays between 1 and its initial value. -/
theorem priority_trace_agedFrom (S : Sorter) (a : Int) (s0 : State) (k : Nat) (i : Nat) :
    (deref s0.processes i).agedFrom (deref ((priorityStep S a)^[k] s0).processes i) := by
  induction k with
  | zero =>
    intro hp
    exact ⟨le_refl _, hp⟩
  | succ k ih =>
    rw [Function.iterate_succ_apply']
    intro hp
    obtain ⟨h1, h2⟩ := ih hp
    obtain ⟨h3, h4⟩ := priority_iter_agedFrom (priorityStep_iter S a _) i h2
    exact ⟨le_trans h3 h1, h4⟩

theorem iterate_structural {Sel : State → List Process → Nat → Prop} (step : State → State)
    (hstep : ∀ s, Iter Sel s (step s)) (P0 : List Process) (k : Nat) :
    Inv P0 (step^[k] (State.init P0)) := by
  induction k with
  | zero => exact inv_init P0
  | succ k ih =>
    rw [Function.iterate_succ_apply']
    exact inv_step ih (hstep _)

/-! ## The contracts -/

/-- C1: for every workload of freshly constructed records (`startTime = -1`),
after `sjf` and after `prioritySchedulingWithAging` with any `agingInterval`,
every process satisfies `finishTime = startTime + burstTime`. -/
theorem finish_eq_start_add_burst (S : Sorter) (processes : List Process) (agingInterval : Int)
    (hfresh : ∀ p ∈ processes, p.startTime = -1) :
    (∀ p ∈ sjf S processes, p.finishTime = p.startTime + p.burstTime) ∧
    (∀ p ∈ prioritySchedulingWithAging S processes agingInterval,
      p.finishTime = p.startTime + p.burstTime) := by
  have hF0 : ∀ p ∈ S.sort arrivalLt processes, p.startTime = -1 :=
    fun p hp => hfresh p ((S.perm _ _).subset hp)
  constructor
  · exact final_forall (sjfStep S) (sjfStep_iter S) _ Fresh (fresh_init _)
      (fun s hI hJ _ => fresh_step hF0 hI hJ (sjfStep_iter S s)) _
      (fun s _ hJ i hi => hJ i hi)
  · exact final_forall (priorityStep S agingInterval) (priorityStep_iter S agingInterval) _
      Fresh (fresh_init _)
      (fun s hI hJ _ => fresh_step hF0 hI hJ (priorityStep_iter S agingInterval s)) _
      (fun s _ hJ i hi => hJ i hi)

theorem finish_eq_start_add_burst_witness :
    (∀ p ∈ [Process.new 1 0 8 2, Process.new 2 0 3 1], p.startTime = -1) ∧
    ((∀ p ∈ sjf insertionSorter [Process.new 1 0 8 2, Process.new 2 0 3 1],
        p.finishTime = p.startTime + p.burstTime) ∧
     (∀ p ∈ prioritySchedulingWithAging insertionSorter
          [Process.new 1 0 8 2, Process.new 2 0 3 1] 4,
        p.finishTime = p.startTime + p.burstTime)) :=
  ⟨by decide, finish_eq_start_add_burst insertionSorter _ 4 (by decide)⟩

/-- C2: for every workload without negative burst times, after `sjf` and after
`prioritySchedulingWithAging` every process satisfies
`turnAroundTime = finishTime - arrivalTime`,
`waitingTime = finishTime - arrivalTime - burstTime` and `waitingTime >= 0`. -/
theorem waiting_time_contract (S : Sorter) (processes : List Process) (agingInterval : Int)
    (hburst : ∀ p ∈ processes, 0 ≤ p.burstTime) :
    (∀ p ∈ sjf S processes,
      p.turnAroundTime = p.finishTime - p.arrivalTime ∧
      p.waitingTime = p.finishTime - p.arrivalTime - p.burstTime ∧ 0 ≤ p.waitingTime) ∧
    (∀ p ∈ prioritySchedulingWithAging S processes agingInterval,
      p.turnAroundTime = p.finishTime - p.arrivalTime ∧
      p.waitingTime = p.finishTime - p.arrivalTime - p.burstTime ∧ 0 ≤ p.waitingTime) := by
  have hB0 : ∀ p ∈ S.sort arrivalLt processes, 0 ≤ p.burstTime :=
    fun p hp => hburst p ((S.perm _ _).subset hp)
  constructor
  · exact final_forall (sjfStep S) (sjfStep_iter S) _ Timing (timing_init _)
      (fun s hI hJ _ => timing_step hB0 hI hJ (sjfStep_iter S s)) _
      (fun s hI hJ i hi => ⟨(hI.metrics i hi).1, (hI.metrics i hi).2, hJ.waited i hi⟩)
  · exact final_forall (priorityStep S agingInterval) (priorityStep_iter S agingInterval) _
      Timing (timing_init _)
      (fun s hI hJ _ => timing_step hB0 hI hJ (priorityStep_iter S agingInterval s)) _
      (fun s hI hJ i hi => ⟨(hI.metrics i hi).1, (hI.metrics i hi).2, hJ.waited i hi⟩)

theorem waiting_time_contract_witness :
    (∀ p ∈ [Process.new 1 2 8 2, Process.new 2 0 3 1, Process.new 3 1 0 3], 0 ≤ p.burstTime) ∧
    ((∀ p ∈ sjf insertionSorter [Process.new 1 2 8 2, Process.new 2 0 3 1, Process.new 3 1 0 3],
        p.turnAroundTime = p.finishTime - p.arrivalTime ∧
        p.waitingTime = p.finishTime - p.arrivalTime - p.burstTime ∧ 0 ≤ p.waitingTime) ∧
     (∀ p ∈ prioritySchedulingWithAging insertionSorter
          [Process.new 1 2 8 2, Process.new 2 0 3 1, Process.new 3 1 0 3] 4,
        p.turnAroundTime = p.finishTime - p.arrivalTime ∧
        p.waitingTime = p.finishTime - p.arrivalTime - p.burstTime ∧ 0 ≤ p.waitingTime)) :=
  ⟨by decide, waiting_time_contract insertionSorter _ 4 (by decide)⟩

/-- C3 (as amended): for every workload of freshly constructed records
(`startTime = -1`) without negative burst times, after `sjf` and after
`prioritySchedulingWithAging` every process satisfies
`startTime >= arrivalTime`. -/
theorem start_ge_arrival (S : Sorter) (processes : List Process) (agingInterval : Int)
    (hfresh : ∀ p ∈ processes, p.startTime = -1)
    (hburst : ∀ p ∈ processes, 0 ≤ p.burstTime) :
    (∀ p ∈ sjf S processes, p.arrivalTime ≤ p.startTime) ∧
    (∀ p ∈ prioritySchedulingWithAging S processes agingInterval,
      p.arrivalTime ≤ p.startTime) := by
  have hF0 : ∀ p ∈ S.sort arrivalLt processes, p.startTime = -1 :=
    fun p hp => hfresh p ((S.perm _ _).subset hp)
  have hB0 : ∀ p ∈ S.sort arrivalLt processes, 0 ≤ p.burstTime :=
    fun p hp => hburst p ((S.perm _ _).subset hp)
  constructor
  · obtain ⟨-, ⟨-, -, hJ⟩, hnb⟩ := loop_final_timing (sjfStep S) (sjfStep_iter S) _ hF0 hB0
    intro p hp
    obtain ⟨i, hi, rfl⟩ := (mem_iff_deref _ _).1 hp
    exact hJ.started i (not_busy_dispatched hnb hi)
  · obtain ⟨-, ⟨-, -, hJ⟩, hnb⟩ := loop_final_timing (priorityStep S agingInterval)
      (priorityStep_iter S agingInterval) _ hF0 hB0
    intro p hp
    obtain ⟨i, hi, rfl⟩ := (mem_iff_deref _ _).1 hp
    exact hJ.started i (not_busy_dispatched hnb hi)

theorem start_ge_arrival_witness :
    (∀ p ∈ [Process.new 1 2 8 2, Process.new 2 0 3 1, Process.new 3 1 0 3], p.startTime = -1) ∧
    (∀ p ∈ [Process.new 1 2 8 2, Process.new 2 0 3 1, Process.new 3 1 0 3], 0 ≤ p.burstTime) ∧
    ((∀ p ∈ sjf insertionSorter [Process.new 1 2 8 2, Process.new 2 0 3 1, Process.new 3 1 0 3],
        p.arrivalTime ≤ p.startTime) ∧
     (∀ p ∈ prioritySchedulingWithAging insertionSorter
          [Process.new 1 2 8 2, Process.new 2 0 3 1, Process.new 3 1 0 3] 4,
        p.arrivalTime ≤ p.startTime)) :=
  ⟨by decide, by decide, start_ge_arrival insertionSorter _ 4 (by decide) (by decide)⟩

/-- C3 as stated fails when a burst time is negative: the freshly constructed
workload `(arrival 0, burst 3)`, `(arrival 1, burst -10)`, `(arrival 2, burst 1)`
has no tie in any comparator, so every sorter gives the run evaluated here;
the clock goes `0, 3, -7`, and the third record is dispatched at `-7`, before
its arrival at `2`, by both engines. -/
theorem start_before_arrival_counterexample :
    (∀ p ∈ [Process.new 1 0 3 1, Process.new 2 1 (-10) 1, Process.new 3 2 1 2],
      p.startTime = -1) ∧
    (∃ p ∈ sjf insertionSorter
        [Process.new 1 0 3 1, Process.new 2 1 (-10) 1, Process.new 3 2 1 2],
      p.arrivalTime = 2 ∧ p.startTime = -7) ∧
    (∃ p ∈ prioritySchedulingWithAging insertionSorter
        [Process.new 1 0 3 1, Process.new 2 1 (-10) 1, Process.new 3 2 1 2] 4,
      p.arrivalTime = 2 ∧ p.startTime = -7) := by
  refine ⟨by decide, ?_, ?_⟩
  · rw [sjf_eq_iterate insertionSorter _ 3 (by decide)]
    decide
  · rw [priority_eq_iterate insertionSorter _ 4 3 (by decide)]
    decide

/-- C4: for every workload (any integer `arrivalTime`, `burstTime`, `priority`)
and any `agingInterval` the scheduling loops of `sjf` and of
`prioritySchedulingWithAging` terminate: every iteration from a busy state
decreases, in the lexicographic order, the measure made of the number of
unfinished processes and the distance from the clock to the latest pending
arrival, and each function returns after a finite number `n` of iterations,
the first at which the loop condition is false. -/
theorem scheduling_loop_terminates (S : Sorter) (processes : List Process) (agingInterval : Int) :
    (∀ s : State, s.busy →
      Prod.Lex (fun a b : Nat => a < b) (fun a b : Nat => a < b)
        (sjfStep S s).measure s.measure) ∧
    (∀ s : State, s.busy →
      Prod.Lex (fun a b : Nat => a < b) (fun a b : Nat => a < b)
        (priorityStep S agingInterval s).measure s.measure) ∧
    (∃ n, (∀ k < n, (sjfTrace S processes k).busy) ∧
      ¬ (sjfTrace S processes n).busy ∧
      sjf S processes =
        (sjfTrace S processes n).processes) ∧
    (∃ n, (∀ k < n,
        (priorityTrace S processes agingInterval k).busy) ∧
      ¬ (priorityTrace S processes agingInterval n).busy ∧
      prioritySchedulingWithAging S processes agingInterval =
        (priorityTrace S processes agingInterval n).processes) := by
  refine ⟨fun s hb => (sjfStep_iter S s).decreases hb,
    fun s hb => (priorityStep_iter S agingInterval s).decreases hb, ?_, ?_⟩
  · obtain ⟨n, h1, h2, h3⟩ := whileBusy_iterate (sjfStep S) (sjfStep_iter S)
      (State.init (S.sort arrivalLt processes))
    exact ⟨n, h3, h2, congrArg State.processes h1⟩
  · obtain ⟨n, h1, h2, h3⟩ := whileBusy_iterate (priorityStep S agingInterval)
      (priorityStep_iter S agingInterval) (State.init (S.sort arrivalLt processes))
    exact ⟨n, h3, h2, congrArg State.processes h1⟩

/-- C6: single-server execution.  For every workload of freshly constructed
records without negative burst times and for both engines, the execution
intervals `[startTime, finishTime)` of two distinct records of the resulting
vector do not overlap. -/
theorem intervals_disjoint (S : Sorter) (processes : List Process) (agingInterval : Int)
    (hfresh : ∀ p ∈ processes, p.startTime = -1)
    (hburst : ∀ p ∈ processes, 0 ≤ p.burstTime) :
    (∀ (i j : Nat) (hi : i < (sjf S processes).length) (hj : j < (sjf S processes).length),
      i ≠ j →
      (sjf S processes)[i].finishTime ≤ (sjf S processes)[j].startTime ∨
      (sjf S processes)[j].finishTime ≤ (sjf S processes)[i].startTime) ∧
    (∀ (i j : Nat) (hi : i < (prioritySchedulingWithAging S processes agingInterval).length)
      (hj : j < (prioritySchedulingWithAging S processes agingInterval).length),
      i ≠ j →
      (prioritySchedulingWithAging S processes agingInterval)[i].finishTime ≤
        (prioritySchedulingWithAging S processes agingInterval)[j].startTime ∨
      (prioritySchedulingWithAging S processes agingInterval)[j].finishTime ≤
        (prioritySchedulingWithAging S processes agingInterval)[i].startTime) := by
  have hF0 : ∀ p ∈ S.sort arrivalLt processes, p.startTime = -1 :=
    fun p hp => hfresh p ((S.perm _ _).subset hp)
  have hB0 : ∀ p ∈ S.sort arrivalLt processes, 0 ≤ p.burstTime :=
    fun p hp => hburst p ((S.perm _ _).subset hp)
  constructor
  · obtain ⟨-, ⟨-, -, hJ⟩, hnb⟩ := loop_final_timing (sjfStep S) (sjfStep_iter S) _ hF0 hB0
    intro i j hi hj hij
    have := hJ.disjoint i j (not_busy_dispatched hnb hi) (not_busy_dispatched hnb hj) hij
    rw [← deref_eq_getElem _ i hi, ← deref_eq_getElem _ j hj]
    exact this
  · obtain ⟨-, ⟨-, -, hJ⟩, hnb⟩ := loop_final_timing (priorityStep S agingInterval)
      (priorityStep_iter S agingInterval) _ hF0 hB0
    intro i j hi hj hij
    have := hJ.disjoint i j (not_busy_dispatched hnb hi) (not_busy_dispatched hnb hj) hij
    rw [← deref_eq_getElem _ i hi, ← deref_eq_getElem _ j hj]
    exact this

theorem intervals_disjoint_witness :
    (∀ p ∈ [Process.new 1 2 8 2, Process.new 2 0 3 1, Process.new 3 1 0 3], p.startTime = -1) ∧
    (∀ p ∈ [Process.new 1 2 8 2, Process.new 2 0 3 1, Process.new 3 1 0 3], 0 ≤ p.burstTime) ∧
    ((∀ (i j : Nat)
        (hi : i < (sjf insertionSorter
          [Process.new 1 2 8 2, Process.new 2 0 3 1, Process.new 3 1 0 3]).length)
        (hj : j < (sjf insertionSorter
          [Process.new 1 2 8 2, Process.new 2 0 3 1, Process.new 3 1 0 3]).length),
        i ≠ j →
        (sjf insertionSorter
          [Process.new 1 2 8 2, Process.new 2 0 3 1, Process.new 3 1 0 3])[i].finishTime ≤
        (sjf insertionSorter
          [Process.new 1 2 8 2, Process.new 2 0 3 1, Process.new 3 1 0 3])[j].startTime ∨
        (sjf insertionSorter
          [Process.new 1 2 8 2, Process.new 2 0 3 1, Process.new 3 1 0 3])[j].finishTime ≤
        (sjf insertionSorter
          [Process.new 1 2 8 2, Process.new 2 0 3 1, Process.new 3 1 0 3])[i].startTime) ∧
     (∀ (i j : Nat)
        (hi : i < (prioritySchedulingWithAging insertionSorter
          [Process.new 1 2 8 2, Process.new 2 0 3 1, Process.new 3 1 0 3] 4).length)
        (hj : j < (prioritySchedulingWithAging insertionSorter
          [Process.new 1 2 8 2, Process.new 2 0 3 1, Process.new 3 1 0 3] 4).length),
        i ≠ j →
        (prioritySchedulingWithAging insertionSorter
          [Process.new 1 2 8 2, Process.new 2 0 3 1, Process.new 3 1 0 3] 4)[i].finishTime ≤
        (prioritySchedulingWithAging insertionSorter
          [Process.new 1 2 8 2, Process.new 2 0 3 1, Process.new 3 1 0 3] 4)[j].startTime ∨
        (prioritySchedulingWithAging insertionSorter
          [Process.new 1 2 8 2, Process.new 2 0 3 1, Process.new 3 1 0 3] 4)[j].finishTime ≤
        (prioritySchedulingWithAging insertionSorter
          [Process.new 1 2 8 2, Process.new 2 0 3 1, Process.new 3 1 0 3] 4)[i].startTime)) :=
  ⟨by decide, by decide, intervals_disjoint insertionSorter _ 4 (by decide) (by decide)⟩

/-- Every pointer of the vector is chosen by exactly one iteration of the loop,
and the record carries the finish time written by that iteration and the two
metrics derived from it. -/
theorem dispatched_once {Sel : State → List Process → Nat → Prop} (step : State → State)
    (hstep : ∀ s, Iter Sel s (step s)) (cur : State → Option Nat) (hn : Names Sel cur)
    (P0 : List Process) :
    (whileBusy step hstep (State.init P0)).processes.length = P0.length ∧
    ∃ n, (∀ k < n, (step^[k] (State.init P0)).busy) ∧ ¬ (step^[n] (State.init P0)).busy ∧
      whileBusy step hstep (State.init P0) = step^[n] (State.init P0) ∧
      ∀ i, i < P0.length →
        (∃! j, j < n ∧ cur (step^[j] (State.init P0)) = some i) ∧
        ∀ j < n, cur (step^[j] (State.init P0)) = some i →
          (deref (step^[n] (State.init P0)).processes i).finishTime =
            (step^[j] (State.init P0)).time +
              (deref (step^[n] (State.init P0)).processes i).burstTime ∧
          (deref (step^[n] (State.init P0)).processes i).turnAroundTime =
            (deref (step^[n] (State.init P0)).processes i).finishTime -
              (deref (step^[n] (State.init P0)).processes i).arrivalTime ∧
          (deref (step^[n] (State.init P0)).processes i).waitingTime =
            (deref (step^[n] (State.init P0)).processes i).turnAroundTime -
              (deref (step^[n] (State.init P0)).processes i).burstTime := by
  obtain ⟨n, h1, h2, h3⟩ := whileBusy_iterate step hstep (State.init P0)
  obtain ⟨hI, ha, hb, hc⟩ := history step hstep cur hn P0 n
  refine ⟨by rw [h1]; exact hI.len, n, h3, h2, h1, ?_⟩
  intro i hi
  have hd : (step^[n] (State.init P0)).dispatched i :=
    not_busy_dispatched h2 (by rw [hI.len]; exact hi)
  obtain ⟨j, hj, hji⟩ := ha i hd
  refine ⟨⟨j, ⟨hj, hji⟩, ?_⟩, ?_⟩
  · rintro j2 ⟨hj2, hj2i⟩
    exact hc j2 hj2 j hj i hj2i hji
  · intro j2 hj2 hj2i
    obtain ⟨m1, m2⟩ := hI.metrics i hd
    refine ⟨(hb j2 hj2 i hj2i).2, m1, ?_⟩
    rw [m2, m1]

/-- C5: for every workload and both engines, when the run ends (after `n`
iterations) the vector holds the records of the input (as many as the input,
each with the `id`, `arrivalTime` and `burstTime` of the input record at the
same position of the input sorted by arrival), and every record has been
dispatched exactly once: exactly one iteration `j` chose its pointer, and the
record carries the `finishTime`, `turnAroundTime` and `waitingTime` that this
iteration assigned (clock at the dispatch plus its burst time, and the two
metrics derived from it). -/
theorem every_record_dispatched_once (S : Sorter) (processes : List Process)
    (agingInterval : Int) :
    ((sjf S processes).length = processes.length ∧
      (∀ (i : Nat) (hi : i < (sjf S processes).length)
          (h0 : i < (S.sort arrivalLt processes).length),
        (sjf S processes)[i].id = (S.sort arrivalLt processes)[i].id ∧
        (sjf S processes)[i].arrivalTime = (S.sort arrivalLt processes)[i].arrivalTime ∧
        (sjf S processes)[i].burstTime = (S.sort arrivalLt processes)[i].burstTime) ∧
      ∃ n, (∀ k < n, (sjfTrace S processes k).busy) ∧ ¬ (sjfTrace S processes n).busy ∧
        sjf S processes = (sjfTrace S processes n).processes ∧
        ∀ (i : Nat) (hi : i < (sjf S processes).length),
          (∃! j, j < n ∧ sjfCurrent S (sjfTrace S processes j) = some i) ∧
          ∀ j < n, sjfCurrent S (sjfTrace S processes j) = some i →
            (sjf S processes)[i].finishTime =
              (sjfTrace S processes j).time + (sjf S processes)[i].burstTime ∧
            (sjf S processes)[i].turnAroundTime =
              (sjf S processes)[i].finishTime - (sjf S processes)[i].arrivalTime ∧
            (sjf S processes)[i].waitingTime =
              (sjf S processes)[i].turnAroundTime - (sjf S processes)[i].burstTime) ∧
    ((prioritySchedulingWithAging S processes agingInterval).length = processes.length ∧
      (∀ (i : Nat) (hi : i < (prioritySchedulingWithAging S processes agingInterval).length)
          (h0 : i < (S.sort arrivalLt processes).length),
        (prioritySchedulingWithAging S processes agingInterval)[i].id =
          (S.sort arrivalLt processes)[i].id ∧
        (prioritySchedulingWithAging S processes agingInterval)[i].arrivalTime =
          (S.sort arrivalLt processes)[i].arrivalTime ∧
        (prioritySchedulingWithAging S processes agingInterval)[i].burstTime =
          (S.sort arrivalLt processes)[i].burstTime) ∧
      ∃ n, (∀ k < n, (priorityTrace S processes agingInterval k).busy) ∧
        ¬ (priorityTrace S processes agingInterval n).busy ∧
        prioritySchedulingWithAging S processes agingInterval =
          (priorityTrace S processes agingInterval n).processes ∧
        ∀ (i : Nat) (hi : i < (prioritySchedulingWithAging S processes agingInterval).length),
          (∃! j, j < n ∧
            priorityCurrent S agingInterval (priorityTrace S processes agingInterval j) = some i) ∧
          ∀ j < n,
            priorityCurrent S agingInterval (priorityTrace S processes agingInterval j) = some i →
            (prioritySchedulingWithAging S processes agingInterval)[i].finishTime =
              (priorityTrace S processes agingInterval j).time +
                (prioritySchedulingWithAging S processes agingInterval)[i].burstTime ∧
            (prioritySchedulingWithAging S processes agingInterval)[i].turnAroundTime =
              (prioritySchedulingWithAging S processes agingInterval)[i].finishTime -
                (prioritySchedulingWithAging S processes agingInterval)[i].arrivalTime ∧
            (prioritySchedulingWithAging S processes agingInterval)[i].waitingTime =
              (prioritySchedulingWithAging S processes agingInterval)[i].turnAroundTime -
                (prioritySchedulingWithAging S processes agingInterval)[i].burstTime) := by
  have hlen : (S.sort arrivalLt processes).length = processes.length := (S.perm _ _).length_eq
  constructor
  · obtain ⟨h0, n, h1, h2, h3, h4⟩ := dispatched_once (sjfStep S) (sjfStep_iter S)
      (sjfCurrent S) (sjf_names S) (S.sort arrivalLt processes)
    have hs : sjf S processes = (sjfTrace S processes n).processes := congrArg State.processes h3
    have hl : (sjf S processes).length = (S.sort arrivalLt processes).length := h0
    have hI := iterate_structural (sjfStep S) (sjfStep_iter S) (S.sort arrivalLt processes) n
    refine ⟨hl.trans hlen, ?_, n, h1, h2, hs, ?_⟩
    · intro i hi hi0
      rw [← deref_eq_getElem _ i hi, ← deref_eq_getElem _ i hi0, hs]
      exact hI.fixed i
    · intro i hi
      obtain ⟨h5, h6⟩ := h4 i (by rw [← hl]; exact hi)
      refine ⟨h5, ?_⟩
      intro j hj hji
      rw [← deref_eq_getElem _ i hi, hs]
      exact h6 j hj hji
  · obtain ⟨h0, n, h1, h2, h3, h4⟩ := dispatched_once (priorityStep S agingInterval)
      (priorityStep_iter S agingInterval) (priorityCurrent S agingInterval)
      (priority_names S agingInterval) (S.sort arrivalLt processes)
    have hs : prioritySchedulingWithAging S processes agingInterval =
        (priorityTrace S processes agingInterval n).processes := congrArg State.processes h3
    have hl : (prioritySchedulingWithAging S processes agingInterval).length =
        (S.sort arrivalLt processes).length := h0
    have hI := iterate_structural (priorityStep S agingInterval)
      (priorityStep_iter S agingInterval) (S.sort arrivalLt processes) n
    refine ⟨hl.trans hlen, ?_, n, h1, h2, hs, ?_⟩
    · intro i hi hi0
      rw [← deref_eq_getElem _ i hi, ← deref_eq_getElem _ i hi0, hs]
      exact hI.fixed i
    · intro i hi
      obtain ⟨h5, h6⟩ := h4 i (by rw [← hl]; exact hi)
      refine ⟨h5, ?_⟩
      intro j hj hji
      rw [← deref_eq_getElem _ i hi, hs]
      exact h6 j hj hji

/-- Scenario B for an arbitrary sorter: the two records with arrival 0 and
bursts 8 and 3 end as the burst-3 record run over `[0, 3)` and the burst-8
record run over `[3, 11)` after waiting 3 ticks. -/
theorem sjf_scenario_B (S : Sorter) (pr1 pr2 : Int) :
    (sjf S [Process.new 1 0 8 pr1, Process.new 2 0 3 pr2]).Perm
      [{ Process.new 1 0 8 pr1 with
          startTime := 3, finishTime := 11, waitingTime := 3, turnAroundTime := 11 },
       { Process.new 2 0 3 pr2 with
          startTime := 0, finishTime := 3, waitingTime := 0, turnAroundTime := 3 }] := by
  unfold sjf
  rcases perm_pair (S.perm arrivalLt [Process.new 1 0 8 pr1, Process.new 2 0 3 pr2]) with h | h
  · rw [h]
    have hinit : State.init [Process.new 1 0 8 pr1, Process.new 2 0 3 pr2] =
        { processes := [Process.new 1 0 8 pr1, Process.new 2 0 3 pr2], time := 0,
          processesReady := [0, 1], readyQueue := [] } := rfl
    have hadm : State.admitted
        { processes := [Process.new 1 0 8 pr1, Process.new 2 0 3 pr2], time := 0,
          processesReady := [0, 1], readyQueue := [] } = [0, 1] := by
      simp [State.admitted, deref, Process.new]
    have hsort := sort_pair_of_lt S (burstLt [Process.new 1 0 8 pr1, Process.new 2 0 3 pr2])
      (burstLt_strictWeak _) 0 1 (by simp [burstLt, deref, Process.new])
    have e1 := sjfStep_run S _ [0, 1] 1 [0] hadm hsort
    have e1b : sjfStep S
        { processes := [Process.new 1 0 8 pr1, Process.new 2 0 3 pr2], time := 0,
          processesReady := [0, 1], readyQueue := [] } =
        { processes := [Process.new 1 0 8 pr1,
            { Process.new 2 0 3 pr2 with
                startTime := 0, finishTime := 3, waitingTime := 0, turnAroundTime := 3 }],
          time := 3, processesReady := [], readyQueue := [0] } := by
      rw [e1]
      simp [State.notArrived, deref, Process.new, runToCompletion]
    have hadm2 : State.admitted
        { processes := [Process.new 1 0 8 pr1,
            { Process.new 2 0 3 pr2 with
                startTime := 0, finishTime := 3, waitingTime := 0, turnAroundTime := 3 }],
          time := 3, processesReady := [], readyQueue := [0] } = [0] := by
      simp [State.admitted]
    rw [hinit, whileBusy_busy _ _ _ (Or.inl (List.cons_ne_nil _ _)), e1b,
      whileBusy_busy _ _ _ (Or.inr (List.cons_ne_nil _ _)),
      sjfStep_run S _ [0] 0 [] hadm2 (sort_single S _ 0), whileBusy_done]
    · simp [deref, Process.new, runToCompletion]
    · simp [State.busy, State.notArrived]
  · rw [h]
    have hinit : State.init [Process.new 2 0 3 pr2, Process.new 1 0 8 pr1] =
        { processes := [Process.new 2 0 3 pr2, Process.new 1 0 8 pr1], time := 0,
          processesReady := [0, 1], readyQueue := [] } := rfl
    have hadm : State.admitted
        { processes := [Process.new 2 0 3 pr2, Process.new 1 0 8 pr1], time := 0,
          processesReady := [0, 1], readyQueue := [] } = [0, 1] := by
      simp [State.admitted, deref, Process.new]
    have hsort := sort_pair_of_gt S (burstLt [Process.new 2 0 3 pr2, Process.new 1 0 8 pr1])
      (burstLt_strictWeak _) 0 1 (by simp [burstLt, deref, Process.new])
    have e1 := sjfStep_run S _ [0, 1] 0 [1] hadm hsort
    have e1b : sjfStep S
        { processes := [Process.new 2 0 3 pr2, Process.new 1 0 8 pr1], time := 0,
          processesReady := [0, 1], readyQueue := [] } =
        { processes := [{ Process.new 2 0 3 pr2 with
                startTime := 0, finishTime := 3, waitingTime := 0, turnAroundTime := 3 },
            Process.new 1 0 8 pr1],
          time := 3, processesReady := [], readyQueue := [1] } := by
      rw [e1]
      simp [State.notArrived, deref, Process.new, runToCompletion]
    have hadm2 : State.admitted
        { processes := [{ Process.new 2 0 3 pr2 with
                startTime := 0, finishTime := 3, waitingTime := 0, turnAroundTime := 3 },
            Process.new 1 0 8 pr1],
          time := 3, processesReady := [], readyQueue := [1] } = [1] := by
      simp [State.admitted]
    rw [hinit, whileBusy_busy _ _ _ (Or.inl (List.cons_ne_nil _ _)), e1b,
      whileBusy_busy _ _ _ (Or.inr (List.cons_ne_nil _ _)),
      sjfStep_run S _ [1] 1 [] hadm2 (sort_single S _ 1), whileBusy_done]
    · simp only [deref, Process.new, runToCompletion]
      exact List.Perm.swap _ _ _
    · simp [State.busy, State.notArrived]

/-- C7: SJF picks the shortest ready job.  For every workload of freshly
constructed records without negative burst times, if after `sjf` two records
`p` and `q` satisfy `arrivalTime(q) <= startTime(p)` and
`startTime(p) < startTime(q)` (so `q` was in the ready queue when `p` was
dispatched), then `burstTime(p) <= burstTime(q)`.  Scenario B: the records
`(arrival 0, burst 8)` and `(arrival 0, burst 3)` end as the burst-3 record
with start 0, finish 3 and the burst-8 record with start 3, finish 11,
waiting 3. -/
theorem sjf_shortest_ready_first (S : Sorter) (processes : List Process)
    (hfresh : ∀ p ∈ processes, p.startTime = -1)
    (hburst : ∀ p ∈ processes, 0 ≤ p.burstTime) :
    (∀ p ∈ sjf S processes, ∀ q ∈ sjf S processes,
      q.arrivalTime ≤ p.startTime → p.startTime < q.startTime → p.burstTime ≤ q.burstTime) ∧
    (∀ pr1 pr2 : Int,
      (sjf S [Process.new 1 0 8 pr1, Process.new 2 0 3 pr2]).Perm
        [{ Process.new 1 0 8 pr1 with
            startTime := 3, finishTime := 11, waitingTime := 3, turnAroundTime := 11 },
         { Process.new 2 0 3 pr2 with
            startTime := 0, finishTime := 3, waitingTime := 0, turnAroundTime := 3 }]) := by
  have hF0 : ∀ p ∈ S.sort arrivalLt processes, p.startTime = -1 :=
    fun p hp => hfresh p ((S.perm _ _).subset hp)
  have hB0 : ∀ p ∈ S.sort arrivalLt processes, 0 ≤ p.burstTime :=
    fun p hp => hburst p ((S.perm _ _).subset hp)
  refine ⟨?_, sjf_scenario_B S⟩
  obtain ⟨-, ⟨-, -, -, hJ⟩, hnb⟩ := loop_final (sjfStep S) (sjfStep_iter S)
    (S.sort arrivalLt processes)
    (fun s => Timing s ∧ Fresh s ∧ FreshTiming s ∧ Shortest s)
    ⟨timing_init _, fresh_init _, freshTiming_init _, shortest_init _⟩
    (fun s hI hJ _ => ⟨timing_step hB0 hI hJ.1 (sjfStep_iter S s),
      fresh_step hF0 hI hJ.2.1 (sjfStep_iter S s),
      freshTiming_step hF0 hB0 hI hJ.1 hJ.2.2.1 (sjfStep_iter S s),
      shortest_step S hF0 hI hJ.2.2.1 hJ.2.2.2 (sjfStep_iter S s)⟩)
  intro p hp q hq ha hlt
  obtain ⟨i, hi, rfl⟩ := (mem_iff_deref _ _).1 hp
  obtain ⟨j, hj, rfl⟩ := (mem_iff_deref _ _).1 hq
  exact hJ i j (not_busy_dispatched hnb hi) hj ha (Or.inr hlt)

theorem sjf_shortest_ready_first_witness :
    (∀ p ∈ [Process.new 1 0 8 1, Process.new 2 0 3 1], p.startTime = -1) ∧
    (∀ p ∈ [Process.new 1 0 8 1, Process.new 2 0 3 1], 0 ≤ p.burstTime) ∧
    ((∀ p ∈ sjf insertionSorter [Process.new 1 0 8 1, Process.new 2 0 3 1],
        ∀ q ∈ sjf insertionSorter [Process.new 1 0 8 1, Process.new 2 0 3 1],
        q.arrivalTime ≤ p.startTime → p.startTime < q.startTime →
          p.burstTime ≤ q.burstTime) ∧
     (∀ pr1 pr2 : Int,
        (sjf insertionSorter [Process.new 1 0 8 pr1, Process.new 2 0 3 pr2]).Perm
          [{ Process.new 1 0 8 pr1 with
              startTime := 3, finishTime := 11, waitingTime := 3, turnAroundTime := 11 },
           { Process.new 2 0 3 pr2 with
              startTime := 0, finishTime := 3, waitingTime := 0, turnAroundTime := 3 }])) :=
  ⟨by decide, by decide,
    sjf_shortest_ready_first insertionSorter _ (by decide) (by decide)⟩

/-- C8: at every selection step of `prioritySchedulingWithAging` (an
iteration started in any state `s` that dispatches a pointer `c`), the record
written by the dispatch is the one `c` points to, `c` is in the ready queue
after admission, that queue holds every undispatched pointer whose record has
`arrivalTime <= time`, and after this step's aging `c` has the smallest
priority value of the queue and, among the queued records of that same
priority, the smallest arrival time. -/
theorem priority_selects_best (S : Sorter) (agingInterval : Int) (s : State) (c : Nat)
    (hc : priorityCurrent S agingInterval s = some c) :
    (priorityStep S agingInterval s).processes =
      (aging agingInterval s.time s.processes s.admitted).set c
        (runToCompletion (deref (aging agingInterval s.time s.processes s.admitted) c) s.time) ∧
    c ∈ s.admitted ∧
    (∀ q, s.undispatched q → (deref s.processes q).arrivalTime ≤ s.time → q ∈ s.admitted) ∧
    ∀ q ∈ s.admitted,
      (deref (aging agingInterval s.time s.processes s.admitted) c).priority ≤
        (deref (aging agingInterval s.time s.processes s.admitted) q).priority ∧
      ((deref (aging agingInterval s.time s.processes s.admitted) q).priority =
          (deref (aging agingInterval s.time s.processes s.admitted) c).priority →
        (deref (aging agingInterval s.time s.processes s.admitted) c).arrivalTime ≤
          (deref (aging agingInterval s.time s.processes s.admitted) q).arrivalTime) := by
  unfold priorityCurrent at hc
  rw [admitArrived_eq] at hc
  simp only at hc
  by_cases hne : s.admitted = []
  · rw [if_pos hne] at hc
    exact Option.noConfusion hc
  · rw [if_neg hne] at hc
    have hc2 : (S.sort (priorityLt (aging agingInterval s.time s.processes s.admitted))
        s.admitted).headD 0 = c := Option.some.inj hc
    refine ⟨?_, ?_, fun q hu ha => mem_admitted_of_arrived hu ha, ?_⟩
    · unfold priorityStep
      rw [admitArrived_eq]
      simp only [if_neg hne, dispatch, hc2]
    · have hmem : (S.sort (priorityLt (aging agingInterval s.time s.processes s.admitted))
          s.admitted).headD 0 ∈
          S.sort (priorityLt (aging agingInterval s.time s.processes s.admitted)) s.admitted := by
        have := headD_cons_tail (sort_ne_nil S
          (priorityLt (aging agingInterval s.time s.processes s.admitted)) hne)
        rw [← this]
        exact List.mem_cons_self _ _
      rw [hc2] at hmem
      exact (S.perm _ _).subset hmem
    · intro q hq
      have := sort_head_min S _ (priorityLt_strictWeak
        (aging agingInterval s.time s.processes s.admitted)) hne q hq
      rw [hc2, priorityLt_false_iff] at this
      exact this

theorem priority_selects_best_witness :
    priorityCurrent insertionSorter 2
      (priorityTrace insertionSorter
        [Process.new 1 0 10 1, Process.new 2 0 1 3, Process.new 3 2 4 2] 2 1) = some 2 ∧
    ((priorityStep insertionSorter 2
      (priorityTrace insertionSorter
        [Process.new 1 0 10 1, Process.new 2 0 1 3, Process.new 3 2 4 2] 2 1)).processes =
      (aging 2 (priorityTrace insertionSorter
        [Process.new 1 0 10 1, Process.new 2 0 1 3, Process.new 3 2 4 2] 2 1).time
        (priorityTrace insertionSorter
        [Process.new 1 0 10 1, Process.new 2 0 1 3, Process.new 3 2 4 2] 2 1).processes
        (priorityTrace insertionSorter
        [Process.new 1 0 10 1, Process.new 2 0 1 3, Process.new 3 2 4 2] 2 1).admitted).set 2
        (runToCompletion (deref (aging 2 (priorityTrace insertionSorter
        [Process.new 1 0 10 1, Process.new 2 0 1 3, Process.new 3 2 4 2] 2 1).time
        (priorityTrace insertionSorter
        [Process.new 1 0 10 1, Process.new 2 0 1 3, Process.new 3 2 4 2] 2 1).processes
        (priorityTrace insertionSorter
        [Process.new 1 0 10 1, Process.new 2 0 1 3, Process.new 3 2 4 2] 2 1).admitted) 2)
          (priorityTrace insertionSorter
        [Process.new 1 0 10 1, Process.new 2 0 1 3, Process.new 3 2 4 2] 2 1).time) ∧
    2 ∈ (priorityTrace insertionSorter
        [Process.new 1 0 10 1, Process.new 2 0 1 3, Process.new 3 2 4 2] 2 1).admitted ∧
    (∀ q, (priorityTrace insertionSorter
        [Process.new 1 0 10 1, Process.new 2 0 1 3, Process.new 3 2 4 2] 2 1).undispatched q →
      (deref (priorityTrace insertionSorter
        [Process.new 1 0 10 1, Process.new 2 0 1 3, Process.new 3 2 4 2] 2 1).processes q).arrivalTime ≤
        (priorityTrace insertionSorter
        [Process.new 1 0 10 1, Process.new 2 0 1 3, Process.new 3 2 4 2] 2 1).time →
      q ∈ (priorityTrace insertionSorter
        [Process.new 1 0 10 1, Process.new 2 0 1 3, Process.new 3 2 4 2] 2 1).admitted) ∧
    ∀ q ∈ (priorityTrace insertionSorter
        [Process.new 1 0 10 1, Process.new 2 0 1 3, Process.new 3 2 4 2] 2 1).admitted,
      (deref (aging 2 (priorityTrace insertionSorter
        [Process.new 1 0 10 1, Process.new 2 0 1 3, Process.new 3 2 4 2] 2 1).time
        (priorityTrace insertionSorter
        [Process.new 1 0 10 1, Process.new 2 0 1 3, Process.new 3 2 4 2] 2 1).processes
        (priorityTrace insertionSorter
        [Process.new 1 0 10 1, Process.new 2 0 1 3, Process.new 3 2 4 2] 2 1).admitted) 2).priority ≤
        (deref (aging 2 (priorityTrace insertionSorter
        [Process.new 1 0 10 1, Process.new 2 0 1 3, Process.new 3 2 4 2] 2 1).time
        (priorityTrace insertionSorter
        [Process.new 1 0 10 1, Process.new 2 0 1 3, Process.new 3 2 4 2] 2 1).processes
        (priorityTrace insertionSorter
        [Process.new 1 0 10 1, Process.new 2 0 1 3, Process.new 3 2 4 2] 2 1).admitted) q).priority ∧
      ((deref (aging 2 (priorityTrace insertionSorter
        [Process.new 1 0 10 1, Process.new 2 0 1 3, Process.new 3 2 4 2] 2 1).time
        (priorityTrace insertionSorter
        [Process.new 1 0 10 1, Process.new 2 0 1 3, Process.new 3 2 4 2] 2 1).processes
        (priorityTrace insertionSorter
        [Process.new 1 0 10 1, Process.new 2 0 1 3, Process.new 3 2 4 2] 2 1).admitted) q).priority =
          (deref (aging 2 (priorityTrace insertionSorter
        [Process.new 1 0 10 1, Process.new 2 0 1 3, Process.new 3 2 4 2] 2 1).time
        (priorityTrace insertionSorter
        [Process.new 1 0 10 1, Process.new 2 0 1 3, Process.new 3 2 4 2] 2 1).processes
        (priorityTrace insertionSorter
        [Process.new 1 0 10 1, Process.new 2 0 1 3, Process.new 3 2 4 2] 2 1).admitted) 2).priority →
        (deref (aging 2 (priorityTrace insertionSorter
        [Process.new 1 0 10 1, Process.new 2 0 1 3, Process.new 3 2 4 2] 2 1).time
        (priorityTrace insertionSorter
        [Process.new 1 0 10 1, Process.new 2 0 1 3, Process.new 3 2 4 2] 2 1).processes
        (priorityTrace insertionSorter
        [Process.new 1 0 10 1, Process.new 2 0 1 3, Process.new 3 2 4 2] 2 1).admitted) 2).arrivalTime ≤
          (deref (aging 2 (priorityTrace insertionSorter
        [Process.new 1 0 10 1, Process.new 2 0 1 3, Process.new 3 2 4 2] 2 1).time
        (priorityTrace insertionSorter
        [Process.new 1 0 10 1, Process.new 2 0 1 3, Process.new 3 2 4 2] 2 1).processes
        (priorityTrace insertionSorter
        [Process.new 1 0 10 1, Process.new 2 0 1 3, Process.new 3 2 4 2] 2 1).admitted) q).arrivalTime)) :=
  ⟨by decide, priority_selects_best insertionSorter 2
    (priorityTrace insertionSorter
        [Process.new 1 0 10 1, Process.new 2 0 1 3, Process.new 3 2 4 2] 2 1) 2 (by decide)⟩

/-- C9: a single-process workload has zero waiting time.  For every freshly
constructed process with `arrivalTime = a >= 0` and `burstTime = b`, `sjf`
(and `prioritySchedulingWithAging` with any `agingInterval`) leaves exactly
that record with `startTime = a`, `finishTime = a + b`, `waitingTime = 0` and
`turnAroundTime = b`; the priority engine may in addition have aged its
priority once (when `agingInterval <= 0`). -/
theorem single_process_zero_wait (S : Sorter) (pid a b pr agingInterval : Int) (ha : 0 ≤ a) :
    sjf S [Process.new pid a b pr] =
      [{ Process.new pid a b pr with
          startTime := a, finishTime := a + b, waitingTime := 0, turnAroundTime := b }] ∧
    prioritySchedulingWithAging S [Process.new pid a b pr] agingInterval =
      [{ Process.new pid a b pr with
          priority := if agingInterval ≤ 0 then max 1 (pr - 1) else pr
          startTime := a, finishTime := a + b, waitingTime := 0, turnAroundTime := b }] := by
  have hinit : State.init [Process.new pid a b pr] =
      { processes := [Process.new pid a b pr], time := 0, processesReady := [0], readyQueue := [] } := rfl
  have hidle : ∀ i ∈ [0], (0 : Int) + (a.toNat : Nat) ≤ (deref [Process.new pid a b pr] i).arrivalTime := by
    intro i hi
    rw [List.mem_singleton.1 hi, Int.toNat_of_nonneg ha]
    simp [deref, Process.new]
  have htime : (0 : Int) + (a.toNat : Nat) = a := by
    rw [Int.toNat_of_nonneg ha]; simp
  have hadm : State.admitted
      { processes := [Process.new pid a b pr], time := a, processesReady := [0], readyQueue := [] } =
      [0] := by
    simp [State.admitted, deref, Process.new]
  have hbusy : State.busy
      { processes := [Process.new pid a b pr], time := a, processesReady := [0], readyQueue := [] } := Or.inl (List.cons_ne_nil _ _)
  constructor
  · unfold sjf
    rw [sort_single, hinit, whileBusy_idle _ _ _ _ (List.cons_ne_nil _ _) a.toNat 0 hidle, htime,
      whileBusy_busy _ _ _ hbusy, sjfStep_run S _ [0] 0 [] hadm (sort_single S _ 0),
      whileBusy_done]
    · simp [deref, Process.new, runToCompletion]
    · simp [State.busy, State.notArrived, deref, Process.new]
  · unfold prioritySchedulingWithAging
    rw [sort_single, hinit, whileBusy_idle _ _ _ _ (List.cons_ne_nil _ _) a.toNat 0 hidle, htime,
      whileBusy_busy _ _ _ hbusy, priorityStep_run S _ _ [0] 0 [] hadm (sort_single S _ 0),
      whileBusy_done]
    · by_cases h : agingInterval ≤ 0 <;>
        simp [deref, Process.new, runToCompletion, aging, ageOne, h]
    · simp [State.busy, State.notArrived, deref, Process.new]

theorem single_process_zero_wait_witness :
    (0 : Int) ≤ 0 ∧
    (sjf insertionSorter [Process.new 1 0 5 1] =
      [{ Process.new 1 0 5 1 with
          startTime := 0, finishTime := 0 + 5, waitingTime := 0, turnAroundTime := 5 }] ∧
    prioritySchedulingWithAging insertionSorter [Process.new 1 0 5 1] 4 =
      [{ Process.new 1 0 5 1 with
          priority := if (4 : Int) ≤ 0 then max 1 (1 - 1) else 1
          startTime := 0, finishTime := 0 + 5, waitingTime := 0, turnAroundTime := 5 }]) :=
  ⟨by decide, single_process_zero_wait insertionSorter 1 0 5 1 4 (by decide)⟩

/-- C10: aging monotonicity.  For every workload whose priorities are all at
least 1 and every `agingInterval`, each loop iteration of
`prioritySchedulingWithAging` (from the state after `k` iterations to the
state after `k + 1`) leaves the priority of every record less than or equal
to its value before the iteration and at least 1; hence the final priority of
every record lies between 1 and its initial priority (records are identified
by their position in the vector sorted by arrival time). -/
theorem aging_monotone (S : Sorter) (processes : List Process) (agingInterval : Int)
    (hprio : ∀ p ∈ processes, 1 ≤ p.priority) :
    (∀ (k i : Nat) (h1 : i < (priorityTrace S processes agingInterval k).processes.length)
        (h2 : i < (priorityTrace S processes agingInterval (k + 1)).processes.length),
      (priorityTrace S processes agingInterval (k + 1)).processes[i].priority ≤
        (priorityTrace S processes agingInterval k).processes[i].priority ∧
      1 ≤ (priorityTrace S processes agingInterval (k + 1)).processes[i].priority) ∧
    (prioritySchedulingWithAging S processes agingInterval).length =
      (S.sort arrivalLt processes).length ∧
    (∀ (i : Nat) (h1 : i < (prioritySchedulingWithAging S processes agingInterval).length)
        (h2 : i < (S.sort arrivalLt processes).length),
      1 ≤ (prioritySchedulingWithAging S processes agingInterval)[i].priority ∧
      (prioritySchedulingWithAging S processes agingInterval)[i].priority ≤
        (S.sort arrivalLt processes)[i].priority) := by
  have hP0 : ∀ i, i < (S.sort arrivalLt processes).length →
      1 ≤ (deref (State.init (S.sort arrivalLt processes)).processes i).priority := by
    intro i hi
    exact hprio _ ((S.perm _ _).subset ((mem_iff_deref _ _).2 ⟨i, hi, rfl⟩))
  have hlen : ∀ k, (priorityTrace S processes agingInterval k).processes.length =
      (S.sort arrivalLt processes).length := fun k =>
    (iterate_structural (priorityStep S agingInterval) (priorityStep_iter S agingInterval)
      (S.sort arrivalLt processes) k).len
  refine ⟨?_, ?_, ?_⟩
  · intro k i h1 h2
    have hk := priority_trace_agedFrom S agingInterval
      (State.init (S.sort arrivalLt processes)) k i (hP0 i (by rw [← hlen k]; exact h1))
    have hstep := priority_iter_agedFrom
      (priorityStep_iter S agingInterval (priorityTrace S processes agingInterval k)) i hk.2
    rw [← deref_eq_getElem _ i h1, ← deref_eq_getElem _ i h2]
    unfold priorityTrace at hstep ⊢
    rw [Function.iterate_succ_apply']
    exact hstep
  · obtain ⟨n, hn, -, -⟩ := whileBusy_iterate (priorityStep S agingInterval)
      (priorityStep_iter S agingInterval) (State.init (S.sort arrivalLt processes))
    unfold prioritySchedulingWithAging
    rw [hn]
    exact hlen n
  · intro i h1 h2
    obtain ⟨n, hn, -, -⟩ := whileBusy_iterate (priorityStep S agingInterval)
      (priorityStep_iter S agingInterval) (State.init (S.sort arrivalLt processes))
    have hk := priority_trace_agedFrom S agingInterval
      (State.init (S.sort arrivalLt processes)) n i (hP0 i h2)
    rw [← deref_eq_getElem _ i h1, ← deref_eq_getElem _ i h2]
    unfold prioritySchedulingWithAging
    rw [hn]
    exact ⟨hk.2, hk.1⟩

theorem aging_monotone_witness :
    (∀ p ∈ [Process.new 1 0 10 1, Process.new 2 0 1 3, Process.new 3 2 4 2], 1 ≤ p.priority) ∧
    ((∀ (k i : Nat)
        (h1 : i < (priorityTrace insertionSorter
          [Process.new 1 0 10 1, Process.new 2 0 1 3, Process.new 3 2 4 2] 2 k).processes.length)
        (h2 : i < (priorityTrace insertionSorter
          [Process.new 1 0 10 1, Process.new 2 0 1 3, Process.new 3 2 4 2] 2
            (k + 1)).processes.length),
        (priorityTrace insertionSorter
          [Process.new 1 0 10 1, Process.new 2 0 1 3, Process.new 3 2 4 2] 2
            (k + 1)).processes[i].priority ≤
        (priorityTrace insertionSorter
          [Process.new 1 0 10 1, Process.new 2 0 1 3, Process.new 3 2 4 2] 2
            k).processes[i].priority ∧
        1 ≤ (priorityTrace insertionSorter
          [Process.new 1 0 10 1, Process.new 2 0 1 3, Process.new 3 2 4 2] 2
            (k + 1)).processes[i].priority) ∧
     (prioritySchedulingWithAging insertionSorter
        [Process.new 1 0 10 1, Process.new 2 0 1 3, Process.new 3 2 4 2] 2).length =
      (insertionSorter.sort arrivalLt
        [Process.new 1 0 10 1, Process.new 2 0 1 3, Process.new 3 2 4 2]).length ∧
     (∀ (i : Nat)
        (h1 : i < (prioritySchedulingWithAging insertionSorter
          [Process.new 1 0 10 1, Process.new 2 0 1 3, Process.new 3 2 4 2] 2).length)
        (h2 : i < (insertionSorter.sort arrivalLt
          [Process.new 1 0 10 1, Process.new 2 0 1 3, Process.new 3 2 4 2]).length),
        1 ≤ (prioritySchedulingWithAging insertionSorter
          [Process.new 1 0 10 1, Process.new 2 0 1 3, Process.new 3 2 4 2] 2)[i].priority ∧
        (prioritySchedulingWithAging insertionSorter
          [Process.new 1 0 10 1, Process.new 2 0 1 3, Process.new 3 2 4 2] 2)[i].priority ≤
        (insertionSorter.sort arrivalLt
          [Process.new 1 0 10 1, Process.new 2 0 1 3, Process.new 3 2 4 2])[i].priority)) :=
  ⟨by decide, aging_monotone insertionSorter _ 2 (by decide)⟩

/-! ## Idle ticks -/

/-- The front of a sorted non-empty vector is one of its elements. -/
theorem sort_head_mem (S : Sorter) (lt : Nat → Nat → Bool) {l : List Nat} (h : l ≠ []) :
    (S.sort lt l).headD 0 ∈ l := by
  have hm : (S.sort lt l).headD 0 ∈ S.sort lt l := by
    have := headD_cons_tail (sort_ne_nil S lt h)
    rw [← this]
    exact List.mem_cons_self _ _
  exact (S.perm lt l).subset hm

/-- With an empty ready queue, `j` iterations are idle ticks as long as every
pending record arrives at clock `t + j` or later. -/
theorem iterate_idle {Sel : State → List Process → Nat → Prop} (step : State → State)
    (hstep : ∀ s, Iter Sel s (step s)) (procs : List Process) (pend : List Nat)
    (j : Nat) (t : Int) (h : ∀ i ∈ pend, t + j ≤ (deref procs i).arrivalTime) :
    step^[j] { processes := procs, time := t, processesReady := pend, readyQueue := [] } =
      { processes := procs, time := t + j, processesReady := pend, readyQueue := [] } := by
  induction j generalizing t with
  | zero => simp
  | succ j ih =>
    have hadm : State.admitted
        { processes := procs, time := t, processesReady := pend, readyQueue := [] } = [] := by
      apply idle_admitted_nil rfl
      intro i hi
      have := h i hi
      simp only
      push_cast at this
      omega
    rw [Function.iterate_succ_apply, (hstep _).of_admitted_nil hadm]
    simp only
    rw [ih (t + 1) (fun i hi => by have := h i hi; push_cast at this; omega)]
    congr 1
    push_cast
    omega

/-- The idle-tick property for a loop body `step` whose dispatched pointer is
named by `cur`. -/
theorem idle_then_dispatch {Sel : State → List Process → Nat → Prop} (step : State → State)
    (hstep : ∀ s, Iter Sel s (step s)) (cur : State → Option Nat)
    (hnone : ∀ s, s.admitted = [] → cur s = none)
    (hsome : ∀ s, s.admitted ≠ [] → ∃ c ∈ s.admitted, cur s = some c)
    (s : State) (m : Int) (hq : s.readyQueue = [])
    (hm : ∃ i ∈ s.processesReady, (deref s.processes i).arrivalTime = m)
    (hmin : ∀ i ∈ s.processesReady, m ≤ (deref s.processes i).arrivalTime)
    (ht : s.time < m) :
    (∀ j : Nat, j ≤ (m - s.time).toNat → step^[j] s = { s with time := s.time + j }) ∧
    (∀ j : Nat, j < (m - s.time).toNat → cur (step^[j] s) = none) ∧
    (step^[(m - s.time).toNat] s).time = m ∧
    (∃ c ∈ s.processesReady, (deref s.processes c).arrivalTime = m ∧
      cur (step^[(m - s.time).toNat] s) = some c) := by
  have hs : s = { processes := s.processes, time := s.time,
                  processesReady := s.processesReady, readyQueue := [] } := by
    cases s
    simp only at hq
    rw [hq]
  have hidle : ∀ j : Nat, j ≤ (m - s.time).toNat →
      step^[j] s = { s with time := s.time + j } := by
    intro j hj
    have := iterate_idle step hstep s.processes s.processesReady j s.time
      (fun i hi => by have := hmin i hi; omega)
    rw [← hs] at this
    rw [this, hq]
  refine ⟨hidle, ?_, ?_, ?_⟩
  · intro j hj
    rw [hidle j (by omega)]
    apply hnone
    refine idle_admitted_nil (s := { s with time := s.time + j }) hq ?_
    intro i hi
    have := hmin i hi
    simp only
    omega
  · rw [hidle _ (le_refl _)]
    simp only
    omega
  · rw [hidle _ (le_refl _)]
    have hne : State.admitted { s with time := s.time + ((m - s.time).toNat : Nat) } ≠ [] := by
      obtain ⟨i, hi, hia⟩ := hm
      intro h0
      have hmem : i ∈ State.admitted { s with time := s.time + ((m - s.time).toNat : Nat) } := by
        refine mem_admitted_of_arrived
          (s := { s with time := s.time + ((m - s.time).toNat : Nat) }) (Or.inl hi) ?_
        simp only
        omega
      rw [h0] at hmem
      exact List.not_mem_nil _ hmem
    obtain ⟨c, hc, hcur⟩ := hsome _ hne
    rcases mem_admitted hc with h1 | h1
    · simp only [hq] at h1
      exact absurd h1 (List.not_mem_nil _)
    · simp only at h1
      refine ⟨c, h1.1, ?_, hcur⟩
      have := hmin c h1.1
      omega

theorem sjfCurrent_spec (S : Sorter) :
    (∀ s : State, s.admitted = [] → sjfCurrent S s = none) ∧
    (∀ s : State, s.admitted ≠ [] → ∃ c ∈ s.admitted, sjfCurrent S s = some c) := by
  constructor
  · exact (sjf_names S).2
  · intro s h
    refine ⟨_, sort_head_mem S (burstLt s.processes) h, ?_⟩
    unfold sjfCurrent
    rw [admitArrived_eq]
    simp only [if_neg h]

theorem priorityCurrent_spec (S : Sorter) (a : Int) :
    (∀ s : State, s.admitted = [] → priorityCurrent S a s = none) ∧
    (∀ s : State, s.admitted ≠ [] → ∃ c ∈ s.admitted, priorityCurrent S a s = some c) := by
  constructor
  · exact (priority_names S a).2
  · intro s h
    refine ⟨_, sort_head_mem S (priorityLt (aging a s.time s.processes s.admitted)) h, ?_⟩
    unfold priorityCurrent
    rw [admitArrived_eq]
    simp only [if_neg h]

/-- C14: the idle-tick property.  In both engines, from any loop state at clock
`t` with an empty ready queue whose pending records all arrive later, the
earliest at `m > t`, each of the next `m - t` iterations is an idle tick (after
`j <= m - t` of them the state is the initial one with clock `t + j`, so no
record field has changed), the clock then reads `m`, and the iteration at
clock `m` dispatches a pending record that arrives at `m`. -/
theorem idle_ticks (S : Sorter) (agingInterval : Int) (s : State) (m : Int)
    (hq : s.readyQueue = [])
    (hm : ∃ i ∈ s.processesReady, (deref s.processes i).arrivalTime = m)
    (hmin : ∀ i ∈ s.processesReady, m ≤ (deref s.processes i).arrivalTime)
    (ht : s.time < m) :
    ((∀ j : Nat, j ≤ (m - s.time).toNat →
        (sjfStep S)^[j] s = { s with time := s.time + j }) ∧
      (∀ j : Nat, j < (m - s.time).toNat → sjfCurrent S ((sjfStep S)^[j] s) = none) ∧
      ((sjfStep S)^[(m - s.time).toNat] s).time = m ∧
      (∃ c ∈ s.processesReady, (deref s.processes c).arrivalTime = m ∧
        sjfCurrent S ((sjfStep S)^[(m - s.time).toNat] s) = some c)) ∧
    ((∀ j : Nat, j ≤ (m - s.time).toNat →
        (priorityStep S agingInterval)^[j] s = { s with time := s.time + j }) ∧
      (∀ j : Nat, j < (m - s.time).toNat →
        priorityCurrent S agingInterval ((priorityStep S agingInterval)^[j] s) = none) ∧
      ((priorityStep S agingInterval)^[(m - s.time).toNat] s).time = m ∧
      (∃ c ∈ s.processesReady, (deref s.processes c).arrivalTime = m ∧
        priorityCurrent S agingInterval
          ((priorityStep S agingInterval)^[(m - s.time).toNat] s) = some c)) :=
  ⟨idle_then_dispatch (sjfStep S) (sjfStep_iter S) (sjfCurrent S) (sjfCurrent_spec S).1
      (sjfCurrent_spec S).2 s m hq hm hmin ht,
    idle_then_dispatch (priorityStep S agingInterval) (priorityStep_iter S agingInterval)
      (priorityCurrent S agingInterval) (priorityCurrent_spec S agingInterval).1
      (priorityCurrent_spec S agingInterval).2 s m hq hm hmin ht⟩

theorem idle_ticks_witness :
    (State.init [Process.new 1 3 2 1, Process.new 2 5 1 1]).readyQueue = [] ∧
    (∃ i ∈ (State.init [Process.new 1 3 2 1, Process.new 2 5 1 1]).processesReady,
      (deref (State.init [Process.new 1 3 2 1, Process.new 2 5 1 1]).processes i).arrivalTime = 3) ∧
    (∀ i ∈ (State.init [Process.new 1 3 2 1, Process.new 2 5 1 1]).processesReady,
      (3 : Int) ≤ (deref (State.init [Process.new 1 3 2 1, Process.new 2 5 1 1]).processes i).arrivalTime) ∧
    (State.init [Process.new 1 3 2 1, Process.new 2 5 1 1]).time < 3 ∧
    ((∀ j : Nat, j ≤ ((3 : Int) - (State.init [Process.new 1 3 2 1, Process.new 2 5 1 1]).time).toNat →
        (sjfStep insertionSorter)^[j] (State.init [Process.new 1 3 2 1, Process.new 2 5 1 1]) =
          { (State.init [Process.new 1 3 2 1, Process.new 2 5 1 1]) with
            time := (State.init [Process.new 1 3 2 1, Process.new 2 5 1 1]).time + j }) ∧
      (∀ j : Nat, j < ((3 : Int) - (State.init [Process.new 1 3 2 1, Process.new 2 5 1 1]).time).toNat →
        sjfCurrent insertionSorter ((sjfStep insertionSorter)^[j] (State.init [Process.new 1 3 2 1, Process.new 2 5 1 1])) = none) ∧
      ((sjfStep insertionSorter)^[((3 : Int) - (State.init [Process.new 1 3 2 1, Process.new 2 5 1 1]).time).toNat]
        (State.init [Process.new 1 3 2 1, Process.new 2 5 1 1])).time = 3 ∧
      (∃ c ∈ (State.init [Process.new 1 3 2 1, Process.new 2 5 1 1]).processesReady,
        (deref (State.init [Process.new 1 3 2 1, Process.new 2 5 1 1]).processes c).arrivalTime = 3 ∧
        sjfCurrent insertionSorter
          ((sjfStep insertionSorter)^[((3 : Int) - (State.init [Process.new 1 3 2 1, Process.new 2 5 1 1]).time).toNat]
            (State.init [Process.new 1 3 2 1, Process.new 2 5 1 1])) = some c)) ∧
    ((∀ j : Nat, j ≤ ((3 : Int) - (State.init [Process.new 1 3 2 1, Process.new 2 5 1 1]).time).toNat →
        (priorityStep insertionSorter 4)^[j] (State.init [Process.new 1 3 2 1, Process.new 2 5 1 1]) =
          { (State.init [Process.new 1 3 2 1, Process.new 2 5 1 1]) with
            time := (State.init [Process.new 1 3 2 1, Process.new 2 5 1 1]).time + j }) ∧
      (∀ j : Nat, j < ((3 : Int) - (State.init [Process.new 1 3 2 1, Process.new 2 5 1 1]).time).toNat →
        priorityCurrent insertionSorter 4
          ((priorityStep insertionSorter 4)^[j] (State.init [Process.new 1 3 2 1, Process.new 2 5 1 1])) = none) ∧
      ((priorityStep insertionSorter 4)^[((3 : Int) - (State.init [Process.new 1 3 2 1, Process.new 2 5 1 1]).time).toNat]
        (State.init [Process.new 1 3 2 1, Process.new 2 5 1 1])).time = 3 ∧
      (∃ c ∈ (State.init [Process.new 1 3 2 1, Process.new 2 5 1 1]).processesReady,
        (deref (State.init [Process.new 1 3 2 1, Process.new 2 5 1 1]).processes c).arrivalTime = 3 ∧
        priorityCurrent insertionSorter 4
          ((priorityStep insertionSorter 4)^[((3 : Int) - (State.init [Process.new 1 3 2 1, Process.new 2 5 1 1]).time).toNat]
            (State.init [Process.new 1 3 2 1, Process.new 2 5 1 1])) = some c)) :=
  ⟨by decide, by decide, by decide, by decide,
    idle_ticks insertionSorter 4 (State.init [Process.new 1 3 2 1, Process.new 2 5 1 1]) 3
      (by decide) (by decide) (by decide) (by decide)⟩

/-! ## Frame: what a run leaves unchanged -/

theorem arrivalLt_strictWeak : StrictWeak arrivalLt := by
  refine ⟨?_, ?_, ?_⟩
  · intro a; simp [arrivalLt]
  · intro a b c; simp only [arrivalLt, decide_eq_true_eq]; omega
  · intro a b c; simp only [arrivalLt, decide_eq_false_iff_not]; omega

/-- The vector sorted by the initial `std::sort` is in non-decreasing order of
arrival time. -/
theorem sort_arrival_pairwise (S : Sorter) (processes : List Process) :
    (S.sort arrivalLt processes).Pairwise (fun p q => p.arrivalTime ≤ q.arrivalTime) := by
  refine (S.sorted arrivalLt processes arrivalLt_strictWeak).imp ?_
  intro a b h
  simp only [arrivalLt, decide_eq_false_iff_not] at h
  omega

theorem map_eq_of_deref {β : Type} (f : Process → β) (l1 l2 : List Process)
    (hlen : l1.length = l2.length) (h : ∀ i, f (deref l1 i) = f (deref l2 i)) :
    l1.map f = l2.map f := by
  apply List.ext_getElem
  · simp [hlen]
  · intro i h1 h2
    have h3 : i < l1.length := by simpa using h1
    have h4 : i < l2.length := by simpa using h2
    rw [List.getElem_map, List.getElem_map, ← deref_eq_getElem l1 i h3,
      ← deref_eq_getElem l2 i h4]
    exact h i

/-- An iteration of `sjf` leaves every priority as it is. -/
theorem sjf_iter_priority {S : Sorter} {s s' : State} (h : Iter (SelSjf S) s s') (i : Nat) :
    (deref s'.processes i).priority = (deref s.processes i).priority := by
  cases h with
  | idle hq hp => rfl
  | run procs c rest hlen hsame hperm hsel =>
    obtain ⟨hprocs, -, -⟩ := hsel
    subst hprocs
    simp only [deref_dispatch]
    split
    · rename_i hci
      obtain ⟨rfl, -⟩ := hci
      rfl
    · rfl

theorem sjf_trace_priority (S : Sorter) (s0 : State) (k : Nat) (i : Nat) :
    (deref ((sjfStep S)^[k] s0).processes i).priority = (deref s0.processes i).priority := by
  induction k with
  | zero => rfl
  | succ k ih =>
    rw [Function.iterate_succ_apply', sjf_iter_priority (sjfStep_iter S _) i, ih]

/-- C15: frame.  For every workload, the vector left by `sjf` is ordered by
non-decreasing `arrivalTime` and is a permutation of the input in which every
record keeps its `id`, `arrivalTime`, `burstTime` and `priority`; the vector
left by `prioritySchedulingWithAging` is likewise ordered by `arrivalTime` and
a permutation of the input in which every record keeps its `id`,
`arrivalTime` and `burstTime`. -/
theorem frame_of_runs (S : Sorter) (processes : List Process) (agingInterval : Int) :
    (((sjf S processes).map
          (fun p => (p.id, p.arrivalTime, p.burstTime, p.priority))).Perm
        (processes.map (fun p => (p.id, p.arrivalTime, p.burstTime, p.priority))) ∧
      (sjf S processes).Pairwise (fun p q => p.arrivalTime ≤ q.arrivalTime)) ∧
    (((prioritySchedulingWithAging S processes agingInterval).map
          (fun p => (p.id, p.arrivalTime, p.burstTime))).Perm
        (processes.map (fun p => (p.id, p.arrivalTime, p.burstTime))) ∧
      (prioritySchedulingWithAging S processes agingInterval).Pairwise
        (fun p q => p.arrivalTime ≤ q.arrivalTime)) := by
  have hsorted := sort_arrival_pairwise S processes
  constructor
  · obtain ⟨n, hn, -, -⟩ := whileBusy_iterate (sjfStep S) (sjfStep_iter S)
      (State.init (S.sort arrivalLt processes))
    have hI := iterate_structural (sjfStep S) (sjfStep_iter S) (S.sort arrivalLt processes) n
    have hs : sjf S processes =
        ((sjfStep S)^[n] (State.init (S.sort arrivalLt processes))).processes :=
      congrArg State.processes hn
    have hkey : (sjf S processes).map (fun p => (p.id, p.arrivalTime, p.burstTime, p.priority)) =
        (S.sort arrivalLt processes).map
          (fun p => (p.id, p.arrivalTime, p.burstTime, p.priority)) := by
      rw [hs]
      apply map_eq_of_deref _ _ _ hI.len
      intro i
      obtain ⟨f1, f2, f3⟩ := hI.fixed i
      have f4 := sjf_trace_priority S (State.init (S.sort arrivalLt processes)) n i
      simp only [f1, f2, f3, f4]
      rfl
    have harr : (sjf S processes).map (fun p => p.arrivalTime) =
        (S.sort arrivalLt processes).map (fun p => p.arrivalTime) := by
      rw [hs]
      apply map_eq_of_deref _ _ _ hI.len
      intro i
      exact (hI.fixed i).2.1
    refine ⟨?_, ?_⟩
    · rw [hkey]
      exact (S.perm arrivalLt processes).map _
    · have h1 : ((S.sort arrivalLt processes).map (fun p => p.arrivalTime)).Pairwise
          (fun a b => a ≤ b) := List.pairwise_map.2 hsorted
      rw [← harr] at h1
      exact List.pairwise_map.1 h1
  · obtain ⟨n, hn, -, -⟩ := whileBusy_iterate (priorityStep S agingInterval)
      (priorityStep_iter S agingInterval) (State.init (S.sort arrivalLt processes))
    have hI := iterate_structural (priorityStep S agingInterval)
      (priorityStep_iter S agingInterval) (S.sort arrivalLt processes) n
    have hs : prioritySchedulingWithAging S processes agingInterval =
        ((priorityStep S agingInterval)^[n]
          (State.init (S.sort arrivalLt processes))).processes :=
      congrArg State.processes hn
    have hkey : (prioritySchedulingWithAging S processes agingInterval).map
          (fun p => (p.id, p.arrivalTime, p.burstTime)) =
        (S.sort arrivalLt processes).map (fun p => (p.id, p.arrivalTime, p.burstTime)) := by
      rw [hs]
      apply map_eq_of_deref _ _ _ hI.len
      intro i
      obtain ⟨f1, f2, f3⟩ := hI.fixed i
      simp only [f1, f2, f3]
    have harr : (prioritySchedulingWithAging S processes agingInterval).map
          (fun p => p.arrivalTime) =
        (S.sort arrivalLt processes).map (fun p => p.arrivalTime) := by
      rw [hs]
      apply map_eq_of_deref _ _ _ hI.len
      intro i
      exact (hI.fixed i).2.1
    refine ⟨?_, ?_⟩
    · rw [hkey]
      exact (S.perm arrivalLt processes).map _
    · have h1 : ((S.sort arrivalLt processes).map (fun p => p.arrivalTime)).Pairwise
          (fun a b => a ≤ b) := List.pairwise_map.2 hsorted
      rw [← harr] at h1
      exact List.pairwise_map.1 h1

/-! ## Work conservation -/

theorem conserving_init (P0 : List Process) (hA : ∀ p ∈ P0, 0 ≤ p.arrivalTime) :
    Conserving (State.init P0) := by
  refine ⟨Or.inr ⟨rfl, ?_⟩, fun i hi => absurd hi (init_not_dispatched P0 i)⟩
  intro i hi
  have hi2 : i < P0.length := by simpa [State.init] using hi
  exact hA _ ((mem_iff_deref P0 _).2 ⟨i, hi2, rfl⟩)

theorem conserving_step {P0 : List Process} {Sel : State → List Process → Nat → Prop}
    {s s' : State} (hF : ∀ p ∈ P0, p.startTime = -1) (hI : Inv P0 s) (hJ : Conserving s)
    (h : Iter Sel s s') : Conserving s' := by
  cases h with
  | idle hq hp =>
    refine ⟨Or.inr ⟨rfl, ?_⟩, ?_⟩
    · intro i hi
      have := hp i hi
      simp only
      omega
    · intro i hi
      rcases hJ.starts i ((idle_dispatched hq _ i).1 hi) with h1 | ⟨j, hji, hdj, hj⟩
      · exact Or.inl h1
      · exact Or.inr ⟨j, hji, (idle_dispatched hq _ j).2 hdj, hj⟩
  | run procs c rest hlen hsame hperm hsel =>
    obtain ⟨hc, -, -⟩ := run_undispatched s c rest hI.nodup hperm
    have hdisp := run_dispatched hI procs c rest (runToCompletion (deref procs c) s.time)
      (s.time + (deref procs c).burstTime) hlen hperm
    have hsc : (deref procs c).startTime = -1 := by
      rw [(hsame c).fields.2.2.2.2.1, (hI.untouched c hc).fields.2.2.2.2.1]
      exact deref_fresh hF c
    have hnew : deref (procs.set c (runToCompletion (deref procs c) s.time)) c =
        runToCompletion (deref procs c) s.time := run_deref_new hI procs c s.time hlen hc
    have hold : ∀ i, s.dispatched i →
        deref (procs.set c (runToCompletion (deref procs c) s.time)) i = deref procs i := by
      intro i hd
      apply run_deref_old
      rintro rfl
      exact hd.2 hc
    have hne : ∀ i, s.dispatched i → i ≠ c := by
      rintro i hd rfl
      exact hd.2 hc
    have hcs : (runToCompletion (deref procs c) s.time).startTime = s.time := by
      simp [runToCompletion, hsc]
    have hcf : (runToCompletion (deref procs c) s.time).finishTime =
        s.time + (deref procs c).burstTime := rfl
    have hca : (runToCompletion (deref procs c) s.time).arrivalTime =
        (deref procs c).arrivalTime := rfl
    refine ⟨Or.inl ⟨c, (hdisp c).2 (Or.inl rfl), ?_⟩, ?_⟩
    · simp only
      rw [hnew, hcf]
    · intro i hi
      simp only
      rcases (hdisp i).1 hi with rfl | hd
      · rw [hnew, hcs, hca]
        rcases hJ.clock with ⟨j, hdj, hj⟩ | ⟨hq, hp⟩
        · right
          refine ⟨j, hne j hdj, (hdisp j).2 (Or.inr hdj), ?_⟩
          rw [hold j hdj, (hsame j).fields.2.2.2.2.2.1]
          exact hj
        · left
          rcases mem_admitted (hperm.subset (List.mem_cons_self _ _)) with h1 | h1
          · rw [hq] at h1
            exact absurd h1 (List.not_mem_nil _)
          · have h2 := hp i h1.1
            have h3 := h1.2
            rw [(hsame i).fields.2.1]
            omega
      · rw [hold i hd, (hsame i).fields.2.2.2.2.1, (hsame i).fields.2.1]
        rcases hJ.starts i hd with h1 | ⟨j, hji, hdj, hj⟩
        · exact Or.inl h1
        · right
          refine ⟨j, hji, (hdisp j).2 (Or.inr hdj), ?_⟩
          rw [hold j hdj, (hsame j).fields.2.2.2.2.2.1]
          exact hj

/-- Work conservation for a loop body `step`. -/
theorem conserving_final {Sel : State → List Process → Nat → Prop} (step : State → State)
    (hstep : ∀ s, Iter Sel s (step s)) (P0 : List Process)
    (hF : ∀ p ∈ P0, p.startTime = -1) (hA : ∀ p ∈ P0, 0 ≤ p.arrivalTime)
    (i : Nat) (hi : i < (whileBusy step hstep (State.init P0)).processes.length) :
    (whileBusy step hstep (State.init P0)).processes[i].startTime =
      (whileBusy step hstep (State.init P0)).processes[i].arrivalTime ∨
    ∃ (j : Nat) (hj : j < (whileBusy step hstep (State.init P0)).processes.length), j ≠ i ∧
      (whileBusy step hstep (State.init P0)).processes[j].finishTime =
        (whileBusy step hstep (State.init P0)).processes[i].startTime := by
  obtain ⟨-, hJ, hnb⟩ := loop_final step hstep P0 Conserving (conserving_init P0 hA)
    (fun s hI hJ _ => conserving_step hF hI hJ (hstep s))
  rcases hJ.starts i (not_busy_dispatched hnb hi) with h1 | ⟨j, hji, hdj, hj⟩
  · left
    rw [← deref_eq_getElem _ i hi]
    exact h1
  · right
    refine ⟨j, hdj.1, hji, ?_⟩
    rw [← deref_eq_getElem _ i hi, ← deref_eq_getElem _ j hdj.1]
    exact hj

/-- C18: work conservation.  For every workload of freshly constructed records
with `arrivalTime >= 0` (and any burst times, in particular all `>= 0`) and for
both engines, the `startTime` of every record of the resulting vector equals
its own `arrivalTime` or the `finishTime` of another record. -/
theorem work_conserving (S : Sorter) (processes : List Process) (agingInterval : Int)
    (hfresh : ∀ p ∈ processes, p.startTime = -1)
    (harrival : ∀ p ∈ processes, 0 ≤ p.arrivalTime) :
    (∀ (i : Nat) (hi : i < (sjf S processes).length),
      (sjf S processes)[i].startTime = (sjf S processes)[i].arrivalTime ∨
      ∃ (j : Nat) (hj : j < (sjf S processes).length), j ≠ i ∧
        (sjf S processes)[j].finishTime = (sjf S processes)[i].startTime) ∧
    (∀ (i : Nat) (hi : i < (prioritySchedulingWithAging S processes agingInterval).length),
      (prioritySchedulingWithAging S processes agingInterval)[i].startTime =
        (prioritySchedulingWithAging S processes agingInterval)[i].arrivalTime ∨
      ∃ (j : Nat) (hj : j < (prioritySchedulingWithAging S processes agingInterval).length),
        j ≠ i ∧
        (prioritySchedulingWithAging S processes agingInterval)[j].finishTime =
          (prioritySchedulingWithAging S processes agingInterval)[i].startTime) := by
  have hF0 : ∀ p ∈ S.sort arrivalLt processes, p.startTime = -1 :=
    fun p hp => hfresh p ((S.perm _ _).subset hp)
  have hA0 : ∀ p ∈ S.sort arrivalLt processes, 0 ≤ p.arrivalTime :=
    fun p hp => harrival p ((S.perm _ _).subset hp)
  exact ⟨fun i hi => conserving_final (sjfStep S) (sjfStep_iter S) _ hF0 hA0 i hi,
    fun i hi => conserving_final (priorityStep S agingInterval)
      (priorityStep_iter S agingInterval) _ hF0 hA0 i hi⟩

theorem work_conserving_witness :
    (∀ p ∈ [Process.new 1 2 8 2, Process.new 2 0 3 1, Process.new 3 20 1 3],
      p.startTime = -1) ∧
    (∀ p ∈ [Process.new 1 2 8 2, Process.new 2 0 3 1, Process.new 3 20 1 3],
      0 ≤ p.arrivalTime) ∧
    ((∀ (i : Nat)
        (hi : i < (sjf insertionSorter
          [Process.new 1 2 8 2, Process.new 2 0 3 1, Process.new 3 20 1 3]).length),
        (sjf insertionSorter
          [Process.new 1 2 8 2, Process.new 2 0 3 1, Process.new 3 20 1 3])[i].startTime =
        (sjf insertionSorter
          [Process.new 1 2 8 2, Process.new 2 0 3 1, Process.new 3 20 1 3])[i].arrivalTime ∨
        ∃ (j : Nat)
          (hj : j < (sjf insertionSorter
            [Process.new 1 2 8 2, Process.new 2 0 3 1, Process.new 3 20 1 3]).length),
          j ≠ i ∧
          (sjf insertionSorter
            [Process.new 1 2 8 2, Process.new 2 0 3 1, Process.new 3 20 1 3])[j].finishTime =
          (sjf insertionSorter
            [Process.new 1 2 8 2, Process.new 2 0 3 1, Process.new 3 20 1 3])[i].startTime) ∧
     (∀ (i : Nat)
        (hi : i < (prioritySchedulingWithAging insertionSorter
          [Process.new 1 2 8 2, Process.new 2 0 3 1, Process.new 3 20 1 3] 4).length),
        (prioritySchedulingWithAging insertionSorter
          [Process.new 1 2 8 2, Process.new 2 0 3 1, Process.new 3 20 1 3] 4)[i].startTime =
        (prioritySchedulingWithAging insertionSorter
          [Process.new 1 2 8 2, Process.new 2 0 3 1, Process.new 3 20 1 3] 4)[i].arrivalTime ∨
        ∃ (j : Nat)
          (hj : j < (prioritySchedulingWithAging insertionSorter
            [Process.new 1 2 8 2, Process.new 2 0 3 1, Process.new 3 20 1 3] 4).length),
          j ≠ i ∧
          (prioritySchedulingWithAging insertionSorter
            [Process.new 1 2 8 2, Process.new 2 0 3 1, Process.new 3 20 1 3] 4)[j].finishTime =
          (prioritySchedulingWithAging insertionSorter
            [Process.new 1 2 8 2, Process.new 2 0 3 1, Process.new 3 20 1 3] 4)[i].startTime)) :=
  ⟨by decide, by decide, work_conserving insertionSorter _ 4 (by decide) (by decide)⟩

/-! ## The exact effect of the aging loop -/

theorem deref_ageOne_self (a t : Int) (ps : List Process) (i : Nat) (hi : i < ps.length) :
    deref (ageOne a t ps i) i = ageRecord a t (deref ps i) := by
  unfold ageOne ageRecord
  split
  · rw [deref_set, if_pos ⟨rfl, hi⟩]
  · rfl

theorem deref_ageOne_other (a t : Int) (ps : List Process) (i j : Nat) (h : j ≠ i) :
    deref (ageOne a t ps i) j = deref ps j := by
  unfold ageOne
  split
  · rw [deref_set, if_neg (fun hh => h hh.1.symm)]
  · rfl

/-- The aging loop over distinct valid pointers rewrites exactly the records
of the queue, each once. -/
theorem deref_aging (a t : Int) (ps : List Process) (q : List Nat) (hq : q.Nodup)
    (hb : ∀ i ∈ q, i < ps.length) (j : Nat) :
    deref (aging a t ps q) j = if j ∈ q then ageRecord a t (deref ps j) else deref ps j := by
  induction q generalizing ps with
  | nil => simp [aging_nil]
  | cons i q ih =>
    rw [aging_cons]
    obtain ⟨hiq, hq2⟩ := List.nodup_cons.1 hq
    have hb2 : ∀ x ∈ q, x < (ageOne a t ps i).length := by
      intro x hx
      rw [ageOne_length]
      exact hb x (List.mem_cons_of_mem _ hx)
    rw [ih (ageOne a t ps i) hq2 hb2]
    by_cases hji : j = i
    · subst hji
      rw [if_neg hiq, if_pos (List.mem_cons_self _ _)]
      exact deref_ageOne_self a t ps j (hb j (List.mem_cons_self _ _))
    · rw [deref_ageOne_other a t ps i j hji]
      by_cases hjq : j ∈ q
      · rw [if_pos hjq, if_pos (List.mem_cons_of_mem _ hjq)]
      · rw [if_neg hjq, if_neg]
        intro h
        rcases List.mem_cons.1 h with h1 | h1
        · exact hji h1
        · exact hjq h1

/-- The queue after admission holds distinct valid pointers. -/
theorem admitted_nodup {P0 : List Process} {s : State} (hI : Inv P0 s) :
    s.admitted.Nodup ∧ ∀ i ∈ s.admitted, i < s.processes.length := by
  constructor
  · have h1 : (s.processesReady.filter
        (fun i => decide ((deref s.processes i).arrivalTime ≤ s.time)) ++ s.readyQueue).Nodup :=
      hI.nodup.sublist (List.Sublist.append (List.filter_sublist _) (List.Sublist.refl _))
    exact (List.perm_append_comm.nodup_iff).1 h1
  · intro i hi
    rw [hI.len]
    apply hI.bound
    rcases mem_admitted hi with h1 | h1
    · exact Or.inr h1
    · exact Or.inl h1.1

theorem iterate_timing {Sel : State → List Process → Nat → Prop} (step : State → State)
    (hstep : ∀ s, Iter Sel s (step s)) (P0 : List Process) (hB : ∀ p ∈ P0, 0 ≤ p.burstTime)
    (k : Nat) : Timing (step^[k] (State.init P0)) := by
  induction k with
  | zero => exact timing_init P0
  | succ k ih =>
    rw [Function.iterate_succ_apply']
    exact timing_step hB (iterate_structural step hstep P0 k) ih (hstep _)

theorem admitted_arrived {s : State} (hT : Timing s) :
    ∀ i ∈ s.admitted, (deref s.processes i).arrivalTime ≤ s.time := by
  intro i hi
  rcases mem_admitted hi with h1 | h1
  · exact hT.ready i h1
  · exact h1.2

/-- C17: a non-positive `agingInterval` ages at every selection.  For every
workload without negative burst times and every `agingInterval <= 0`, at each
selection step of `prioritySchedulingWithAging` (an iteration `k` of the run
whose ready queue is not empty after admission) the threshold test
`time - arrivalTime >= agingInterval` is true for every queued record, the
aging loop replaces the priority of exactly these records by
`max(1, priority - 1)`, and the vector so aged is the one the comparator reads
and the dispatch writes to. -/
theorem nonpositive_interval_ages_all (S : Sorter) (processes : List Process)
    (agingInterval : Int) (hburst : ∀ p ∈ processes, 0 ≤ p.burstTime)
    (ha : agingInterval ≤ 0) (k : Nat)
    (hsel : (priorityTrace S processes agingInterval k).admitted ≠ []) :
    (∀ i ∈ (priorityTrace S processes agingInterval k).admitted,
      (priorityTrace S processes agingInterval k).time -
          (deref (priorityTrace S processes agingInterval k).processes i).arrivalTime ≥
        agingInterval ∧
      deref (aging agingInterval (priorityTrace S processes agingInterval k).time
          (priorityTrace S processes agingInterval k).processes
          (priorityTrace S processes agingInterval k).admitted) i =
        { deref (priorityTrace S processes agingInterval k).processes i with
          priority :=
            max 1
              ((deref (priorityTrace S processes agingInterval k).processes i).priority - 1) }) ∧
    (∀ i, i ∉ (priorityTrace S processes agingInterval k).admitted →
      deref (aging agingInterval (priorityTrace S processes agingInterval k).time
          (priorityTrace S processes agingInterval k).processes
          (priorityTrace S processes agingInterval k).admitted) i =
        deref (priorityTrace S processes agingInterval k).processes i) ∧
    priorityStep S agingInterval (priorityTrace S processes agingInterval k) =
      dispatch
        (aging agingInterval (priorityTrace S processes agingInterval k).time
          (priorityTrace S processes agingInterval k).processes
          (priorityTrace S processes agingInterval k).admitted)
        (priorityTrace S processes agingInterval k).time
        (priorityTrace S processes agingInterval k).notArrived
        (S.sort
          (priorityLt
            (aging agingInterval (priorityTrace S processes agingInterval k).time
              (priorityTrace S processes agingInterval k).processes
              (priorityTrace S processes agingInterval k).admitted))
          (priorityTrace S processes agingInterval k).admitted) := by
  have hB0 : ∀ p ∈ S.sort arrivalLt processes, 0 ≤ p.burstTime :=
    fun p hp => hburst p ((S.perm _ _).subset hp)
  have hI : Inv (S.sort arrivalLt processes) (priorityTrace S processes agingInterval k) :=
    iterate_structural (priorityStep S agingInterval) (priorityStep_iter S agingInterval) _ k
  have hT : Timing (priorityTrace S processes agingInterval k) :=
    iterate_timing (priorityStep S agingInterval) (priorityStep_iter S agingInterval) _ hB0 k
  generalize priorityTrace S processes agingInterval k = s at *
  obtain ⟨hnd, hbd⟩ := admitted_nodup hI
  have harr := admitted_arrived hT
  refine ⟨?_, ?_, ?_⟩
  · intro i hi
    have h1 := harr i hi
    have h2 : s.time - (deref s.processes i).arrivalTime ≥ agingInterval := by omega
    refine ⟨h2, ?_⟩
    rw [deref_aging _ _ _ _ hnd hbd, if_pos hi]
    unfold ageRecord
    rw [if_pos h2]
  · intro i hi
    rw [deref_aging _ _ _ _ hnd hbd, if_neg hi]
  · unfold priorityStep
    rw [admitArrived_eq]
    simp only [if_neg hsel]

theorem nonpositive_interval_ages_all_witness :
    (∀ p ∈ [Process.new 1 0 2 3, Process.new 2 0 1 5, Process.new 3 1 1 4], 0 ≤ p.burstTime) ∧
    (0 : Int) ≤ 0 ∧
    (priorityTrace insertionSorter
        [Process.new 1 0 2 3, Process.new 2 0 1 5, Process.new 3 1 1 4] 0 1).admitted ≠ [] ∧
    ((∀ i ∈ (priorityTrace insertionSorter
        [Process.new 1 0 2 3, Process.new 2 0 1 5, Process.new 3 1 1 4] 0 1).admitted,
      (priorityTrace insertionSorter
        [Process.new 1 0 2 3, Process.new 2 0 1 5, Process.new 3 1 1 4] 0 1).time -
          (deref (priorityTrace insertionSorter
        [Process.new 1 0 2 3, Process.new 2 0 1 5, Process.new 3 1 1 4] 0 1).processes i).arrivalTime ≥ 0 ∧
      deref (aging 0 (priorityTrace insertionSorter
        [Process.new 1 0 2 3, Process.new 2 0 1 5, Process.new 3 1 1 4] 0 1).time
        (priorityTrace insertionSorter
        [Process.new 1 0 2 3, Process.new 2 0 1 5, Process.new 3 1 1 4] 0 1).processes
        (priorityTrace insertionSorter
        [Process.new 1 0 2 3, Process.new 2 0 1 5, Process.new 3 1 1 4] 0 1).admitted) i =
        { deref (priorityTrace insertionSorter
        [Process.new 1 0 2 3, Process.new 2 0 1 5, Process.new 3 1 1 4] 0 1).processes i with
          priority :=
            max 1 ((deref (priorityTrace insertionSorter
        [Process.new 1 0 2 3, Process.new 2 0 1 5, Process.new 3 1 1 4] 0 1).processes i).priority - 1) }) ∧
    (∀ i, i ∉ (priorityTrace insertionSorter
        [Process.new 1 0 2 3, Process.new 2 0 1 5, Process.new 3 1 1 4] 0 1).admitted →
      deref (aging 0 (priorityTrace insertionSorter
        [Process.new 1 0 2 3, Process.new 2 0 1 5, Process.new 3 1 1 4] 0 1).time
        (priorityTrace insertionSorter
        [Process.new 1 0 2 3, Process.new 2 0 1 5, Process.new 3 1 1 4] 0 1).processes
        (priorityTrace insertionSorter
        [Process.new 1 0 2 3, Process.new 2 0 1 5, Process.new 3 1 1 4] 0 1).admitted) i =
        deref (priorityTrace insertionSorter
        [Process.new 1 0 2 3, Process.new 2 0 1 5, Process.new 3 1 1 4] 0 1).processes i) ∧
    priorityStep insertionSorter 0 (priorityTrace insertionSorter
        [Process.new 1 0 2 3, Process.new 2 0 1 5, Process.new 3 1 1 4] 0 1) =
      dispatch (aging 0 (priorityTrace insertionSorter
        [Process.new 1 0 2 3, Process.new 2 0 1 5, Process.new 3 1 1 4] 0 1).time
        (priorityTrace insertionSorter
        [Process.new 1 0 2 3, Process.new 2 0 1 5, Process.new 3 1 1 4] 0 1).processes
        (priorityTrace insertionSorter
        [Process.new 1 0 2 3, Process.new 2 0 1 5, Process.new 3 1 1 4] 0 1).admitted)
        (priorityTrace insertionSorter
        [Process.new 1 0 2 3, Process.new 2 0 1 5, Process.new 3 1 1 4] 0 1).time
        (priorityTrace insertionSorter
        [Process.new 1 0 2 3, Process.new 2 0 1 5, Process.new 3 1 1 4] 0 1).notArrived
        (insertionSorter.sort (priorityLt (aging 0 (priorityTrace insertionSorter
        [Process.new 1 0 2 3, Process.new 2 0 1 5, Process.new 3 1 1 4] 0 1).time
        (priorityTrace insertionSorter
        [Process.new 1 0 2 3, Process.new 2 0 1 5, Process.new 3 1 1 4] 0 1).processes
        (priorityTrace insertionSorter
        [Process.new 1 0 2 3, Process.new 2 0 1 5, Process.new 3 1 1 4] 0 1).admitted))
          (priorityTrace insertionSorter
        [Process.new 1 0 2 3, Process.new 2 0 1 5, Process.new 3 1 1 4] 0 1).admitted)) :=
  ⟨by decide, by decide, by decide,
    nonpositive_interval_ages_all insertionSorter [Process.new 1 0 2 3, Process.new 2 0 1 5, Process.new 3 1 1 4] 0
      (by decide) (by decide) 1 (by decide)⟩

/-! ## The metrics reporter -/

theorem totals_foldl (F : DoubleArith) (processes : List Process) (w t : F.D) :
    processes.foldl
        (fun acc p => (F.add acc.1 (F.ofInt p.waitingTime), F.add acc.2 (F.ofInt p.turnAroundTime)))
        (w, t) =
      ((processes.map (fun p => p.waitingTime)).foldl (fun acc x => F.add acc (F.ofInt x)) w,
       (processes.map (fun p => p.turnAroundTime)).foldl (fun acc x => F.add acc (F.ofInt x)) t) := by
  induction processes generalizing w t with
  | nil => rfl
  | cons p ps ih =>
    rw [List.foldl_cons, ih]
    rfl

/-- C16 (as amended): the empty workload is not guarded.  Whatever the
arithmetic of `double`, `calculateAverageTimes` performs for every list, the
empty one included, the same two divisions of the accumulated totals by
`processes.size()`; applied to an empty list it therefore divides the totals
`0` by the list size zero, and what it yields is the result of these two
divisions, not a separate "no data" result. -/
theorem averages_unguarded (F : DoubleArith) :
    (∀ processes : List Process,
      calculateAverageTimes F processes =
        (F.div (F.total (processes.map (fun p => p.waitingTime))) (F.ofSize processes.length),
         F.div (F.total (processes.map (fun p => p.turnAroundTime)))
           (F.ofSize processes.length))) ∧
    calculateAverageTimes F [] =
      (F.div (F.ofInt 0) (F.ofSize 0), F.div (F.ofInt 0) (F.ofSize 0)) := by
  constructor
  · intro processes
    unfold calculateAverageTimes DoubleArith.total
    rw [totals_foldl]
  · rfl

/-- C16 as stated fails: on the empty list both values that
`calculateAverageTimes` prints are obtained by evaluating `0 / 0`, the total
`0` divided by the list size zero. -/
theorem empty_workload_divides_by_zero :
    ([] : List Process).length = 0 ∧
    calculateAverageTimes symbolic [] =
      (DoubleExpr.div (DoubleExpr.ofInt 0) (DoubleExpr.ofSize 0),
       DoubleExpr.div (DoubleExpr.ofInt 0) (DoubleExpr.ofSize 0)) :=
  ⟨rfl, rfl⟩

/-- If an iteration dispatches `c`, the ready queue after admission is not
empty and `c` is one of its pointers. -/
theorem priorityCurrent_mem {S : Sorter} {a : Int} {s : State} {c : Nat}
    (hc : priorityCurrent S a s = some c) : s.admitted ≠ [] ∧ c ∈ s.admitted := by
  have hne : s.admitted ≠ [] := by
    intro h
    rw [(priorityCurrent_spec S a).1 s h] at hc
    exact Option.noConfusion hc
  obtain ⟨c2, hc2, hcur⟩ := (priorityCurrent_spec S a).2 s hne
  rw [hcur] at hc
  rw [← Option.some.inj hc]
  exact ⟨hne, hc2⟩

/-- C12 (as amended): Scenario C.  For every workload run by
`prioritySchedulingWithAging` with `agingInterval = 2`, a record with
`arrivalTime = 0` and initial priority 3 that is dispatched at a clock value
`>= 4` (iteration `j` of the run selects its pointer `i`) has, at the moment it
is selected, priority `max(1, p - 1)`, where `p` (between 1 and 3) is its
priority before this step's aging: the priority at selection is 2 or 1. -/
theorem scenario_C_priority (S : Sorter) (processes : List Process) (j i : Nat)
    (hcur : priorityCurrent S 2 (priorityTrace S processes 2 j) = some i)
    (harr : (deref (S.sort arrivalLt processes) i).arrivalTime = 0)
    (hprio : (deref (S.sort arrivalLt processes) i).priority = 3)
    (ht : 4 ≤ (priorityTrace S processes 2 j).time) :
    (deref (aging 2 (priorityTrace S processes 2 j).time
        (priorityTrace S processes 2 j).processes
        (priorityTrace S processes 2 j).admitted) i).priority =
      max 1 ((deref (priorityTrace S processes 2 j).processes i).priority - 1) ∧
    1 ≤ (deref (priorityTrace S processes 2 j).processes i).priority ∧
    (deref (priorityTrace S processes 2 j).processes i).priority ≤ 3 ∧
    ((deref (aging 2 (priorityTrace S processes 2 j).time
        (priorityTrace S processes 2 j).processes
        (priorityTrace S processes 2 j).admitted) i).priority = 1 ∨
     (deref (aging 2 (priorityTrace S processes 2 j).time
        (priorityTrace S processes 2 j).processes
        (priorityTrace S processes 2 j).admitted) i).priority = 2) := by
  have hI : Inv (S.sort arrivalLt processes) (priorityTrace S processes 2 j) :=
    iterate_structural (priorityStep S 2) (priorityStep_iter S 2) _ j
  have hag := priority_trace_agedFrom S 2 (State.init (S.sort arrivalLt processes)) j i
    (by
      have : (deref (State.init (S.sort arrivalLt processes)).processes i).priority = 3 := hprio
      omega)
  have hag1 : (deref (priorityTrace S processes 2 j).processes i).priority ≤ 3 := by
    have := hag.1
    have h3 : (deref (State.init (S.sort arrivalLt processes)).processes i).priority = 3 := hprio
    rw [h3] at this
    exact this
  have hag2 : 1 ≤ (deref (priorityTrace S processes 2 j).processes i).priority := hag.2
  have harr2 : (deref (priorityTrace S processes 2 j).processes i).arrivalTime = 0 := by
    rw [(hI.fixed i).2.1]
    exact harr
  generalize priorityTrace S processes 2 j = s at *
  obtain ⟨-, hmem⟩ := priorityCurrent_mem hcur
  obtain ⟨hnd, hbd⟩ := admitted_nodup hI
  have hval : (deref (aging 2 s.time s.processes s.admitted) i).priority =
      max 1 ((deref s.processes i).priority - 1) := by
    rw [deref_aging _ _ _ _ hnd hbd, if_pos hmem]
    unfold ageRecord
    rw [if_pos (by omega)]
  refine ⟨hval, hag2, hag1, ?_⟩
  rw [hval]
  rcases le_total 1 ((deref s.processes i).priority - 1) with h | h
  · rw [max_eq_right h]
    omega
  · rw [max_eq_left h]
    exact Or.inl rfl

theorem scenario_C_priority_witness :
    priorityCurrent insertionSorter 2 (priorityTrace insertionSorter
        [Process.new 1 0 3 1, Process.new 2 0 3 2, Process.new 3 0 1 3] 2 2) = some 2 ∧
    (deref (insertionSorter.sort arrivalLt [Process.new 1 0 3 1, Process.new 2 0 3 2, Process.new 3 0 1 3]) 2).arrivalTime = 0 ∧
    (deref (insertionSorter.sort arrivalLt [Process.new 1 0 3 1, Process.new 2 0 3 2, Process.new 3 0 1 3]) 2).priority = 3 ∧
    4 ≤ (priorityTrace insertionSorter
        [Process.new 1 0 3 1, Process.new 2 0 3 2, Process.new 3 0 1 3] 2 2).time ∧
    ((deref (aging 2 (priorityTrace insertionSorter
        [Process.new 1 0 3 1, Process.new 2 0 3 2, Process.new 3 0 1 3] 2 2).time
        (priorityTrace insertionSorter
        [Process.new 1 0 3 1, Process.new 2 0 3 2, Process.new 3 0 1 3] 2 2).processes
        (priorityTrace insertionSorter
        [Process.new 1 0 3 1, Process.new 2 0 3 2, Process.new 3 0 1 3] 2 2).admitted) 2).priority =
      max 1 ((deref (priorityTrace insertionSorter
        [Process.new 1 0 3 1, Process.new 2 0 3 2, Process.new 3 0 1 3] 2 2).processes 2).priority - 1) ∧
    1 ≤ (deref (priorityTrace insertionSorter
        [Process.new 1 0 3 1, Process.new 2 0 3 2, Process.new 3 0 1 3] 2 2).processes 2).priority ∧
    (deref (priorityTrace insertionSorter
        [Process.new 1 0 3 1, Process.new 2 0 3 2, Process.new 3 0 1 3] 2 2).processes 2).priority ≤ 3 ∧
    ((deref (aging 2 (priorityTrace insertionSorter
        [Process.new 1 0 3 1, Process.new 2 0 3 2, Process.new 3 0 1 3] 2 2).time
        (priorityTrace insertionSorter
        [Process.new 1 0 3 1, Process.new 2 0 3 2, Process.new 3 0 1 3] 2 2).processes
        (priorityTrace insertionSorter
        [Process.new 1 0 3 1, Process.new 2 0 3 2, Process.new 3 0 1 3] 2 2).admitted) 2).priority = 1 ∨
     (deref (aging 2 (priorityTrace insertionSorter
        [Process.new 1 0 3 1, Process.new 2 0 3 2, Process.new 3 0 1 3] 2 2).time
        (priorityTrace insertionSorter
        [Process.new 1 0 3 1, Process.new 2 0 3 2, Process.new 3 0 1 3] 2 2).processes
        (priorityTrace insertionSorter
        [Process.new 1 0 3 1, Process.new 2 0 3 2, Process.new 3 0 1 3] 2 2).admitted) 2).priority = 2)) :=
  ⟨by decide, by decide, by decide, by decide,
    scenario_C_priority insertionSorter [Process.new 1 0 3 1, Process.new 2 0 3 2, Process.new 3 0 1 3] 2 2
      (by decide) (by decide) (by decide) (by decide)⟩

/-- C12 as stated fails: priorities are aged at selection steps only, not at
every multiple of `agingInterval`.  In the workload `(arrival 0, burst 10,
priority 1)`, `(arrival 0, burst 1, priority 3)` with `agingInterval = 2` the
selection steps are at clocks 0 and 10; the second record is still waiting at
tick 4, is aged once (at clock 10) and is selected there with priority 2. -/
theorem scenario_C_counterexample :
    priorityCurrent insertionSorter 2 (priorityTrace insertionSorter
        [Process.new 1 0 10 1, Process.new 2 0 1 3] 2 1) = some 1 ∧
    (deref (insertionSorter.sort arrivalLt [Process.new 1 0 10 1, Process.new 2 0 1 3]) 1).arrivalTime = 0 ∧
    (deref (insertionSorter.sort arrivalLt [Process.new 1 0 10 1, Process.new 2 0 1 3]) 1).priority = 3 ∧
    (priorityTrace insertionSorter
        [Process.new 1 0 10 1, Process.new 2 0 1 3] 2 1).time = 10 ∧
    (deref (aging 2 (priorityTrace insertionSorter
        [Process.new 1 0 10 1, Process.new 2 0 1 3] 2 1).time
        (priorityTrace insertionSorter
        [Process.new 1 0 10 1, Process.new 2 0 1 3] 2 1).processes
        (priorityTrace insertionSorter
        [Process.new 1 0 10 1, Process.new 2 0 1 3] 2 1).admitted) 1).priority = 2 := by
  decide

/-! ## How often a waiting record is promoted -/

theorem ageRecord_fields (a t : Int) (p : Process) :
    (ageRecord a t p).arrivalTime = p.arrivalTime ∧
    (ageRecord a t p).burstTime = p.burstTime ∧
    (ageRecord a t p).startTime = p.startTime ∧
    p.priority - 1 ≤ (ageRecord a t p).priority ∧
    ((ageRecord a t p).priority < p.priority → a ≤ t - p.arrivalTime) := by
  unfold ageRecord
  split
  · rename_i h
    refine ⟨rfl, rfl, rfl, ?_, fun _ => h⟩
    exact le_max_right _ _
  · refine ⟨rfl, rfl, rfl, ?_, ?_⟩
    · omega
    · intro h
      omega

theorem promoted_init (b a : Int) (P0 : List Process) : Promoted b a P0 (State.init P0) := by
  refine ⟨fun i _ => Or.inl ?_, fun i hi => absurd hi (init_not_dispatched P0 i)⟩
  simp [State.init]

/-- The arithmetic of one promotion: a reduction `r2 <= r + 1` that exceeds `r`
only when the threshold `a <= w` is met, followed by a clock advance of at
least `b`, keeps the bound `a + r2 * b <= w + d`. -/
theorem promotion_step {a b r r2 w d : Int} (hb : 0 ≤ b) (hd : b ≤ d)
    (hr : r2 ≤ r + 1) (hthr : r < r2 → a ≤ w)
    (h : r ≤ 0 ∨ a + r * b ≤ w) : r2 ≤ 0 ∨ a + r2 * b ≤ w + d := by
  by_cases h0 : r2 ≤ 0
  · exact Or.inl h0
  · right
    by_cases hlt : r < r2
    · have hw := hthr hlt
      have hr2 : r2 = r + 1 := by omega
      subst hr2
      rcases h with h | h
      · have hr0 : r = 0 := by omega
        subst hr0
        simp only [zero_add, one_mul]
        omega
      · have : (r + 1) * b = r * b + b := by ring
        rw [this]
        omega
    · have hle : r2 ≤ r := by omega
      rcases h with h | h
      · omega
      · have := mul_le_mul_of_nonneg_right hle hb
        omega

/-- The arithmetic of the promotion applied by the dispatching step itself. -/
theorem promotion_last {a b r r2 w : Int} (hb : 0 ≤ b)
    (hr : r2 ≤ r + 1) (hthr : r < r2 → a ≤ w)
    (h : r ≤ 0 ∨ a + r * b ≤ w) : r2 ≤ 0 ∨ a + (r2 - 1) * b ≤ w := by
  by_cases h0 : r2 ≤ 0
  · exact Or.inl h0
  · right
    by_cases hlt : r < r2
    · have hw := hthr hlt
      have hr2 : r2 = r + 1 := by omega
      subst hr2
      rcases h with h | h
      · have hr0 : r = 0 := by omega
        subst hr0
        simp only [zero_add, sub_self, zero_mul, add_zero]
        exact hw
      · have : (r + 1 - 1) * b = r * b := by ring
        rw [this]
        exact h
    · have hle : r2 - 1 ≤ r := by omega
      rcases h with h | h
      · omega
      · have := mul_le_mul_of_nonneg_right hle hb
        omega

theorem promoted_step {P0 : List Process} {S : Sorter} {a b : Int} {s s' : State}
    (hF : ∀ p ∈ P0, p.startTime = -1) (hb : 0 ≤ b) (hB : ∀ p ∈ P0, b ≤ p.burstTime)
    (hI : Inv P0 s) (hJ : Promoted b a P0 s) (h : Iter (SelPriority S a) s s') :
    Promoted b a P0 s' := by
  cases h with
  | idle hq hp =>
    refine ⟨?_, ?_⟩
    · intro i hi
      have hu : s.undispatched i := by
        rcases hi with hi | hi
        · exact Or.inl hi
        · simp at hi
      rcases hJ.waiting i hu with h1 | h1
      · exact Or.inl h1
      · right
        simp only
        omega
    · intro i hi
      exact hJ.ran i ((idle_dispatched hq _ i).1 hi)
  | run procs c rest hlen hsame hperm hsel =>
    obtain ⟨hc, -, hmem⟩ := run_undispatched s c rest hI.nodup hperm
    have hdisp := run_dispatched hI procs c rest (runToCompletion (deref procs c) s.time)
      (s.time + (deref procs c).burstTime) hlen hperm
    obtain ⟨hprocs, -, -⟩ := hsel
    obtain ⟨hnd, hbd⟩ := admitted_nodup hI
    have haged : ∀ i, (deref procs i).arrivalTime = (deref s.processes i).arrivalTime ∧
        (deref s.processes i).priority - 1 ≤ (deref procs i).priority ∧
        ((deref procs i).priority < (deref s.processes i).priority →
          a ≤ s.time - (deref s.processes i).arrivalTime) := by
      intro i
      rw [hprocs, deref_aging _ _ _ _ hnd hbd]
      split
      · obtain ⟨f1, -, -, f4, f5⟩ := ageRecord_fields a s.time (deref s.processes i)
        exact ⟨f1, f4, f5⟩
      · refine ⟨rfl, by omega, fun h => by omega⟩
    have hbc : b ≤ (deref procs c).burstTime := by
      rw [(hsame c).fields.2.2.1, (hI.fixed c).2.2]
      exact hB _ ((mem_iff_deref P0 _).2 ⟨c, hI.bound c hc, rfl⟩)
    have hsc : (deref procs c).startTime = -1 := by
      rw [(hsame c).fields.2.2.2.2.1, (hI.untouched c hc).fields.2.2.2.2.1]
      exact deref_fresh hF c
    have hnew : deref (procs.set c (runToCompletion (deref procs c) s.time)) c =
        runToCompletion (deref procs c) s.time := run_deref_new hI procs c s.time hlen hc
    refine ⟨?_, ?_⟩
    · intro i hi
      obtain ⟨hu, hne⟩ := (hmem i).1 hi
      obtain ⟨g1, g2, g3⟩ := haged i
      simp only
      rw [run_deref_old procs c i s.time hne, g1]
      have := promotion_step hb hbc
        (show (deref P0 i).priority - (deref procs i).priority ≤
          (deref P0 i).priority - (deref s.processes i).priority + 1 by omega)
        (fun hlt => g3 (by omega)) (hJ.waiting i hu)
      rcases this with h1 | h1
      · exact Or.inl h1
      · right
        omega
    · intro i hi
      simp only
      rcases (hdisp i).1 hi with rfl | hd
      · obtain ⟨g1, g2, g3⟩ := haged i
        rw [hnew]
        have hs : (runToCompletion (deref procs i) s.time).startTime = s.time := by
          simp [runToCompletion, hsc]
        have hp : (runToCompletion (deref procs i) s.time).priority =
            (deref procs i).priority := rfl
        have ha2 : (runToCompletion (deref procs i) s.time).arrivalTime =
            (deref procs i).arrivalTime := rfl
        rw [hs, hp, ha2, g1]
        exact promotion_last hb
          (show (deref P0 i).priority - (deref procs i).priority ≤
            (deref P0 i).priority - (deref s.processes i).priority + 1 by omega)
          (fun hlt => g3 (by omega)) (hJ.waiting i hc)
      · have hne : i ≠ c := by
          rintro rfl
          exact hd.2 hc
        have hnot : i ∉ s.admitted := by
          intro hin
          apply hd.2
          rcases mem_admitted hin with h1 | h1
          · exact Or.inr h1
          · exact Or.inl h1.1
        have hsame2 : deref procs i = deref s.processes i := by
          rw [hprocs, deref_aging _ _ _ _ hnd hbd, if_neg hnot]
        rw [run_deref_old procs c i s.time hne, hsame2]
        exact hJ.ran i hd

/-- The promotion bound at the end of the run, for burst times of at least
`b >= 0`: the wait `w = startTime - arrivalTime` is not negative, and a record
whose priority was lowered by `r > 0` has `agingInterval + (r - 1) * b <= w`. -/
theorem promoted_final (S : Sorter) (processes : List Process) (a b : Int)
    (hfresh : ∀ p ∈ processes, p.startTime = -1) (hb : 0 ≤ b)
    (hB : ∀ p ∈ processes, b ≤ p.burstTime) (i : Nat)
    (h1 : i < (prioritySchedulingWithAging S processes a).length)
    (h2 : i < (S.sort arrivalLt processes).length) :
    0 ≤ (prioritySchedulingWithAging S processes a)[i].startTime -
        (prioritySchedulingWithAging S processes a)[i].arrivalTime ∧
    ((S.sort arrivalLt processes)[i].priority -
        (prioritySchedulingWithAging S processes a)[i].priority ≤ 0 ∨
      a + ((S.sort arrivalLt processes)[i].priority -
          (prioritySchedulingWithAging S processes a)[i].priority - 1) * b ≤
        (prioritySchedulingWithAging S processes a)[i].startTime -
          (prioritySchedulingWithAging S processes a)[i].arrivalTime) := by
  have hF0 : ∀ p ∈ S.sort arrivalLt processes, p.startTime = -1 :=
    fun p hp => hfresh p ((S.perm _ _).subset hp)
  have hB0 : ∀ p ∈ S.sort arrivalLt processes, b ≤ p.burstTime :=
    fun p hp => hB p ((S.perm _ _).subset hp)
  have hB1 : ∀ p ∈ S.sort arrivalLt processes, 0 ≤ p.burstTime :=
    fun p hp => le_trans hb (hB0 p hp)
  obtain ⟨-, ⟨-, -, hT, hP⟩, hnb⟩ := loop_final (priorityStep S a) (priorityStep_iter S a)
    (S.sort arrivalLt processes)
    (fun s => Timing s ∧ Fresh s ∧ FreshTiming s ∧ Promoted b a (S.sort arrivalLt processes) s)
    ⟨timing_init _, fresh_init _, freshTiming_init _, promoted_init b a _⟩
    (fun s hI hJ _ => ⟨timing_step hB1 hI hJ.1 (priorityStep_iter S a s),
      fresh_step hF0 hI hJ.2.1 (priorityStep_iter S a s),
      freshTiming_step hF0 hB1 hI hJ.1 hJ.2.2.1 (priorityStep_iter S a s),
      promoted_step hF0 hb hB0 hI hJ.2.2.2 (priorityStep_iter S a s)⟩)
  have hd := not_busy_dispatched hnb h1
  have hs := hT.started i hd
  have hr := hP.ran i hd
  rw [← deref_eq_getElem _ i h1, ← deref_eq_getElem _ i h2]
  constructor
  · have : (deref (prioritySchedulingWithAging S processes a) i).arrivalTime ≤
        (deref (prioritySchedulingWithAging S processes a) i).startTime := hs
    omega
  · exact hr

/-- C11 (as amended): how the number of promotions depends on the wait.  For
every workload of freshly constructed records, every `agingInterval >= 1` and a
record that waited `w = startTime - arrivalTime` ticks: if all burst times are
at least `agingInterval` and `k * agingInterval <= w < (k + 1) * agingInterval`,
`prioritySchedulingWithAging` lowers its priority by at most `k`; if all burst
times are at least 1, by at most `max(0, w - agingInterval + 1)`; and if all
burst times are at least 0 and `w < agingInterval`, not at all. -/
theorem promotions_bounded (S : Sorter) (processes : List Process) (agingInterval : Int)
    (ha : 1 ≤ agingInterval) (hfresh : ∀ p ∈ processes, p.startTime = -1) :
    ((∀ p ∈ processes, agingInterval ≤ p.burstTime) →
      ∀ (i : Nat) (h1 : i < (prioritySchedulingWithAging S processes agingInterval).length)
        (h2 : i < (S.sort arrivalLt processes).length) (k : Int),
        k * agingInterval ≤
          (prioritySchedulingWithAging S processes agingInterval)[i].startTime -
            (prioritySchedulingWithAging S processes agingInterval)[i].arrivalTime →
        (prioritySchedulingWithAging S processes agingInterval)[i].startTime -
            (prioritySchedulingWithAging S processes agingInterval)[i].arrivalTime <
          (k + 1) * agingInterval →
        (S.sort arrivalLt processes)[i].priority -
          (prioritySchedulingWithAging S processes agingInterval)[i].priority ≤ k) ∧
    ((∀ p ∈ processes, 1 ≤ p.burstTime) →
      ∀ (i : Nat) (h1 : i < (prioritySchedulingWithAging S processes agingInterval).length)
        (h2 : i < (S.sort arrivalLt processes).length),
        (S.sort arrivalLt processes)[i].priority -
            (prioritySchedulingWithAging S processes agingInterval)[i].priority ≤
          max 0
            ((prioritySchedulingWithAging S processes agingInterval)[i].startTime -
              (prioritySchedulingWithAging S processes agingInterval)[i].arrivalTime -
              agingInterval + 1)) ∧
    ((∀ p ∈ processes, 0 ≤ p.burstTime) →
      ∀ (i : Nat) (h1 : i < (prioritySchedulingWithAging S processes agingInterval).length)
        (h2 : i < (S.sort arrivalLt processes).length),
        (prioritySchedulingWithAging S processes agingInterval)[i].startTime -
            (prioritySchedulingWithAging S processes agingInterval)[i].arrivalTime <
          agingInterval →
        (S.sort arrivalLt processes)[i].priority -
          (prioritySchedulingWithAging S processes agingInterval)[i].priority ≤ 0) := by
  refine ⟨?_, ?_, ?_⟩
  · intro hB i h1 h2 k hk1 hk2
    obtain ⟨hw, hr⟩ := promoted_final S processes agingInterval agingInterval hfresh
      (by omega) hB i h1 h2
    generalize (S.sort arrivalLt processes)[i].priority -
      (prioritySchedulingWithAging S processes agingInterval)[i].priority = r at hr ⊢
    generalize (prioritySchedulingWithAging S processes agingInterval)[i].startTime -
      (prioritySchedulingWithAging S processes agingInterval)[i].arrivalTime = w at *
    have hk0 : 0 ≤ k := by
      by_contra hneg
      have : (k + 1) * agingInterval ≤ 0 :=
        mul_nonpos_of_nonpos_of_nonneg (by omega) (by omega)
      omega
    rcases hr with hr | hr
    · omega
    · have h3 : agingInterval + (r - 1) * agingInterval = r * agingInterval := by ring
      rw [h3] at hr
      have h4 : r * agingInterval < (k + 1) * agingInterval := by omega
      have h5 : r < k + 1 := lt_of_mul_lt_mul_right h4 (by omega)
      omega
  · intro hB i h1 h2
    obtain ⟨hw, hr⟩ := promoted_final S processes agingInterval 1 hfresh
      (by omega) hB i h1 h2
    rcases hr with hr | hr
    · exact le_trans hr (le_max_left _ _)
    · refine le_trans ?_ (le_max_right _ _)
      rw [mul_one] at hr
      omega
  · intro hB i h1 h2 hlt
    obtain ⟨hw, hr⟩ := promoted_final S processes agingInterval 0 hfresh
      (le_refl _) hB i h1 h2
    rcases hr with hr | hr
    · exact hr
    · rw [mul_zero, add_zero] at hr
      omega

theorem promotions_bounded_witness :
    (1 : Int) ≤ 2 ∧
    (∀ p ∈ [Process.new 1 0 3 1, Process.new 2 1 2 9, Process.new 3 2 2 2], p.startTime = -1) ∧
    (((∀ p ∈ [Process.new 1 0 3 1, Process.new 2 1 2 9, Process.new 3 2 2 2], 2 ≤ p.burstTime) →
      ∀ (i : Nat) (h1 : i < (prioritySchedulingWithAging insertionSorter [Process.new 1 0 3 1, Process.new 2 1 2 9, Process.new 3 2 2 2] 2).length)
        (h2 : i < (insertionSorter.sort arrivalLt [Process.new 1 0 3 1, Process.new 2 1 2 9, Process.new 3 2 2 2]).length) (k : Int),
        k * 2 ≤
          (prioritySchedulingWithAging insertionSorter [Process.new 1 0 3 1, Process.new 2 1 2 9, Process.new 3 2 2 2] 2)[i].startTime -
            (prioritySchedulingWithAging insertionSorter [Process.new 1 0 3 1, Process.new 2 1 2 9, Process.new 3 2 2 2] 2)[i].arrivalTime →
        (prioritySchedulingWithAging insertionSorter [Process.new 1 0 3 1, Process.new 2 1 2 9, Process.new 3 2 2 2] 2)[i].startTime -
            (prioritySchedulingWithAging insertionSorter [Process.new 1 0 3 1, Process.new 2 1 2 9, Process.new 3 2 2 2] 2)[i].arrivalTime <
          (k + 1) * 2 →
        (insertionSorter.sort arrivalLt [Process.new 1 0 3 1, Process.new 2 1 2 9, Process.new 3 2 2 2])[i].priority -
          (prioritySchedulingWithAging insertionSorter [Process.new 1 0 3 1, Process.new 2 1 2 9, Process.new 3 2 2 2] 2)[i].priority ≤ k) ∧
    ((∀ p ∈ [Process.new 1 0 3 1, Process.new 2 1 2 9, Process.new 3 2 2 2], 1 ≤ p.burstTime) →
      ∀ (i : Nat) (h1 : i < (prioritySchedulingWithAging insertionSorter [Process.new 1 0 3 1, Process.new 2 1 2 9, Process.new 3 2 2 2] 2).length)
        (h2 : i < (insertionSorter.sort arrivalLt [Process.new 1 0 3 1, Process.new 2 1 2 9, Process.new 3 2 2 2]).length),
        (insertionSorter.sort arrivalLt [Process.new 1 0 3 1, Process.new 2 1 2 9, Process.new 3 2 2 2])[i].priority -
            (prioritySchedulingWithAging insertionSorter [Process.new 1 0 3 1, Process.new 2 1 2 9, Process.new 3 2 2 2] 2)[i].priority ≤
          max 0
            ((prioritySchedulingWithAging insertionSorter [Process.new 1 0 3 1, Process.new 2 1 2 9, Process.new 3 2 2 2] 2)[i].startTime -
              (prioritySchedulingWithAging insertionSorter [Process.new 1 0 3 1, Process.new 2 1 2 9, Process.new 3 2 2 2] 2)[i].arrivalTime -
              2 + 1)) ∧
    ((∀ p ∈ [Process.new 1 0 3 1, Process.new 2 1 2 9, Process.new 3 2 2 2], 0 ≤ p.burstTime) →
      ∀ (i : Nat) (h1 : i < (prioritySchedulingWithAging insertionSorter [Process.new 1 0 3 1, Process.new 2 1 2 9, Process.new 3 2 2 2] 2).length)
        (h2 : i < (insertionSorter.sort arrivalLt [Process.new 1 0 3 1, Process.new 2 1 2 9, Process.new 3 2 2 2]).length),
        (prioritySchedulingWithAging insertionSorter [Process.new 1 0 3 1, Process.new 2 1 2 9, Process.new 3 2 2 2] 2)[i].startTime -
            (prioritySchedulingWithAging insertionSorter [Process.new 1 0 3 1, Process.new 2 1 2 9, Process.new 3 2 2 2] 2)[i].arrivalTime <
          2 →
        (insertionSorter.sort arrivalLt [Process.new 1 0 3 1, Process.new 2 1 2 9, Process.new 3 2 2 2])[i].priority -
          (prioritySchedulingWithAging insertionSorter [Process.new 1 0 3 1, Process.new 2 1 2 9, Process.new 3 2 2 2] 2)[i].priority ≤ 0)) :=
  ⟨by decide, by decide,
    promotions_bounded insertionSorter [Process.new 1 0 3 1, Process.new 2 1 2 9, Process.new 3 2 2 2] 2
      (by decide) (by decide)⟩

/-- C11 as stated fails: a waiting record is promoted at every selection
step past the threshold, and selection steps can be one tick apart.  In the
freshly constructed workload `(arrival 0, burst 3, priority 1)`,
`(arrival 1, burst 1, priority 9)`, `(arrival 2, burst 1, priority 2)`,
`(arrival 3, burst 1, priority 3)` with `agingInterval = 2` no comparator has a
tie; the selection steps are at clocks 0, 3, 4 and 5, the second record is
promoted at 3, 4 and 5 and starts at 5: it waited `w = 4` ticks
(`2 * 2 <= 4 < 3 * 2`, so `k = 2`) and its priority went from 9 to 6, a
reduction of 3. -/
theorem promotions_counterexample :
    (∀ p ∈ [Process.new 1 0 3 1, Process.new 2 1 1 9, Process.new 3 2 1 2, Process.new 4 3 1 3],
      p.startTime = -1) ∧
    ∃ p ∈ prioritySchedulingWithAging insertionSorter
        [Process.new 1 0 3 1, Process.new 2 1 1 9, Process.new 3 2 1 2, Process.new 4 3 1 3] 2,
      p.id = 2 ∧ p.arrivalTime = 1 ∧ p.startTime = 5 ∧
      2 * 2 ≤ p.startTime - p.arrivalTime ∧ p.startTime - p.arrivalTime < (2 + 1) * 2 ∧
      p.priority = 6 ∧ ¬ (9 - p.priority ≤ 2) := by
  refine ⟨by decide, ?_⟩
  rw [priority_eq_iterate insertionSorter _ 2 4 (by decide)]
  decide

/-! ## Running the priority engine on records that differ in derived fields -/

theorem insertSorted_map {α β : Type} (f : α → β) (lt : β → β → Bool) (x : α) (l : List α) :
    insertSorted lt (f x) (l.map f) = (insertSorted (fun a b => lt (f a) (f b)) x l).map f := by
  induction l with
  | nil => rfl
  | cons y ys ih =>
    simp only [List.map_cons, insertSorted]
    split
    · rw [ih]
      rfl
    · rfl

theorem isort_map {α β : Type} (f : α → β) (lt : β → β → Bool) (l : List α) :
    isort lt (l.map f) = (isort (fun a b => lt (f a) (f b)) l).map f := by
  induction l with
  | nil => rfl
  | cons x xs ih =>
    simp only [List.map_cons, isort]
    rw [ih, insertSorted_map]

theorem insertionSorter_natural : insertionSorter.Natural :=
  fun _ _ f lt l => isort_map f lt l

theorem deref_map_refresh (P0 : List Process) (i : Nat) :
    deref (P0.map refresh) i = if i < P0.length then refresh (deref P0 i) else deref P0 i := by
  unfold deref
  rw [List.getElem?_map]
  by_cases h : i < P0.length
  · rw [if_pos h, List.getElem?_eq_getElem h]
    rfl
  · rw [if_neg h, List.getElem?_eq_none (by omega)]
    rfl

theorem deref_default (ps : List Process) (i : Nat) (h : ps.length ≤ i) :
    deref ps i = Process.new 0 0 0 0 := by
  unfold deref
  rw [List.getElem?_eq_none h]
  rfl

theorem sim_init (P0 : List Process) : Sim (State.init P0) (State.init (P0.map refresh)) := by
  refine ⟨rfl, ?_, rfl, ?_, ?_, ?_⟩
  · simp [State.init]
  · simp [State.init]
  · intro i
    simp only [State.init]
    rw [deref_map_refresh]
    split
    · exact ⟨rfl, rfl, rfl, rfl⟩
    · exact ⟨rfl, rfl, rfl, rfl⟩
  · intro i hu
    have hi : P0.length ≤ i := by
      by_contra hlt
      apply hu
      left
      simp only [State.init, List.mem_range]
      omega
    simp only [State.init]
    rw [deref_map_refresh, if_neg (by omega)]
    exact ⟨rfl, rfl, rfl⟩

theorem sim_admitted {s s' : State} (h : Sim s s') :
    s.admitted = s'.admitted ∧ s.notArrived = s'.notArrived := by
  unfold State.admitted State.notArrived
  rw [← h.queue, ← h.pending, ← h.time]
  constructor
  · congr 1
    apply List.filter_congr
    intro i _
    rw [(h.input i).2.1]
  · apply List.filter_congr
    intro i _
    rw [(h.input i).2.1]

theorem ageOne_sameInput (a t : Int) (ps ps' : List Process) (i : Nat)
    (hlen : ps.length = ps'.length) (h : ∀ j, SameInput (deref ps j) (deref ps' j)) :
    ∀ j, SameInput (deref (ageOne a t ps i) j) (deref (ageOne a t ps' i) j) := by
  intro j
  unfold ageOne
  rw [← (h i).2.1]
  split
  · rw [deref_set, deref_set, ← hlen]
    split
    · obtain ⟨g1, g2, g3, g4⟩ := h i
      exact ⟨g1, g2, g3, by simp only; rw [g4]⟩
    · exact h j
  · exact h j

theorem aging_sameInput (a t : Int) (ps ps' : List Process) (q : List Nat)
    (hlen : ps.length = ps'.length) (h : ∀ j, SameInput (deref ps j) (deref ps' j)) :
    ∀ j, SameInput (deref (aging a t ps q) j) (deref (aging a t ps' q) j) := by
  induction q generalizing ps ps' with
  | nil => exact h
  | cons i q ih =>
    rw [aging_cons, aging_cons]
    apply ih
    · rw [ageOne_length, ageOne_length, hlen]
    · exact ageOne_sameInput a t ps ps' i hlen h

theorem priorityLt_congr (ps ps' : List Process)
    (h : ∀ j, SameInput (deref ps j) (deref ps' j)) : priorityLt ps = priorityLt ps' := by
  funext x y
  unfold priorityLt
  rw [(h x).2.2.2, (h y).2.2.2, (h x).2.1, (h y).2.1]

theorem priorityStep_eq (S : Sorter) (a : Int) (s : State) :
    priorityStep S a s =
      if s.admitted = [] then
        { processes := s.processes, time := s.time + 1, processesReady := s.notArrived,
          readyQueue := s.admitted }
      else
        dispatch (aging a s.time s.processes s.admitted) s.time s.notArrived
          (S.sort (priorityLt (aging a s.time s.processes s.admitted)) s.admitted) := by
  unfold priorityStep
  rw [admitArrived_eq]

theorem undispatched_split {s : State} {i : Nat} (h : s.undispatched i) :
    i ∈ s.notArrived ∨ i ∈ s.admitted := by
  by_cases ha : (deref s.processes i).arrivalTime ≤ s.time
  · exact Or.inr (mem_admitted_of_arrived h ha)
  · rcases h with h | h
    · left
      unfold State.notArrived
      rw [List.mem_filter]
      exact ⟨h, by simpa using ha⟩
    · exact Or.inr (mem_admitted_of_queue h)

/-- One iteration of the priority engine keeps two states in lockstep. -/
theorem sim_step (S : Sorter) (a : Int) {s s' : State} (h : Sim s s') :
    Sim (priorityStep S a s) (priorityStep S a s') := by
  obtain ⟨hadm, hna⟩ := sim_admitted h
  rw [priorityStep_eq, priorityStep_eq, ← hadm, ← hna, ← h.time]
  by_cases hne : s.admitted = []
  · rw [if_pos hne, if_pos hne]
    refine ⟨rfl, rfl, rfl, h.len, h.input, ?_⟩
    intro i hu
    apply h.result i
    intro hu2
    apply hu
    rcases undispatched_split hu2 with h1 | h1
    · exact Or.inl h1
    · exact Or.inr h1
  · rw [if_neg hne, if_neg hne]
    have hin := aging_sameInput a s.time s.processes s'.processes s.admitted h.len h.input
    have hlt := priorityLt_congr _ _ hin
    rw [← hlt]
    have hlen : (aging a s.time s.processes s.admitted).length =
        (aging a s.time s'.processes s.admitted).length := by
      rw [aging_length, aging_length, h.len]
    generalize hsorted : S.sort (priorityLt (aging a s.time s.processes s.admitted))
      s.admitted = sorted
    have hperm : sorted.Perm s.admitted := by
      rw [← hsorted]
      exact S.perm _ _
    have hsne : sorted ≠ [] := by
      intro h0
      rw [h0] at hperm
      exact hne hperm.symm.eq_nil
    generalize hag : aging a s.time s.processes s.admitted = aged at *
    generalize hag' : aging a s.time s'.processes s.admitted = aged' at *
    unfold dispatch
    refine ⟨?_, rfl, rfl, ?_, ?_, ?_⟩
    · simp only
      rw [(hin (sorted.headD 0)).2.2.1]
    · simp only [List.length_set]
      exact hlen
    · intro i
      simp only
      rw [deref_dispatch, deref_dispatch, ← hlen]
      split
      · obtain ⟨g1, g2, g3, g4⟩ := hin (sorted.headD 0)
        exact ⟨g1, g2, g3, g4⟩
      · exact hin i
    · intro i hu
      simp only
      rw [deref_dispatch, deref_dispatch, ← hlen]
      split
      · obtain ⟨g1, g2, g3, g4⟩ := hin (sorted.headD 0)
        simp only [SameTimes, runToCompletion]
        rw [g2, g3]
        exact ⟨rfl, rfl, rfl⟩
      · rename_i hci
        by_cases hil : i < aged.length
        · have hu2 : ¬ s.undispatched i := by
            intro hu2
            rcases undispatched_split hu2 with h1 | h1
            · exact hu (Or.inl h1)
            · have h2 : i ∈ sorted := hperm.symm.subset h1
              rw [← headD_cons_tail hsne] at h2
              rcases List.mem_cons.1 h2 with h3 | h3
              · exact hci ⟨h3.symm, by rw [← h3]; exact hil⟩
              · exact hu (Or.inr h3)
          obtain ⟨r1, r2, r3⟩ := h.result i hu2
          have f := (aging_sameButPriority a s.time s.processes s.admitted i).fields
          have f' := (aging_sameButPriority a s.time s'.processes s.admitted i).fields
          rw [hag] at f
          rw [hag'] at f'
          refine ⟨?_, ?_, ?_⟩
          · rw [f.2.2.2.2.2.1, f'.2.2.2.2.2.1]
            exact r1
          · rw [f.2.2.2.2.2.2.1, f'.2.2.2.2.2.2.1]
            exact r2
          · rw [f.2.2.2.2.2.2.2, f'.2.2.2.2.2.2.2]
            exact r3
        · rw [deref_default aged i (by omega), deref_default aged' i (by omega)]
          exact ⟨rfl, rfl, rfl⟩

theorem sim_iterate (S : Sorter) (a : Int) {s s' : State} (h : Sim s s') (k : Nat) :
    Sim ((priorityStep S a)^[k] s) ((priorityStep S a)^[k] s') := by
  induction k with
  | zero => exact h
  | succ k ih =>
    rw [Function.iterate_succ_apply', Function.iterate_succ_apply']
    exact sim_step S a ih

theorem sim_busy {s s' : State} (h : Sim s s') : s.busy ↔ s'.busy := by
  unfold State.busy
  rw [h.pending, h.queue]

/-- Two runs of the priority engine from states in lockstep end in lockstep,
with every record carrying the same computed times. -/
theorem sim_final (S : Sorter) (a : Int) {s s' : State} (h : Sim s s') :
    (whileBusy (priorityStep S a) (priorityStep_iter S a) s).processes.length =
      (whileBusy (priorityStep S a) (priorityStep_iter S a) s').processes.length ∧
    ∀ i,
      SameInput (deref (whileBusy (priorityStep S a) (priorityStep_iter S a) s).processes i)
        (deref (whileBusy (priorityStep S a) (priorityStep_iter S a) s').processes i) ∧
      SameTimes (deref (whileBusy (priorityStep S a) (priorityStep_iter S a) s).processes i)
        (deref (whileBusy (priorityStep S a) (priorityStep_iter S a) s').processes i) := by
  obtain ⟨n, h1, h2, h3⟩ := whileBusy_iterate (priorityStep S a) (priorityStep_iter S a) s
  have h4 : whileBusy (priorityStep S a) (priorityStep_iter S a) s' =
      (priorityStep S a)^[n] s' := by
    apply whileBusy_eq_iterate
    exact ⟨fun k hk => (sim_busy (sim_iterate S a h k)).1 (h3 k hk),
      fun hb => h2 ((sim_busy (sim_iterate S a h n)).2 hb)⟩
  rw [h1, h4]
  have hsim := sim_iterate S a h n
  refine ⟨hsim.len, fun i => ⟨hsim.input i, hsim.result i ?_⟩⟩
  intro hu
  apply h2
  rcases hu with hu | hu
  · exact Or.inl (List.ne_nil_of_mem hu)
  · exact Or.inr (List.ne_nil_of_mem hu)

/-- An iteration of either engine does not write a `startTime` that is not
`-1`. -/
theorem iter_start_kept {Sel : State → List Process → Nat → Prop} {s s' : State}
    (h : Iter Sel s s') (i : Nat) (hs : (deref s.processes i).startTime ≠ -1) :
    (deref s'.processes i).startTime = (deref s.processes i).startTime := by
  cases h with
  | idle hq hp => rfl
  | run procs c rest hlen hsame hperm hsel =>
    simp only [deref_dispatch]
    split
    · rename_i hci
      obtain ⟨rfl, -⟩ := hci
      have h1 := (hsame c).fields.2.2.2.2.1
      simp only [runToCompletion]
      rw [h1, if_neg hs]
    · exact (hsame i).fields.2.2.2.2.1

theorem iterate_start_kept {Sel : State → List Process → Nat → Prop} (step : State → State)
    (hstep : ∀ s, Iter Sel s (step s)) (s : State) (k : Nat) (i : Nat)
    (hs : (deref s.processes i).startTime ≠ -1) :
    (deref (step^[k] s).processes i).startTime = (deref s.processes i).startTime := by
  induction k with
  | zero => rfl
  | succ k ih =>
    rw [Function.iterate_succ_apply', iter_start_kept (hstep _) i (by rw [ih]; exact hs), ih]

theorem sort_refresh (S : Sorter) (hS : S.Natural) (l : List Process) :
    S.sort arrivalLt (l.map refresh) = (S.sort arrivalLt l).map refresh := by
  rw [hS Process Process refresh arrivalLt l]
  rfl

/-- Where the two runs agree.  Running `prioritySchedulingWithAging` on the
records as left by `sjf` and running it on the same records with the derived
fields reset give, position by position, the same `finishTime`, `waitingTime`
and `turnAroundTime` (and the same `id`, `arrivalTime`, `burstTime` and
`priority`), for every sorter that looks at the records only through the
comparator.  The two runs can differ in `startTime` only: a record that enters
the run with a `startTime` other than `-1` leaves it with that same value. -/
theorem rerun_after_sjf (S : Sorter) (hS : S.Natural) (processes : List Process)
    (agingInterval : Int) :
    (prioritySchedulingWithAging S (sjf S processes) agingInterval).length =
      (prioritySchedulingWithAging S ((sjf S processes).map refresh) agingInterval).length ∧
    (∀ (i : Nat)
        (h1 : i < (prioritySchedulingWithAging S (sjf S processes) agingInterval).length)
        (h2 : i <
          (prioritySchedulingWithAging S ((sjf S processes).map refresh) agingInterval).length),
      (prioritySchedulingWithAging S (sjf S processes) agingInterval)[i].finishTime =
        (prioritySchedulingWithAging S ((sjf S processes).map refresh)
          agingInterval)[i].finishTime ∧
      (prioritySchedulingWithAging S (sjf S processes) agingInterval)[i].waitingTime =
        (prioritySchedulingWithAging S ((sjf S processes).map refresh)
          agingInterval)[i].waitingTime ∧
      (prioritySchedulingWithAging S (sjf S processes) agingInterval)[i].turnAroundTime =
        (prioritySchedulingWithAging S ((sjf S processes).map refresh)
          agingInterval)[i].turnAroundTime ∧
      (prioritySchedulingWithAging S (sjf S processes) agingInterval)[i].id =
        (prioritySchedulingWithAging S ((sjf S processes).map refresh) agingInterval)[i].id ∧
      (prioritySchedulingWithAging S (sjf S processes) agingInterval)[i].arrivalTime =
        (prioritySchedulingWithAging S ((sjf S processes).map refresh)
          agingInterval)[i].arrivalTime ∧
      (prioritySchedulingWithAging S (sjf S processes) agingInterval)[i].burstTime =
        (prioritySchedulingWithAging S ((sjf S processes).map refresh)
          agingInterval)[i].burstTime ∧
      (prioritySchedulingWithAging S (sjf S processes) agingInterval)[i].priority =
        (prioritySchedulingWithAging S ((sjf S processes).map refresh)
          agingInterval)[i].priority) ∧
    (∀ (i : Nat)
        (h1 : i < (prioritySchedulingWithAging S (sjf S processes) agingInterval).length)
        (h0 : i < (S.sort arrivalLt (sjf S processes)).length),
      (S.sort arrivalLt (sjf S processes))[i].startTime ≠ -1 →
      (prioritySchedulingWithAging S (sjf S processes) agingInterval)[i].startTime =
        (S.sort arrivalLt (sjf S processes))[i].startTime) := by
  have hfin := sim_final S agingInterval (sim_init (S.sort arrivalLt (sjf S processes)))
  have hdef : prioritySchedulingWithAging S ((sjf S processes).map refresh) agingInterval =
      (whileBusy (priorityStep S agingInterval) (priorityStep_iter S agingInterval)
        (State.init ((S.sort arrivalLt (sjf S processes)).map refresh))).processes := by
    unfold prioritySchedulingWithAging
    rw [sort_refresh S hS]
  refine ⟨?_, ?_, ?_⟩
  · rw [hdef]
    exact hfin.1
  · intro i h1 h2
    rw [← deref_eq_getElem _ i h1, ← deref_eq_getElem _ i h2, hdef]
    obtain ⟨⟨g1, g2, g3, g4⟩, ⟨t1, t2, t3⟩⟩ := hfin.2 i
    exact ⟨t1, t2, t3, g1, g2, g3, g4⟩
  · intro i h1 h0 hs
    obtain ⟨n, hn, -, -⟩ := whileBusy_iterate (priorityStep S agingInterval)
      (priorityStep_iter S agingInterval) (State.init (S.sort arrivalLt (sjf S processes)))
    rw [← deref_eq_getElem _ i h1, ← deref_eq_getElem _ i h0]
    unfold prioritySchedulingWithAging
    rw [hn]
    apply iterate_start_kept (priorityStep S agingInterval) (priorityStep_iter S agingInterval)
    rw [← deref_eq_getElem _ i h0] at hs
    exact hs

theorem rerun_after_sjf_witness :
    insertionSorter.Natural ∧
    ((prioritySchedulingWithAging insertionSorter (sjf insertionSorter [Process.new 1 0 8 1, Process.new 2 0 3 2]) 4).length =
      (prioritySchedulingWithAging insertionSorter ((sjf insertionSorter [Process.new 1 0 8 1, Process.new 2 0 3 2]).map refresh) 4).length ∧
    (∀ (i : Nat)
        (h1 : i < (prioritySchedulingWithAging insertionSorter (sjf insertionSorter [Process.new 1 0 8 1, Process.new 2 0 3 2]) 4).length)
        (h2 : i <
          (prioritySchedulingWithAging insertionSorter ((sjf insertionSorter [Process.new 1 0 8 1, Process.new 2 0 3 2]).map refresh) 4).length),
      (prioritySchedulingWithAging insertionSorter (sjf insertionSorter [Process.new 1 0 8 1, Process.new 2 0 3 2]) 4)[i].finishTime =
        (prioritySchedulingWithAging insertionSorter ((sjf insertionSorter [Process.new 1 0 8 1, Process.new 2 0 3 2]).map refresh)
          4)[i].finishTime ∧
      (prioritySchedulingWithAging insertionSorter (sjf insertionSorter [Process.new 1 0 8 1, Process.new 2 0 3 2]) 4)[i].waitingTime =
        (prioritySchedulingWithAging insertionSorter ((sjf insertionSorter [Process.new 1 0 8 1, Process.new 2 0 3 2]).map refresh)
          4)[i].waitingTime ∧
      (prioritySchedulingWithAging insertionSorter (sjf insertionSorter [Process.new 1 0 8 1, Process.new 2 0 3 2]) 4)[i].turnAroundTime =
        (prioritySchedulingWithAging insertionSorter ((sjf insertionSorter [Process.new 1 0 8 1, Process.new 2 0 3 2]).map refresh)
          4)[i].turnAroundTime ∧
      (prioritySchedulingWithAging insertionSorter (sjf insertionSorter [Process.new 1 0 8 1, Process.new 2 0 3 2]) 4)[i].id =
        (prioritySchedulingWithAging insertionSorter ((sjf insertionSorter [Process.new 1 0 8 1, Process.new 2 0 3 2]).map refresh) 4)[i].id ∧
      (prioritySchedulingWithAging insertionSorter (sjf insertionSorter [Process.new 1 0 8 1, Process.new 2 0 3 2]) 4)[i].arrivalTime =
        (prioritySchedulingWithAging insertionSorter ((sjf insertionSorter [Process.new 1 0 8 1, Process.new 2 0 3 2]).map refresh)
          4)[i].arrivalTime ∧
      (prioritySchedulingWithAging insertionSorter (sjf insertionSorter [Process.new 1 0 8 1, Process.new 2 0 3 2]) 4)[i].burstTime =
        (prioritySchedulingWithAging insertionSorter ((sjf insertionSorter [Process.new 1 0 8 1, Process.new 2 0 3 2]).map refresh)
          4)[i].burstTime ∧
      (prioritySchedulingWithAging insertionSorter (sjf insertionSorter [Process.new 1 0 8 1, Process.new 2 0 3 2]) 4)[i].priority =
        (prioritySchedulingWithAging insertionSorter ((sjf insertionSorter [Process.new 1 0 8 1, Process.new 2 0 3 2]).map refresh)
          4)[i].priority) ∧
    (∀ (i : Nat)
        (h1 : i < (prioritySchedulingWithAging insertionSorter (sjf insertionSorter [Process.new 1 0 8 1, Process.new 2 0 3 2]) 4).length)
        (h0 : i < (insertionSorter.sort arrivalLt (sjf insertionSorter [Process.new 1 0 8 1, Process.new 2 0 3 2])).length),
      (insertionSorter.sort arrivalLt (sjf insertionSorter [Process.new 1 0 8 1, Process.new 2 0 3 2]))[i].startTime ≠ -1 →
      (prioritySchedulingWithAging insertionSorter (sjf insertionSorter [Process.new 1 0 8 1, Process.new 2 0 3 2]) 4)[i].startTime =
        (insertionSorter.sort arrivalLt (sjf insertionSorter [Process.new 1 0 8 1, Process.new 2 0 3 2]))[i].startTime)) :=
  ⟨insertionSorter_natural,
    rerun_after_sjf insertionSorter insertionSorter_natural [Process.new 1 0 8 1, Process.new 2 0 3 2] 4⟩

/-- C13: the second run of `main` does not reassign `startTime`.  For the
records `(arrival 0, burst 8, priority 1)` and `(arrival 0, burst 3, priority 2)`,
`sjf` runs the second record first and leaves the start times 3 and 0.
`prioritySchedulingWithAging` (interval 4, as in `main`) on fresh records runs
the first record first and assigns the start times 0 and 8; on the records left
by `sjf` it assigns the same finish, waiting and turnaround times but leaves the
start times 3 and 0 of the earlier run, so that the first record is reported
with start 3, burst 8 and finish 8. -/
theorem rerun_keeps_stale_start :
    (sjf insertionSorter [Process.new 1 0 8 1, Process.new 2 0 3 2]).map
        (fun p => (p.id, p.startTime, p.finishTime, p.waitingTime, p.turnAroundTime)) =
      [(1, 3, 11, 3, 11), (2, 0, 3, 0, 3)] ∧
    (prioritySchedulingWithAging insertionSorter
        (sjf insertionSorter [Process.new 1 0 8 1, Process.new 2 0 3 2]) 4).map
        (fun p => (p.id, p.startTime, p.finishTime, p.waitingTime, p.turnAroundTime)) =
      [(1, 3, 8, 0, 8), (2, 0, 11, 8, 11)] ∧
    (prioritySchedulingWithAging insertionSorter
        [Process.new 1 0 8 1, Process.new 2 0 3 2] 4).map
        (fun p => (p.id, p.startTime, p.finishTime, p.waitingTime, p.turnAroundTime)) =
      [(1, 0, 8, 0, 8), (2, 8, 11, 8, 11)] ∧
    ¬ ∀ p ∈ prioritySchedulingWithAging insertionSorter
        (sjf insertionSorter [Process.new 1 0 8 1, Process.new 2 0 3 2]) 4,
      p.finishTime = p.startTime + p.burstTime := by
  have hs : sjf insertionSorter [Process.new 1 0 8 1, Process.new 2 0 3 2] =
      [{ Process.new 1 0 8 1 with
          startTime := 3, finishTime := 11, waitingTime := 3, turnAroundTime := 11 },
       { Process.new 2 0 3 2 with
          startTime := 0, finishTime := 3, waitingTime := 0, turnAroundTime := 3 }] := by
    rw [sjf_eq_iterate insertionSorter _ 2 (by decide)]
    decide
  have hp : prioritySchedulingWithAging insertionSorter
      [{ Process.new 1 0 8 1 with
          startTime := 3, finishTime := 11, waitingTime := 3, turnAroundTime := 11 },
       { Process.new 2 0 3 2 with
          startTime := 0, finishTime := 3, waitingTime := 0, turnAroundTime := 3 }] 4 =
      [{ Process.new 1 0 8 1 with
          startTime := 3, finishTime := 8, waitingTime := 0, turnAroundTime := 8 },
       { Process.new 2 0 3 2 with
          priority := 1, startTime := 0, finishTime := 11, waitingTime := 8,
          turnAroundTime := 11 }] := by
    rw [priority_eq_iterate insertionSorter _ 4 2 (by decide)]
    decide
  rw [hs, hp]
  refine ⟨by decide, by decide, ?_, by decide⟩
  rw [priority_eq_iterate insertionSorter _ 4 2 (by decide)]
  decide

/-! ## Shortest job first is optimal for simultaneous arrivals -/

theorem prefixSums_append (t : Int) (l : List Int) (b : Int) :
    prefixSums t (l ++ [b]) = prefixSums t l ++ [t + l.sum + b] := by
  induction l generalizing t with
  | nil => simp [prefixSums]
  | cons x xs ih =>
    show prefixSums t (x :: (xs ++ [b])) = prefixSums t (x :: xs) ++ [t + (x :: xs).sum + b]
    rw [prefixSums, ih, prefixSums, List.sum_cons, List.cons_append, ← add_assoc]

theorem prefixSums_sum (t : Int) (l : List Int) :
    (prefixSums t l).sum - l.sum = (backToBackWaits t l).sum := by
  induction l generalizing t with
  | nil => simp [prefixSums, backToBackWaits]
  | cons x xs ih =>
    simp only [prefixSums, backToBackWaits, List.sum_cons]
    have := ih (t + x)
    omega

/-- Moving a job from the front to its sorted position does not increase the
total waiting time. -/
theorem waits_orderedInsert (t b : Int) (l : List Int) :
    (backToBackWaits t (l.orderedInsert (fun x y => x ≤ y) b)).sum ≤
      (backToBackWaits t (b :: l)).sum := by
  induction l generalizing t with
  | nil => simp
  | cons y ys ih =>
    rw [List.orderedInsert]
    split
    · exact le_refl _
    · rename_i hby
      have h1 := ih (t + y)
      simp only [backToBackWaits, List.sum_cons] at h1 ⊢
      have h2 : t + y + b = t + b + y := by omega
      rw [h2] at h1
      omega

theorem waits_insertionSort (t : Int) (l : List Int) :
    (backToBackWaits t (l.insertionSort (fun x y => x ≤ y))).sum ≤ (backToBackWaits t l).sum := by
  induction l generalizing t with
  | nil => simp
  | cons b r ih =>
    rw [List.insertionSort]
    refine le_trans (waits_orderedInsert t b _) ?_
    simp only [backToBackWaits, List.sum_cons]
    have := ih (t + b)
    omega

/-- Among all orders of the same burst times, the non-decreasing one has the
least total waiting time. -/
theorem waits_sorted_le (bs l : List Int) (hs : bs.Pairwise (fun a b => a ≤ b))
    (hp : bs.Perm l) : (backToBackWaits 0 bs).sum ≤ (backToBackWaits 0 l).sum := by
  have h1 : bs = l.insertionSort (fun x y => x ≤ y) := by
    apply List.eq_of_perm_of_sorted (r := fun x y : Int => x ≤ y)
    · exact hp.trans (List.perm_insertionSort _ l).symm
    · exact hs
    · exact List.sorted_insertionSort _ l
  rw [h1]
  exact waits_insertionSort 0 l

theorem map_deref_range (l : List Process) : (List.range l.length).map (deref l) = l := by
  apply List.ext_getElem
  · simp
  · intro i h1 h2
    rw [List.getElem_map, List.getElem_range, deref_eq_getElem l i h2]

theorem sum_map_sub (l : List Process) (f g h : Process → Int)
    (hf : ∀ p ∈ l, f p = g p - h p) : (l.map f).sum = (l.map g).sum - (l.map h).sum := by
  induction l with
  | nil => simp
  | cons p ps ih =>
    simp only [List.map_cons, List.sum_cons]
    rw [hf p (List.mem_cons_self _ _), ih (fun q hq => hf q (List.mem_cons_of_mem _ hq))]
    omega

theorem ordered_init (P0 : List Process) : Ordered P0 (State.init P0) := by
  refine ⟨[], List.nodup_nil, ?_, List.Pairwise.nil, ?_, rfl, rfl, Or.inl rfl⟩
  · intro i
    constructor
    · intro h
      exact absurd h (List.not_mem_nil _)
    · intro h
      exact absurd h (init_not_dispatched P0 i)
  · intro i hi
    exact absurd hi (List.not_mem_nil _)

theorem ordered_step {P0 : List Process} (S : Sorter) {s s' : State}
    (hA : ∀ p ∈ P0, p.arrivalTime = 0) (hI : Inv P0 s) (hJ : Ordered P0 s) (hb : s.busy)
    (h : Iter (SelSjf S) s s') : Ordered P0 s' := by
  obtain ⟨order, hnd, hmem, hsorted, hmin, hfin, htime, hcase⟩ := hJ
  have harr : ∀ i ∈ s.processesReady, (deref s.processes i).arrivalTime ≤ s.time := by
    intro i hi
    rcases hcase with h0 | h0
    · have h1 : (deref s.processes i).arrivalTime = 0 := by
        rw [(hI.fixed i).2.1]
        exact hA _ ((mem_iff_deref P0 _).2 ⟨i, hI.bound i (Or.inl hi), rfl⟩)
      rw [h0] at htime
      simp only [List.map_nil, List.sum_nil] at htime
      omega
    · rw [h0] at hi
      exact absurd hi (List.not_mem_nil _)
  cases h with
  | idle hq hp =>
    exfalso
    rcases hb with hb | hb
    · obtain ⟨i, hi⟩ := List.exists_mem_of_ne_nil _ hb
      have h1 := harr i hi
      have h2 := hp i hi
      omega
    · exact hb hq
  | run procs c rest hlen hsame hperm hsel =>
    obtain ⟨hc, -, hmem2⟩ := run_undispatched s c rest hI.nodup hperm
    have hdisp := run_dispatched hI procs c rest (runToCompletion (deref procs c) s.time)
      (s.time + (deref procs c).burstTime) hlen hperm
    obtain ⟨hprocs, -, hsel2⟩ := hsel
    subst hprocs
    have hcnot : c ∉ order := fun hin => ((hmem c).1 hin).2 hc
    have hburst : ∀ i, (deref s.processes i).burstTime = (deref P0 i).burstTime :=
      fun i => (hI.fixed i).2.2
    have hcmin : ∀ j, s.undispatched j → (deref P0 c).burstTime ≤ (deref P0 j).burstTime := by
      intro j hj
      have hjadm : j ∈ s.admitted := by
        rcases hj with hj | hj
        · exact mem_admitted_of_arrived (Or.inl hj) (harr j hj)
        · exact mem_admitted_of_queue hj
      have := hsel2 j hjadm
      rw [hburst, hburst] at this
      exact this
    refine ⟨order ++ [c], ?_, ?_, ?_, ?_, ?_, ?_, Or.inr ?_⟩
    · rw [List.nodup_append]
      refine ⟨hnd, List.nodup_singleton c, ?_⟩
      intro x hx hx2
      rw [List.mem_singleton] at hx2
      subst hx2
      exact hcnot hx
    · intro i
      rw [List.mem_append, List.mem_singleton, hdisp i, hmem i]
      constructor
      · rintro (h1 | h1)
        · exact Or.inr h1
        · exact Or.inl h1
      · rintro (h1 | h1)
        · exact Or.inr h1
        · exact Or.inl h1
    · rw [List.map_append, List.pairwise_append]
      refine ⟨hsorted, by simp, ?_⟩
      intro x hx y hy
      obtain ⟨i, hi, rfl⟩ := List.mem_map.1 hx
      simp only [List.map_cons, List.map_nil, List.mem_singleton] at hy
      subst hy
      exact hmin i hi c hc
    · intro i hi j hj
      have hj2 := ((hmem2 j).1 hj).1
      rcases List.mem_append.1 hi with h1 | h1
      · exact hmin i h1 j hj2
      · rw [List.mem_singleton] at h1
        subst h1
        exact hcmin j hj2
    · simp only
      rw [List.map_append, List.map_append, List.map_singleton, List.map_singleton,
        prefixSums_append, ← hfin, ← htime]
      congr 1
      · apply List.map_congr_left
        intro i hi
        rw [run_deref_old]
        rintro rfl
        exact hcnot hi
      · rw [run_deref_new hI s.processes c s.time rfl hc]
        simp only [runToCompletion]
        rw [hburst c, zero_add]
    · simp only
      rw [List.map_append, List.sum_append, ← htime, hburst c]
      simp
    · simp only
      unfold State.notArrived
      rw [List.filter_eq_nil_iff]
      intro i hi
      have := harr i hi
      simpa using this

/-- C19: SJF is optimal for simultaneous arrivals.  For every workload in which
all processes have `arrivalTime = 0` (in particular every non-empty one with
burst times `>= 0`), the records left by `sjf`, taken in a suitable order of
non-decreasing `burstTime`, have as finish times the running sums of their
burst times, and the sum of their waiting times is at most the total waiting
time of running the same processes back to back from clock 0 in any order
`other`. -/
theorem sjf_optimal_simultaneous (S : Sorter) (processes : List Process)
    (harr : ∀ p ∈ processes, p.arrivalTime = 0) :
    (∃ order : List Process, order.Perm (sjf S processes) ∧
      order.Pairwise (fun p q => p.burstTime ≤ q.burstTime) ∧
      order.map (fun p => p.finishTime) = prefixSums 0 (order.map (fun p => p.burstTime))) ∧
    (∀ other : List Process, other.Perm processes →
      ((sjf S processes).map (fun p => p.waitingTime)).sum ≤
        (backToBackWaits 0 (other.map (fun p => p.burstTime))).sum) := by
  have hA0 : ∀ p ∈ S.sort arrivalLt processes, p.arrivalTime = 0 :=
    fun p hp => harr p ((S.perm _ _).subset hp)
  obtain ⟨hI, hJ, hnb⟩ := loop_final (sjfStep S) (sjfStep_iter S) (S.sort arrivalLt processes)
    (Ordered (S.sort arrivalLt processes)) (ordered_init _)
    (fun s hI hJ hb => ordered_step S hA0 hI hJ hb (sjfStep_iter S s))
  have hdef : sjf S processes =
      (whileBusy (sjfStep S) (sjfStep_iter S)
        (State.init (S.sort arrivalLt processes))).processes := rfl
  rw [hdef]
  generalize whileBusy (sjfStep S) (sjfStep_iter S)
    (State.init (S.sort arrivalLt processes)) = fin at *
  obtain ⟨σ, hnd, hmem, hsorted, -, hfin, -, -⟩ := hJ
  have hrange : σ.Perm (List.range fin.processes.length) := by
    rw [List.perm_ext_iff_of_nodup hnd (List.nodup_range _)]
    intro i
    rw [hmem i, List.mem_range]
    exact ⟨fun h => h.1, fun h => not_busy_dispatched hnb h⟩
  have hperm : (σ.map (deref fin.processes)).Perm fin.processes := by
    have := hrange.map (deref fin.processes)
    rw [map_deref_range] at this
    exact this
  have hbmap : (σ.map (deref fin.processes)).map (fun p => p.burstTime) =
      σ.map (fun i => (deref (S.sort arrivalLt processes) i).burstTime) := by
    rw [List.map_map]
    apply List.map_congr_left
    intro i _
    exact (hI.fixed i).2.2
  have hfmap : (σ.map (deref fin.processes)).map (fun p => p.finishTime) =
      prefixSums 0 ((σ.map (deref fin.processes)).map (fun p => p.burstTime)) := by
    rw [hbmap, ← hfin, List.map_map]
    rfl
  have hsorted2 : ((σ.map (deref fin.processes)).map (fun p => p.burstTime)).Pairwise
      (fun a b => a ≤ b) := by
    rw [hbmap]
    exact hsorted
  refine ⟨⟨σ.map (deref fin.processes), hperm, List.pairwise_map.1 hsorted2, hfmap⟩, ?_⟩
  intro other hother
  have hwait : ∀ p ∈ σ.map (deref fin.processes),
      p.waitingTime = p.finishTime - p.burstTime := by
    intro p hp
    obtain ⟨i, hi, rfl⟩ := List.mem_map.1 hp
    have hd := (hmem i).1 hi
    have h1 := (hI.metrics i hd).2
    have h2 : (deref fin.processes i).arrivalTime = 0 := by
      rw [(hI.fixed i).2.1]
      apply hA0
      exact (mem_iff_deref _ _).2 ⟨i, by rw [← hI.len]; exact hd.1, rfl⟩
    omega
  have hsum : (fin.processes.map (fun p => p.waitingTime)).sum =
      (backToBackWaits 0 ((σ.map (deref fin.processes)).map (fun p => p.burstTime))).sum := by
    rw [← (hperm.map (fun p => p.waitingTime)).sum_eq,
      sum_map_sub _ _ (fun p => p.finishTime) (fun p => p.burstTime) hwait, hfmap]
    exact prefixSums_sum 0 _
  rw [hsum]
  apply waits_sorted_le _ _ hsorted2
  have h1 : ((σ.map (deref fin.processes)).map (fun p => p.burstTime)).Perm
      (fin.processes.map (fun p => p.burstTime)) := hperm.map _
  have h2 : fin.processes.map (fun p => p.burstTime) =
      (S.sort arrivalLt processes).map (fun p => p.burstTime) := by
    apply map_eq_of_deref _ _ _ hI.len
    intro i
    exact (hI.fixed i).2.2
  rw [h2] at h1
  exact h1.trans (((S.perm arrivalLt processes).trans hother.symm).map _)

theorem sjf_optimal_simultaneous_witness :
    (∀ p ∈ [Process.new 1 0 8 1, Process.new 2 0 3 1, Process.new 3 0 5 2], p.arrivalTime = 0) ∧
    ((∃ order : List Process, order.Perm (sjf insertionSorter [Process.new 1 0 8 1, Process.new 2 0 3 1, Process.new 3 0 5 2]) ∧
      order.Pairwise (fun p q => p.burstTime ≤ q.burstTime) ∧
      order.map (fun p => p.finishTime) = prefixSums 0 (order.map (fun p => p.burstTime))) ∧
    (∀ other : List Process, other.Perm [Process.new 1 0 8 1, Process.new 2 0 3 1, Process.new 3 0 5 2] →
      ((sjf insertionSorter [Process.new 1 0 8 1, Process.new 2 0 3 1, Process.new 3 0 5 2]).map (fun p => p.waitingTime)).sum ≤
        (backToBackWaits 0 (other.map (fun p => p.burstTime))).sum)) :=
  ⟨by decide, sjf_optimal_simultaneous insertionSorter [Process.new 1 0 8 1, Process.new 2 0 3 1, Process.new 3 0 5 2] (by decide)⟩

end Lab3
